import Mathlib

/-!
# Rosetta: a verification development

Shallow embedding of `basic/thread_manager/RosettaThreadManager.hh` and of the
thread-pool machinery it fronts (namespace `ThreadManager`), and of the string and
configuration helpers of the binder, `python/PyRosetta/binder/util.cpp` and
`python/PyRosetta/binder/config.cpp` (namespace `binder`).  Code that is present in the
sources (`AtomicBoolContainer`, `total_threads`, the binder helpers) is transcribed from it;
the pieces of the thread manager whose implementation lives outside the header are modelled
from the design specification and are marked as such in their doc comments.
-/

namespace ThreadManager

/-! ## AtomicBoolContainer (RosettaThreadManager.hh, lines 60-87) -/

/-- A container for a `std::atomic_bool`; the only data member is `contained_bool_`. -/
structure AtomicBoolContainer where
  contained_bool_ : Bool
  deriving DecidableEq, Repr

namespace AtomicBoolContainer

/-- Default constructor: `contained_bool_ = false`. -/
def default : AtomicBoolContainer :=
  { contained_bool_ := false }

/-- Copy constructor: `contained_bool_ = src.contained_bool_.load()`. -/
def copy (src : AtomicBoolContainer) : AtomicBoolContainer :=
  { contained_bool_ := src.contained_bool_ }

end AtomicBoolContainer

/-- Object memory holding `AtomicBoolContainer` objects, keyed by address, so that
the identity test `this == &other` of the assignment operator can be expressed. -/
abbrev ContainerHeap := Nat → AtomicBoolContainer

/-- Store a container at an address. -/
def ContainerHeap.store (heap : ContainerHeap) (addr : Nat) (c : AtomicBoolContainer) :
    ContainerHeap :=
  fun a => if a = addr then c else heap a

/-- Assignment operator `operator=`: returns at once on self-assignment, otherwise
stores `other.contained_bool_.load()` into `this->contained_bool_`. -/
def AtomicBoolContainer.assign (heap : ContainerHeap) (this other : Nat) : ContainerHeap :=
  if this = other then heap
  else heap.store this { contained_bool_ := (heap other).contained_bool_ }

/-- Copy construction of a new object at address `this` from the object at `src`. -/
def AtomicBoolContainer.copy_construct (heap : ContainerHeap) (this src : Nat) : ContainerHeap :=
  heap.store this (AtomicBoolContainer.copy (heap src))

/-! ## total_threads (RosettaThreadManager.hh, lines 133-142) -/

/-- The threading options read from the options system: the value of
`-multithreading:total_threads` and the number of cores of the node. -/
structure ThreadingOptions where
  total_threads_option : Nat
  hardware_cores : Nat
  deriving DecidableEq, Repr

/-- The number of threads to launch: "Read from options system.  If the options system
specifies 0, this is set to the number of cores available on the current node"
(comment on `nthreads_`, RosettaThreadManager.hh line 393). -/
def configured_thread_count (opts : ThreadingOptions) : Nat :=
  if opts.total_threads_option = 0 then opts.hardware_cores else opts.total_threads_option

/-- The states of the initialization tracker. -/
inductive InitializationState
  | UNINITIALIZED
  | INITIALIZING
  | INITIALIZED
  deriving DecidableEq, Repr

/-- Modelled from the spec: `RosettaThreadManagerInitializationTracker`, whose header and
implementation are not part of the source tree.  It records how far pool initialization has
got and keeps the configured pool size once it has been read (`0` = not read yet), so that
the options system is not accessed repeatedly. -/
structure RosettaThreadManagerInitializationTracker where
  init_state : InitializationState
  total_threads_ : Nat
  deriving DecidableEq, Repr

namespace RosettaThreadManagerInitializationTracker

/-- Modelled from the spec: the tracker as it is before anything has touched it. -/
def fresh : RosettaThreadManagerInitializationTracker :=
  { init_state := InitializationState.UNINITIALIZED, total_threads_ := 0 }

/-- Modelled from the spec: `RosettaThreadManagerInitializationTracker::total_threads()`.
"Returns configured pool size ... without re-reading configuration each call": the first
call reads the options and stores the result, later calls return the stored value.  The
result is the returned count together with the tracker afterwards. -/
def total_threads (opts : ThreadingOptions) (t : RosettaThreadManagerInitializationTracker) :
    Nat × RosettaThreadManagerInitializationTracker :=
  if t.total_threads_ = 0 then
    (configured_thread_count opts, { t with total_threads_ := configured_thread_count opts })
  else
    (t.total_threads_, t)

end RosettaThreadManagerInitializationTracker

/-- The inline static method `RosettaThreadManager::total_threads()`:
```
#ifdef MULTI_THREADED
  return RosettaThreadManagerInitializationTracker::get_instance()->total_threads();
#else
  return 1;
#endif
```
The result is the returned count together with the tracker singleton afterwards. -/
def total_threads (MULTI_THREADED : Bool) (opts : ThreadingOptions)
    (tracker : RosettaThreadManagerInitializationTracker) :
    Nat × RosettaThreadManagerInitializationTracker :=
  if MULTI_THREADED then
    RosettaThreadManagerInitializationTracker.total_threads opts tracker
  else
    (1, tracker)

/-! ## The thread pool and the assignment record -/

/-- The record a dispatch call populates: the number of threads requested, the number
actually assigned, and the logical indices of the assigned threads (the requesting thread
first). -/
structure RosettaThreadAssignmentInfo where
  requested_thread_count : Nat
  assigned_total_thread_count : Nat
  assigned_thread_indices : List Nat
  deriving DecidableEq, Repr

/-- Modelled from the spec: `RosettaThreadPool`, which is only forward-declared in the
header.  A fixed collection of `nthreads` long-lived workers with logical indices
`1..nthreads`; `idle` lists the workers that are parked and may be handed work. -/
structure RosettaThreadPool where
  nthreads : Nat
  idle : List Nat
  deriving DecidableEq, Repr

/-- Modelled from the spec: `RosettaThreadAllocation` (its header is not in the source
tree): a handle on the pool threads a reservation holds, and whether they have been given
back already. -/
structure RosettaThreadAllocation where
  thread_ids : List Nat
  released : Bool
  deriving DecidableEq, Repr

namespace RosettaThreadPool

/-- Modelled from the spec: the pool right after creation, every worker idle. -/
def launch (n : Nat) : RosettaThreadPool :=
  { nthreads := n, idle := List.range' 1 n }

/-- Modelled from the spec: the number of further workers a request for `R` threads may
take: the request is clamped to the pool size, one of the threads is the requesting thread
itself ("up to (requested_thread_count - 1) other threads"), and only idle workers are
taken ("fewer if fewer are idle"; the pool never waits for more). -/
def others_to_assign (pool : RosettaThreadPool) (R : Nat) : Nat :=
  min (min R pool.nthreads - 1) pool.idle.length

/-- Modelled from the spec: claim threads for a request of `R` threads made by the thread
with logical index `caller`.  Returns the allocation, the populated assignment record, and
the pool with the claimed workers no longer idle. -/
def reserve_threads (pool : RosettaThreadPool) (caller R : Nat) :
    RosettaThreadAllocation × RosettaThreadAssignmentInfo × RosettaThreadPool :=
  let others := pool.idle.take (pool.others_to_assign R)
  ({ thread_ids := others, released := false },
   { requested_thread_count := R,
     assigned_total_thread_count := 1 + others.length,
     assigned_thread_indices := caller :: others },
   { pool with idle := pool.idle.drop (pool.others_to_assign R) })

/-- Modelled from the spec: hand the threads of an allocation back to the pool. -/
def release_threads (pool : RosettaThreadPool) (thread_ids : List Nat) : RosettaThreadPool :=
  { pool with idle := pool.idle ++ thread_ids }

end RosettaThreadPool

/-! ## The manager -/

/-- The private data of `RosettaThreadManager` (header lines 389-418) that the dispatch
logic depends on, together with the initialization-tracker singleton it consults. -/
structure RosettaThreadManager where
  nthreads_ : Nat
  thread_pool_ : Option RosettaThreadPool
  thread_pool_was_launched_ : Bool
  tracker : RosettaThreadManagerInitializationTracker
  deriving DecidableEq, Repr

namespace RosettaThreadManager

/-- The manager as constructed: `nthreads_ = 0`, `thread_pool_ = nullptr`. -/
def fresh : RosettaThreadManager :=
  { nthreads_ := 0, thread_pool_ := none, thread_pool_was_launched_ := false,
    tracker := RosettaThreadManagerInitializationTracker.fresh }

/-- Modelled from the spec: `create_thread_pool()`, "creates the thread pool if it has not
yet been created.  Safe to call repeatedly."  The number of threads to launch is the
configured total; the tracker ends INITIALIZED. -/
def create_thread_pool (opts : ThreadingOptions) (m : RosettaThreadManager) :
    RosettaThreadManager :=
  match m.thread_pool_ with
  | some _ => m
  | none =>
      let r := RosettaThreadManagerInitializationTracker.total_threads opts m.tracker
      { nthreads_ := r.1,
        thread_pool_ := some (RosettaThreadPool.launch r.1),
        thread_pool_was_launched_ := true,
        tracker := { r.2 with init_state := InitializationState.INITIALIZED } }

/-- Modelled from the spec: `launch_threads()`, "trigger launch of threads.  Does nothing
if threads already launched": the atomic was-launched flag is checked first, then
`create_thread_pool` is called. -/
def launch_threads (opts : ThreadingOptions) (m : RosettaThreadManager) : RosettaThreadManager :=
  if m.thread_pool_was_launched_ then m else create_thread_pool opts m

/-- The pool of a manager, or an empty pool when none has been created. -/
def pool (m : RosettaThreadManager) : RosettaThreadPool :=
  m.thread_pool_.getD { nthreads := 0, idle := [] }

/-- Modelled from the spec: `reserve_threads(requested_thread_count, thread_assignment)`.
Launches the pool on first use and claims threads from it.  In the single-threaded build
there is no pool: the reservation holds no pool thread and the record reports one assigned
thread, the caller. -/
def reserve_threads (MULTI_THREADED : Bool) (opts : ThreadingOptions)
    (m : RosettaThreadManager) (caller R : Nat) :
    RosettaThreadAllocation × RosettaThreadAssignmentInfo × RosettaThreadManager :=
  if MULTI_THREADED then
    let m1 := launch_threads opts m
    let r := m1.pool.reserve_threads caller R
    (r.1, r.2.1, { m1 with thread_pool_ := some r.2.2 })
  else
    ({ thread_ids := [], released := false },
     { requested_thread_count := R, assigned_total_thread_count := 1,
       assigned_thread_indices := [caller] },
     m)

/-- Modelled from the spec: `release_threads(allocation)`, also called by the
allocation when its scope ends: gives the threads back "if not already released"
and marks the allocation released. -/
def release_threads (MULTI_THREADED : Bool) (m : RosettaThreadManager)
    (allocation : RosettaThreadAllocation) : RosettaThreadAllocation × RosettaThreadManager :=
  if allocation.released then (allocation, m)
  else if MULTI_THREADED then
    ({ allocation with released := true },
     { m with
       thread_pool_ := Option.map (fun p => p.release_threads allocation.thread_ids)
         m.thread_pool_ })
  else
    ({ allocation with released := true }, m)

/-- The data of a manager agree with the threading options: the total stored in the tracker
is either not read yet or the configured count, and a pool exists exactly when the launch
flag is set, in which case it has the configured number of threads. -/
def consistent (opts : ThreadingOptions) (m : RosettaThreadManager) : Prop :=
  (m.tracker.total_threads_ = 0 ∨ m.tracker.total_threads_ = configured_thread_count opts) ∧
  match m.thread_pool_ with
  | none => m.thread_pool_was_launched_ = false
  | some p =>
      m.thread_pool_was_launched_ = true ∧ p.nthreads = configured_thread_count opts ∧
        m.nthreads_ = p.nthreads

/-- The number of pool threads currently available (idle). -/
def available_threads (m : RosettaThreadManager) : Nat :=
  m.pool.idle.length

/-- Modelled from the spec: `run_function_in_threads(function, requested_thread_count, key,
thread_assignment)` as far as the thread bookkeeping goes: the function is assigned to the
requesting thread and to the workers claimed for the request, the caller blocks until they
are idle again, and the workers go back to the pool.  The capability key carries no state. -/
def run_function_in_threads (MULTI_THREADED : Bool) (opts : ThreadingOptions)
    (m : RosettaThreadManager) (caller R : Nat) :
    RosettaThreadAssignmentInfo × RosettaThreadManager :=
  let r := reserve_threads MULTI_THREADED opts m caller R
  (r.2.1, (release_threads MULTI_THREADED r.2.2 r.1).2)

end RosettaThreadManager

/-! ## Work vectors -/

/-- One executed work item: the thread that ran it and the 1-based index of the item in
the work vector. -/
structure WorkEvent where
  thread : Nat
  item : Nat
  deriving DecidableEq, Repr

/-- What a dispatch call leaves behind: the populated assignment record, the work items
that were executed (in the order in which they were executed), and the manager. -/
structure DispatchResult where
  thread_assignment : RosettaThreadAssignmentInfo
  executed : List WorkEvent
  manager : RosettaThreadManager
  deriving DecidableEq, Repr

/-- Read the flag of job `i` (1-based, as in `utility::vector1`). -/
def job_flag (jobs_completed : List AtomicBoolContainer) (i : Nat) : Bool :=
  (jobs_completed.getD (i - 1) AtomicBoolContainer.default).contained_bool_

/-- Set the flag of job `i` (1-based) to true. -/
def mark_job (jobs_completed : List AtomicBoolContainer) (i : Nat) : List AtomicBoolContainer :=
  jobs_completed.set (i - 1) { contained_bool_ := true }

/-- Where one thread stands inside `work_vector_thread_function`: about to look at item
`i` of the scan, or holding the claim on item `i` and executing it. -/
inductive WorkerPosition
  | scanning (i : Nat)
  | executing (i : Nat)
  deriving DecidableEq, Repr

/-- The shared state of one `do_work_vector_in_threads` call: the per-item flags, the
position of every assigned thread (the requesting thread is thread 0), and the items
executed so far. -/
structure WorkVectorRun where
  jobs_completed : List AtomicBoolContainer
  positions : List WorkerPosition
  executed : List WorkEvent
  deriving DecidableEq, Repr

/-- Modelled from the spec: one scheduling step of thread `t` inside
`work_vector_thread_function` (declared in the header, lines 354-362; its body is not in
the source tree).  "The dispatched function repeatedly scans for an unclaimed, unfinished
item, claims it by locking and marking, releases the lock, executes the item, marks it
done."  Locking the item's mutex, testing and setting its flag and unlocking is one step
(the mutex makes it indivisible); executing the claimed item is a later step of the same
thread, so other threads may run in between.  A thread whose scan has passed item `N`
has returned and does nothing more. -/
def work_vector_thread_step (N t : Nat) (s : WorkVectorRun) : WorkVectorRun :=
  match s.positions.get? t with
  | none => s
  | some (WorkerPosition.scanning i) =>
      if N < i then s
      else if job_flag s.jobs_completed i then
        { s with positions := s.positions.set t (WorkerPosition.scanning (i + 1)) }
      else
        { s with
          jobs_completed := mark_job s.jobs_completed i
          positions := s.positions.set t (WorkerPosition.executing i) }
  | some (WorkerPosition.executing i) =>
      { jobs_completed := mark_job s.jobs_completed i
        positions := s.positions.set t (WorkerPosition.scanning (i + 1))
        executed := s.executed ++ [{ thread := t, item := i }] }

/-- Run the threads in the order given by a schedule: each entry names the thread that
takes the next step. -/
def run_work_vector_schedule (N : Nat) (schedule : List Nat) (s : WorkVectorRun) :
    WorkVectorRun :=
  schedule.foldl (fun st t => work_vector_thread_step N t st) s

/-- The steps by which the threads that are still at work finish: the call blocks until
every assigned thread has returned from the thread function.  Thread `t` needs at most two
steps per item. -/
def completion_schedule (N A : Nat) : List Nat :=
  (List.range A).flatMap (fun t => List.replicate (2 * N) t)

/-- The state set up by `do_work_vector_in_threads` before the threads start: one cleared
flag per work item, every one of the `A` assigned threads at the start of its scan. -/
def WorkVectorRun.initial (N A : Nat) : WorkVectorRun :=
  { jobs_completed := List.replicate N AtomicBoolContainer.default
    positions := List.replicate A (WorkerPosition.scanning 1)
    executed := [] }

/-- The whole run of `A` threads over `N` items: the interleaving `schedule` that happened
to occur, followed by the steps in which the threads still at work finish. -/
def work_vector_run (N A : Nat) (schedule : List Nat) : WorkVectorRun :=
  run_work_vector_schedule N (schedule ++ completion_schedule N A) (WorkVectorRun.initial N A)

/-- Replace thread positions in the events by the logical indices of the threads. -/
def with_logical_indices (info : RosettaThreadAssignmentInfo) (events : List WorkEvent) :
    List WorkEvent :=
  events.map (fun e => { e with thread := info.assigned_thread_indices.getD e.thread 0 })

/-- Modelled from the spec: `do_work_vector_in_threads(vector_of_work,
requested_thread_count, thread_assignment)`; only its declaration is in the header.
Multi-threaded build: sets up the per-item flags (and mutexes), hands
`work_vector_thread_function` to `run_function_in_threads`, and returns when every assigned
thread has finished; `schedule` is the interleaving of the threads that happened to occur.
Single-threaded build: "accepts vectors of work and executes them directly", on the calling
thread, and reports one assigned thread. -/
def do_work_vector_in_threads {W : Type} (MULTI_THREADED : Bool) (opts : ThreadingOptions)
    (m : RosettaThreadManager) (caller : Nat) (vector_of_work : List W)
    (requested_thread_count : Nat) (schedule : List Nat) : DispatchResult :=
  let r := RosettaThreadManager.run_function_in_threads MULTI_THREADED opts m caller
    requested_thread_count
  let N := vector_of_work.length
  if MULTI_THREADED then
    let A := r.1.assigned_total_thread_count
    let s := work_vector_run N A schedule
    { thread_assignment := r.1, executed := with_logical_indices r.1 s.executed, manager := r.2 }
  else
    { thread_assignment := r.1
      executed := (List.range' 1 N).map (fun i => { thread := caller, item := i })
      manager := r.2 }

/-- Modelled from the spec: the loop of `work_vector_thread_function_no_locking` (declared in
the header, lines 364-372): the thread whose index within the assigned set is
`thread_index` runs items `thread_index, thread_index + nthreads, ...` while the index is
at most `N`.  `fuel` bounds the number of iterations. -/
def no_locking_loop (N nthreads : Nat) : Nat → Nat → List Nat
  | 0, _ => []
  | fuel + 1, i => if i ≤ N then i :: no_locking_loop N nthreads fuel (i + nthreads) else []

/-- Modelled from the spec: the items executed, in order, by one invocation of
`work_vector_thread_function_no_locking` on a work vector of `N` items, for the thread with
index `thread_index` among `nthreads` assigned threads.  `N + 1` iterations always reach the
end of the loop when `nthreads ≥ 1`. -/
def work_vector_thread_function_no_locking (N nthreads thread_index : Nat) : List Nat :=
  no_locking_loop N nthreads (N + 1) thread_index

/-- What `do_work_vector_in_threads_no_locking` leaves behind: the assignment record, for
each assigned thread (by index `1..A` within the assigned set) the items it executed in
order, and the manager.  The threads share no state, so how their executions interleave
does not influence what each of them does. -/
structure StripedDispatchResult where
  thread_assignment : RosettaThreadAssignmentInfo
  executed_by_thread : List (Nat × List Nat)
  manager : RosettaThreadManager
  deriving DecidableEq, Repr

/-- Modelled from the spec: `do_work_vector_in_threads_no_locking(vector_of_work,
requested_thread_count, thread_assignment)`: "statically partitions the vector by a fixed
stride equal to the number of assigned threads".  In the single-threaded build the one
assigned thread is the caller. -/
def do_work_vector_in_threads_no_locking {W : Type} (MULTI_THREADED : Bool)
    (opts : ThreadingOptions) (m : RosettaThreadManager) (caller : Nat)
    (vector_of_work : List W) (requested_thread_count : Nat) : StripedDispatchResult :=
  let r := RosettaThreadManager.run_function_in_threads MULTI_THREADED opts m caller
    requested_thread_count
  let A := r.1.assigned_total_thread_count
  { thread_assignment := r.1
    executed_by_thread := (List.range' 1 A).map
      (fun k => (k, work_vector_thread_function_no_locking vector_of_work.length A k))
    manager := r.2 }

/-! ## Multistage work vectors -/

/-- The two observable moments of a work item: it begins execution, it has completed. -/
inductive StageEventKind
  | started
  | completed
  deriving DecidableEq, Repr

/-- An observation: which thread, which stage (1-based), which item of the stage (1-based),
and whether the item began or completed. -/
structure StageEvent where
  kind : StageEventKind
  thread : Nat
  stage : Nat
  item : Nat
  deriving DecidableEq, Repr

/-- Where one thread stands inside `multistage_work_vector_thread_function`: scanning
item `i` of a stage, executing item `i` of a stage, or waiting at the barrier that closes a
stage.  A thread scanning in a stage beyond the last one has returned. -/
inductive StageWorkerPosition
  | scanning (stage i : Nat)
  | executing (stage i : Nat)
  | waiting (stage : Nat)
  deriving DecidableEq, Repr

/-- The shared state of one `do_multistage_work_vector_in_threads` call: per stage the
per-item flags, per stage the barrier countdown, the position of every assigned thread, and
the observations so far. -/
structure MultistageRun where
  multistage_jobs_completed : List (List AtomicBoolContainer)
  barrier_threadcount : List Nat
  positions : List StageWorkerPosition
  events : List StageEvent
  deriving DecidableEq, Repr

/-- The number of items of stage `stage` (1-based); `sizes` lists the stage sizes. -/
def stage_size (sizes : List Nat) (stage : Nat) : Nat :=
  sizes.getD (stage - 1) 0

/-- Read the flag of item `i` of stage `stage`. -/
def stage_job_flag (flags : List (List AtomicBoolContainer)) (stage i : Nat) : Bool :=
  job_flag (flags.getD (stage - 1) []) i

/-- Set the flag of item `i` of stage `stage`. -/
def mark_stage_job (flags : List (List AtomicBoolContainer)) (stage i : Nat) :
    List (List AtomicBoolContainer) :=
  flags.set (stage - 1) (mark_job (flags.getD (stage - 1) []) i)

/-- Modelled from the spec: one scheduling step of thread `t` inside
`multistage_work_vector_thread_function` (declared in the header, lines 374-385).  "For
each stage, runs the mutex-based per-item strategy, then all participating threads
synchronize on a barrier (condition variable + countdown) before any thread proceeds to the
next stage."  Within a stage the thread scans as in `work_vector_thread_step`; claiming an
item is where the item begins, a later step of the same thread is where it completes.  A
thread that has scanned past the last item of its stage counts the stage's barrier down and
waits; a waiting thread proceeds to the next stage only once the countdown has reached
zero, and otherwise stays where it is. -/
def multistage_thread_step (sizes : List Nat) (t : Nat) (s : MultistageRun) : MultistageRun :=
  match s.positions.get? t with
  | none => s
  | some (StageWorkerPosition.scanning stage i) =>
      if sizes.length < stage then s
      else if stage_size sizes stage < i then
        { s with
          barrier_threadcount :=
            s.barrier_threadcount.set (stage - 1) (s.barrier_threadcount.getD (stage - 1) 0 - 1)
          positions := s.positions.set t (StageWorkerPosition.waiting stage) }
      else if stage_job_flag s.multistage_jobs_completed stage i then
        { s with positions := s.positions.set t (StageWorkerPosition.scanning stage (i + 1)) }
      else
        { s with
          multistage_jobs_completed := mark_stage_job s.multistage_jobs_completed stage i
          positions := s.positions.set t (StageWorkerPosition.executing stage i)
          events := s.events ++
            [{ kind := StageEventKind.started, thread := t, stage := stage, item := i }] }
  | some (StageWorkerPosition.executing stage i) =>
      { s with
        multistage_jobs_completed := mark_stage_job s.multistage_jobs_completed stage i
        positions := s.positions.set t (StageWorkerPosition.scanning stage (i + 1))
        events := s.events ++
          [{ kind := StageEventKind.completed, thread := t, stage := stage, item := i }] }
  | some (StageWorkerPosition.waiting stage) =>
      if s.barrier_threadcount.getD (stage - 1) 0 = 0 then
        { s with positions := s.positions.set t (StageWorkerPosition.scanning (stage + 1) 1) }
      else s

/-- Run the threads in the order given by a schedule. -/
def run_multistage_schedule (sizes : List Nat) (schedule : List Nat) (s : MultistageRun) :
    MultistageRun :=
  schedule.foldl (fun st t => multistage_thread_step sizes t st) s

/-- The state set up by `do_multistage_work_vector_in_threads` before the threads start:
cleared flags for every item of every stage, every barrier countdown at the number `A` of
assigned threads, every thread at the start of stage 1. -/
def MultistageRun.initial (sizes : List Nat) (A : Nat) : MultistageRun :=
  { multistage_jobs_completed :=
      sizes.map (fun n => List.replicate n AtomicBoolContainer.default)
    barrier_threadcount := List.replicate sizes.length A
    positions := List.replicate A (StageWorkerPosition.scanning 1 1)
    events := [] }

/-- One round in which every thread in turn takes as many steps as a whole stage can need:
two per item, one to reach the barrier and one to leave it. -/
def multistage_round (sizes : List Nat) (A : Nat) : List Nat :=
  (List.range A).flatMap (fun t => List.replicate (2 * sizes.foldl max 0 + 2) t)

/-- The steps by which the threads that are still at work finish all stages: one round per
stage and one more to leave the last barrier. -/
def multistage_completion_schedule (sizes : List Nat) (A : Nat) : List Nat :=
  (List.range (sizes.length + 1)).flatMap (fun _ => multistage_round sizes A)

/-- The whole run of `A` threads over the stages: the interleaving `schedule` that happened
to occur, followed by the steps in which the threads still at work finish. -/
def multistage_run (sizes : List Nat) (A : Nat) (schedule : List Nat) : MultistageRun :=
  run_multistage_schedule sizes (schedule ++ multistage_completion_schedule sizes A)
    (MultistageRun.initial sizes A)

/-- What `do_multistage_work_vector_in_threads` leaves behind. -/
structure MultistageDispatchResult where
  thread_assignment : RosettaThreadAssignmentInfo
  events : List StageEvent
  manager : RosettaThreadManager
  deriving DecidableEq, Repr

/-- The observations of running the items `1..N` of stage `stage` one after the other on
thread `caller`. -/
def direct_stage_events (caller stage N : Nat) : List StageEvent :=
  (List.range' 1 N).flatMap (fun i =>
    [{ kind := StageEventKind.started, thread := caller, stage := stage, item := i },
     { kind := StageEventKind.completed, thread := caller, stage := stage, item := i }])

/-- The observations of running all stages directly, in their given order, on thread
`caller`; `stage` is the number of the first stage in `sizes`. -/
def direct_multistage_events (caller : Nat) : Nat → List Nat → List StageEvent
  | _, [] => []
  | stage, n :: rest =>
      direct_stage_events caller stage n ++ direct_multistage_events caller (stage + 1) rest

/-- Modelled from the spec: `do_multistage_work_vector_in_threads(
multistage_vector_of_work, requested_thread_count, thread_assignment)`; only its
declaration is in the header.  Multi-threaded build: sets up flags and barrier countdowns,
hands `multistage_work_vector_thread_function` to `run_function_in_threads` and returns
when every assigned thread has finished; `schedule` is the interleaving that happened to
occur.  Single-threaded build: the stages are executed directly, one after the other, on
the calling thread. -/
def do_multistage_work_vector_in_threads {W : Type} (MULTI_THREADED : Bool)
    (opts : ThreadingOptions) (m : RosettaThreadManager) (caller : Nat)
    (multistage_vector_of_work : List (List W)) (requested_thread_count : Nat)
    (schedule : List Nat) : MultistageDispatchResult :=
  let r := RosettaThreadManager.run_function_in_threads MULTI_THREADED opts m caller
    requested_thread_count
  let sizes := multistage_vector_of_work.map List.length
  if MULTI_THREADED then
    let A := r.1.assigned_total_thread_count
    let s := multistage_run sizes A schedule
    { thread_assignment := r.1
      events := s.events.map
        (fun e => { e with thread := r.1.assigned_thread_indices.getD e.thread 0 })
      manager := r.2 }
  else
    { thread_assignment := r.1
      events := direct_multistage_events caller 1 sizes
      manager := r.2 }

/-! ## Properties of assignment records -/

/-- The assigned thread count of a record lies between 1 and the smaller of the requested
count `R` and `total_threads()`, the latter evaluated with the tracker of manager `m`. -/
def assigned_count_within_bounds (MULTI_THREADED : Bool) (opts : ThreadingOptions) (R : Nat)
    (info : RosettaThreadAssignmentInfo) (m : RosettaThreadManager) : Prop :=
  1 ≤ info.assigned_total_thread_count ∧
    info.assigned_total_thread_count ≤ min R (total_threads MULTI_THREADED opts m.tracker).1

instance (MULTI_THREADED : Bool) (opts : ThreadingOptions) (R : Nat)
    (info : RosettaThreadAssignmentInfo) (m : RosettaThreadManager) :
    Decidable (assigned_count_within_bounds MULTI_THREADED opts R info m) := by
  unfold assigned_count_within_bounds
  infer_instance

instance (opts : ThreadingOptions) (m : RosettaThreadManager) :
    Decidable (m.consistent opts) := by
  unfold RosettaThreadManager.consistent
  cases m.thread_pool_ <;> infer_instance

/-! ## Invariants of the runs -/

/-- How often item `j` has been executed so far. -/
def WorkVectorRun.executions (s : WorkVectorRun) (j : Nat) : Nat :=
  (s.executed.map WorkEvent.item).count j

/-- How many threads hold the claim on item `j` and have not executed it yet. -/
def WorkVectorRun.claim_holders (s : WorkVectorRun) (j : Nat) : Nat :=
  s.positions.countP (fun p => decide (p = WorkerPosition.executing j))

/-- The invariant of a `do_work_vector_in_threads` run: there is one flag per item; a
scanning thread has only flagged items behind it; a thread executing an item holds a
flagged item within the vector; and for every item the number of recorded executions plus
the number of threads holding its claim is one if the item is flagged and zero if not. -/
structure WorkVectorInvariant (N : Nat) (s : WorkVectorRun) : Prop where
  flags_length : s.jobs_completed.length = N
  scanning_ok : ∀ (t i : Nat), s.positions[t]? = some (WorkerPosition.scanning i) →
    1 ≤ i ∧ i ≤ N + 1 ∧ ∀ j, 1 ≤ j → j < i → job_flag s.jobs_completed j = true
  executing_ok : ∀ (t i : Nat), s.positions[t]? = some (WorkerPosition.executing i) →
    1 ≤ i ∧ i ≤ N ∧ ∀ j, 1 ≤ j → j ≤ i → job_flag s.jobs_completed j = true
  once : ∀ j, s.executions j + s.claim_holders j =
    if 1 ≤ j ∧ job_flag s.jobs_completed j = true then 1 else 0

/-- The number of steps a thread at a position still needs before it has returned. -/
def WorkerPosition.remaining (N : Nat) : WorkerPosition → Nat
  | WorkerPosition.scanning i => 2 * (N + 1 - i)
  | WorkerPosition.executing i => 2 * (N + 1 - i) - 1

/-- The stage a position belongs to. -/
def StageWorkerPosition.stage : StageWorkerPosition → Nat
  | StageWorkerPosition.scanning s _ => s
  | StageWorkerPosition.executing s _ => s
  | StageWorkerPosition.waiting s => s

/-- A thread at this position has reached the barrier that closes stage `σ`. -/
def StageWorkerPosition.arrived (σ : Nat) : StageWorkerPosition → Bool
  | StageWorkerPosition.scanning s _ => decide (σ < s)
  | StageWorkerPosition.executing s _ => decide (σ < s)
  | StageWorkerPosition.waiting s => decide (σ ≤ s)

/-- A thread at this position has scanned past item `j` of stage `σ`. -/
def StageWorkerPosition.covers (p : StageWorkerPosition) (σ j : Nat) : Prop :=
  match p with
  | StageWorkerPosition.scanning s i => σ < s ∨ (σ = s ∧ j < i)
  | StageWorkerPosition.executing s i => σ < s ∨ (σ = s ∧ j ≤ i)
  | StageWorkerPosition.waiting s => σ ≤ s

/-- The indices of a position are within the stages and the items of its stage. -/
def StageWorkerPosition.well_formed (sizes : List Nat) : StageWorkerPosition → Prop
  | StageWorkerPosition.scanning s i =>
      1 ≤ s ∧ s ≤ sizes.length + 1 ∧ 1 ≤ i ∧ i ≤ stage_size sizes s + 1
  | StageWorkerPosition.executing s i =>
      1 ≤ s ∧ s ≤ sizes.length ∧ 1 ≤ i ∧ i ≤ stage_size sizes s
  | StageWorkerPosition.waiting s => 1 ≤ s ∧ s ≤ sizes.length

/-- The countdown of the barrier that closes stage `σ` (1-based). -/
def barrier_count (counts : List Nat) (σ : Nat) : Nat :=
  counts.getD (σ - 1) 0

/-- Item `j` of stage `σ` is observed as completed among the events. -/
def completed_in (events : List StageEvent) (σ j : Nat) : Prop :=
  ∃ e ∈ events, e.kind = StageEventKind.completed ∧ e.stage = σ ∧ e.item = j

/-- Whenever an item begins, every item of every earlier stage has completed before. -/
def stages_in_order (sizes : List Nat) (events : List StageEvent) : Prop :=
  ∀ pre e post, events = pre ++ e :: post → e.kind = StageEventKind.started →
    ∀ σ j, 1 ≤ σ → σ < e.stage → 1 ≤ j → j ≤ stage_size sizes σ → completed_in pre σ j

/-- The invariant of a multistage run: flags and countdowns have the shape of the stages;
positions are well formed; the countdown of a barrier plus the number of threads that have
reached it is the number of threads; a thread beyond a barrier has seen its countdown at
zero; a thread has only flagged items behind it; a flagged item is being executed or has
completed; and the observations respect the order of the stages. -/
structure MultistageInvariant (sizes : List Nat) (s : MultistageRun) : Prop where
  flags_length : s.multistage_jobs_completed.length = sizes.length
  stage_flags_length : ∀ σ, 1 ≤ σ → σ ≤ sizes.length →
    (s.multistage_jobs_completed.getD (σ - 1) []).length = stage_size sizes σ
  counts_length : s.barrier_threadcount.length = sizes.length
  positions_ok : ∀ (t : Nat) (p : StageWorkerPosition), s.positions[t]? = some p →
    p.well_formed sizes
  barrier : ∀ σ, 1 ≤ σ → σ ≤ sizes.length →
    barrier_count s.barrier_threadcount σ + s.positions.countP (StageWorkerPosition.arrived σ)
      = s.positions.length
  passed : ∀ (t : Nat) (p : StageWorkerPosition), s.positions[t]? = some p →
    ∀ σ, 1 ≤ σ → σ < p.stage → barrier_count s.barrier_threadcount σ = 0
  flagged : ∀ (t : Nat) (p : StageWorkerPosition), s.positions[t]? = some p →
    ∀ σ j, 1 ≤ σ → 1 ≤ j → j ≤ stage_size sizes σ → p.covers σ j →
      stage_job_flag s.multistage_jobs_completed σ j = true
  claimed : ∀ σ j, 1 ≤ σ → 1 ≤ j → stage_job_flag s.multistage_jobs_completed σ j = true →
    (∃ t : Nat, s.positions[t]? = some (StageWorkerPosition.executing σ j)) ∨
      completed_in s.events σ j
  ordered : stages_in_order sizes s.events

/-- An upper bound on the number of steps a thread at this position, which has reached the
barrier closing stage `k - 1`, still needs to reach the barrier closing stage `k`. -/
def StageWorkerPosition.distance (sizes : List Nat) (k : Nat) : StageWorkerPosition → Nat
  | StageWorkerPosition.scanning s i => if k < s then 0 else 2 * (stage_size sizes k + 1 - i) + 1
  | StageWorkerPosition.executing s i => if k < s then 0 else 2 * (stage_size sizes k + 1 - i)
  | StageWorkerPosition.waiting s => if k ≤ s then 0 else 2 * stage_size sizes k + 2

/-! ## Histories of calls on the manager -/

/-- Modelled from the spec: the calls through which the state of the manager changes
(spec 4.2): `launch_threads`, the query `total_threads`, `reserve_threads`,
`release_threads`, and `run_function_in_threads`, on which every work-vector method is built
and whose effect on the manager the work-vector methods share. -/
inductive ManagerCall
  | launch_threads
  | total_threads
  | reserve_threads (caller R : Nat)
  | release_threads (allocation : RosettaThreadAllocation)
  | run_function_in_threads (caller R : Nat)
  deriving DecidableEq, Repr

/-- The manager after one call.  `launch_threads` exists in the multi-threaded build only
(header lines 125-131). -/
def ManagerCall.run (MULTI_THREADED : Bool) (opts : ThreadingOptions)
    (m : RosettaThreadManager) : ManagerCall → RosettaThreadManager
  | ManagerCall.launch_threads =>
      if MULTI_THREADED then RosettaThreadManager.launch_threads opts m else m
  | ManagerCall.total_threads =>
      { m with tracker := (ThreadManager.total_threads MULTI_THREADED opts m.tracker).2 }
  | ManagerCall.reserve_threads caller R =>
      (RosettaThreadManager.reserve_threads MULTI_THREADED opts m caller R).2.2
  | ManagerCall.release_threads allocation =>
      (RosettaThreadManager.release_threads MULTI_THREADED m allocation).2
  | ManagerCall.run_function_in_threads caller R =>
      (RosettaThreadManager.run_function_in_threads MULTI_THREADED opts m caller R).2

/-- The manager after a history of calls, starting from the manager as constructed. -/
def manager_after (MULTI_THREADED : Bool) (opts : ThreadingOptions)
    (calls : List ManagerCall) : RosettaThreadManager :=
  calls.foldl (fun m call => call.run MULTI_THREADED opts m) RosettaThreadManager.fresh

end ThreadManager

namespace binder

/-! ## String primitives of `std::string` used by the binder helpers -/

/-- The value `std::string::npos`, the largest `size_t`. -/
def npos : Nat := 2 ^ 64 - 1

/-- Whether `s.compare(pos, len, str)` returns zero: the substring of `s` that starts at `pos`
and has at most `len` characters is compared with `str`, and the result is zero exactly when
the two are equal. -/
def compare_is_zero (s : List Char) (pos len : Nat) (str : List Char) : Bool :=
  decide ((s.drop pos).take len = str)

/-- The call `s.substr(pos, len)`. -/
def substr (s : List Char) (pos len : Nat) : List Char :=
  (s.drop pos).take len

/-- The call `s.replace(pos, len, str)`: the `len` characters from `pos` on are replaced by
`str`. -/
def string_replace (s : List Char) (pos len : Nat) (str : List Char) : List Char :=
  s.take pos ++ str ++ s.drop (pos + len)

/-- The downward scan of `rfind`: the largest position at most `p` at which `pat` stands. -/
def rfind_down (s pat : List Char) : Nat → Option Nat
  | 0 => if compare_is_zero s 0 pat.length pat then some 0 else none
  | p + 1 =>
      if compare_is_zero s (p + 1) pat.length pat then some (p + 1) else rfind_down s pat p

/-- The call `s.rfind(pat, pos)`: the position of the last occurrence of `pat` in `s` that
starts at or before `pos`; `none` stands for `npos`. -/
def rfind (s pat : List Char) (pos : Nat) : Option Nat :=
  if pat.length ≤ s.length then rfind_down s pat (min (s.length - pat.length) pos) else none

/-- The upward scan of `find`, over at most `fuel` positions from `p` on. -/
def find_up (s pat : List Char) : Nat → Nat → Option Nat
  | 0, _ => none
  | fuel + 1, p =>
      if p + pat.length ≤ s.length then
        if compare_is_zero s p pat.length pat then some p else find_up s pat fuel (p + 1)
      else none

/-- The call `s.find(pat, pos)`: the position of the first occurrence of `pat` in `s` that
starts at or after `pos`; `none` stands for `npos`. -/
def find (s pat : List Char) (pos : Nat) : Option Nat :=
  find_up s pat (s.length + 1 - pos) pos

/-- The call `s.find(c)` for a character: the position of the first `c`. -/
def find_char : List Char → Char → Option Nat
  | [], _ => none
  | x :: rest, c => if x = c then some 0 else (find_char rest c).map (· + 1)

/-! ## binder/util.cpp -/

/-- The loop of `split` (util.cpp lines 40-48) from index `i` on, followed by the final push.
`i` is a 32-bit unsigned; `fuel` bounds the number of iterations. -/
def split_loop (buffer separator : List Char) :
    Nat → Nat → List Char → List (List Char) → List (List Char)
  | 0, _, line, lines => if line.length ≠ 0 then lines ++ [line] else lines
  | fuel + 1, i, line, lines =>
      if i < buffer.length then
        if ! compare_is_zero buffer i separator.length separator then
          split_loop buffer separator fuel ((i + 1) % 2 ^ 32)
            (line ++ [buffer.getD i (Char.ofNat 0)]) lines
        else
          split_loop buffer separator fuel ((i + 1) % 2 ^ 32) [] (lines ++ [line])
      else if line.length ≠ 0 then lines ++ [line] else lines

/-- Split string using given separator (util.cpp lines 34-51). -/
def split (buffer separator : List Char) : List (List Char) :=
  split_loop buffer separator buffer.length 0 [] []

/-- The loop of `replace` (util.cpp lines 59-62) on the working copy `r` with search bound
`i`; `fuel` bounds the number of iterations. -/
def replace_loop (from_ to_ : List Char) : Nat → List Char → Nat → List Char
  | 0, r, _ => r
  | fuel + 1, r, i =>
      match rfind r from_ i with
      | none => r
      | some p =>
          if p ≠ 0 then replace_loop from_ to_ fuel (string_replace r p from_.length to_) (p - 1)
          else string_replace r p from_.length to_

/-- Replace all occurrences of string (util.cpp lines 54-65). -/
def replace (s from_ to_ : List Char) : List Char :=
  replace_loop from_ to_ (s.length + 1) s s.length

/-- Check if string begins with given prefix (util.cpp lines 68-72):
`!source.compare(0, prefix.size(), prefix)`. -/
def begins_with (source pre : List Char) : Bool :=
  compare_is_zero source 0 pre.length pre

/-- Calculate base (upper) namespace for given one (util.cpp lines 128-134). -/
def base_namespace (ns : List Char) : List Char :=
  match rfind ns [':', ':'] npos with
  | none => []
  | some f => substr ns 0 f

/-- Calculate last namespace for given one (util.cpp lines 137-143). -/
def last_namespace (ns : List Char) : List Char :=
  match rfind ns [':', ':'] npos with
  | none => ns
  | some f => substr ns (f + 2) (ns.length - f - 2)

/-- The test `!std::isalpha(c) and !std::isdigit(c)` in the C locale. -/
def not_alnum (c : Char) : Bool :=
  ! c.isAlpha && ! c.isDigit

/-- The condition under which `fix_boolean_types` replaces the occurrence found at `i`
(util.cpp lines 152-153). -/
def bool_replaceable (type : List Char) (i : Nat) : Bool :=
  (i == 0 || not_alnum (type.getD (i - 1) (Char.ofNat 0))) &&
    (i + 5 == type.length || not_alnum (type.getD (i + 5) (Char.ofNat 0)))

/-- The loop of `fix_boolean_types` (util.cpp lines 151-155) on the string `type` with search
start `i`; `fuel` bounds the number of iterations. -/
def fix_boolean_loop : Nat → List Char → Nat → List Char
  | 0, type, _ => type
  | fuel + 1, type, i =>
      match find type ['_', 'B', 'o', 'o', 'l'] i with
      | none => type
      | some p =>
          if bool_replaceable type p then
            fix_boolean_loop fuel (string_replace type p 5 ['b', 'o', 'o', 'l']) (p + 1)
          else fix_boolean_loop fuel type (p + 1)

/-- Replace all `_Bool` types with `bool` (util.cpp lines 146-156); the result is the
string `type` after the call. -/
def fix_boolean_types (type : List Char) : List Char :=
  fix_boolean_loop (type.length + 1) type 0

/-! ## binder/config.cpp -/

/-- The lists a `Config` keeps (declared in config.hpp): what to bind and what to skip, for
namespaces, classes and functions. -/
structure Config where
  namespaces_to_bind : List (List Char)
  namespaces_to_skip : List (List Char)
  classes_to_bind : List (List Char)
  classes_to_skip : List (List Char)
  functions_to_bind : List (List Char)
  functions_to_skip : List (List Char)
  deriving DecidableEq, Repr

/-- The `std::runtime_error`s thrown in config.cpp, by the place that throws: a line with a
sign and no space (line 47), a token that is none of namespace, class, function (line 67), a
line that begins with none of `#`, `+`, `-` (line 70), and a namespace for which bind and skip
requests conflict (line 96). -/
inductive runtime_error
  | missing_space (line : List Char)
  | invalid_token (token line : List Char)
  | invalid_line_start (line : List Char)
  | conflicting_requests (namespace_ : List Char)
  deriving DecidableEq, Repr

/-- The constant `_namespace_` of `Config::read` (config.cpp line 34). -/
def _namespace_ : List Char := ['n', 'a', 'm', 'e', 's', 'p', 'a', 'c', 'e']

/-- The constant `_function_` of `Config::read` (config.cpp line 35). -/
def _function_ : List Char := ['f', 'u', 'n', 'c', 't', 'i', 'o', 'n']

/-- The constant `_class_` of `Config::read` (config.cpp line 36). -/
def _class_ : List Char := ['c', 'l', 'a', 's', 's']

/-- The lines that successive calls of `std::getline(f, line)` deliver for a file with the
given content: a line ends at a newline, which is not part of it; characters after the
last newline form a last line; at the end of the file with nothing read, `getline` fails.
`line` holds the characters read so far. -/
def getlines_loop : List Char → List Char → List (List Char)
  | [], line => if line.length ≠ 0 then [line] else []
  | c :: rest, line =>
      if c = '\n' then line :: getlines_loop rest [] else getlines_loop rest (line ++ [c])

/-- The lines of a file, as the loop `while( std::getline(f, line) )` sees them. -/
def getlines (content : List Char) : List (List Char) :=
  getlines_loop content []

/-- The body of the loop of `Config::read` (config.cpp lines 42-71) for one line. -/
def Config.read_line (cfg : Config) (line : List Char) : Except runtime_error Config :=
  if line.length ≠ 0 then
    if line.getD 0 (Char.ofNat 0) = '#' then Except.ok cfg
    else if line.getD 0 (Char.ofNat 0) = '+' ∨ line.getD 0 (Char.ofNat 0) = '-' then
      match find_char line ' ' with
      | none => Except.error (runtime_error.missing_space line)
      | some space =>
          let bind : Bool := if line.getD 0 (Char.ofNat 0) = '+' then true else false
          let token := substr line 1 (space - 1)
          let name := line.drop (space + 1)
          if token = _namespace_ then
            if bind then
              Except.ok { cfg with namespaces_to_bind := cfg.namespaces_to_bind ++ [name] }
            else Except.ok { cfg with namespaces_to_skip := cfg.namespaces_to_skip ++ [name] }
          else if token = _class_ then
            if bind then Except.ok { cfg with classes_to_bind := cfg.classes_to_bind ++ [name] }
            else Except.ok { cfg with classes_to_skip := cfg.classes_to_skip ++ [name] }
          else if token = _function_ then
            if bind then
              Except.ok { cfg with functions_to_bind := cfg.functions_to_bind ++ [name] }
            else Except.ok { cfg with functions_to_skip := cfg.functions_to_skip ++ [name] }
          else Except.error (runtime_error.invalid_token token line)
    else Except.error (runtime_error.invalid_line_start line)
  else Except.ok cfg

/-- The loop of `Config::read` over the lines still to come. -/
def Config.read_lines (cfg : Config) : List (List Char) → Except runtime_error Config
  | [] => Except.ok cfg
  | line :: rest =>
      match cfg.read_line line with
      | Except.error e => Except.error e
      | Except.ok cfg2 => cfg2.read_lines rest

/-- Read config setting from file (config.cpp lines 31-73); `content` is the content of the
file named `file_name` (nothing, if it cannot be opened). -/
def Config.read (cfg : Config) (content : List Char) : Except runtime_error Config :=
  cfg.read_lines (getlines content)

/-- One of the two loops of `is_namespace_binding_requested` (config.cpp lines 81-85 and
87-91): the entry found so far and its flag, after the entries in the list. -/
def longest_begin (namespace_ : List Char) :
    List (List Char) → List Char × Bool → List Char × Bool
  | [], found => found
  | n :: rest, found =>
      if begins_with namespace_ n then
        if n.length > found.1.length then longest_begin namespace_ rest (n, true)
        else longest_begin namespace_ rest found
      else longest_begin namespace_ rest found

/-- The method `Config::is_namespace_binding_requested` (config.cpp lines 76-101). -/
def Config.is_namespace_binding_requested (cfg : Config) (namespace_ : List Char) :
    Except runtime_error Bool :=
  let bound := longest_begin namespace_ cfg.namespaces_to_bind ([], false)
  let skipped := longest_begin namespace_ cfg.namespaces_to_skip ([], false)
  if bound.1.length > skipped.1.length then Except.ok true
  else if bound.1.length < skipped.1.length then Except.ok false
  else if bound.2 && skipped.2 then
    Except.error (runtime_error.conflicting_requests namespace_)
  else if bound.2 then Except.ok true
  else Except.ok false

/-! ## Reference descriptions -/

/-- Replacement of the occurrences of `from_` by `to_` in one scan from left to right:
`skip` characters of an occurrence just replaced are passed over; otherwise, where `from_`
stands, `to_` is written and the occurrence is passed over, and elsewhere the character is
kept. -/
def replace_all_scan (from_ to_ : List Char) : Nat → List Char → List Char
  | _, [] => []
  | skip + 1, _ :: cs => replace_all_scan from_ to_ skip cs
  | 0, c :: cs =>
      if from_.isPrefixOf (c :: cs) then to_ ++ replace_all_scan from_ to_ (from_.length - 1) cs
      else c :: replace_all_scan from_ to_ 0 cs

/-- The string `s` with each non-overlapping occurrence of `from_`, found scanning `s` from
left to right, replaced by `to_`, every other character kept in place. -/
def replace_all_left_to_right (s from_ to_ : List Char) : List Char :=
  replace_all_scan from_ to_ 0 s

/-- The string `s` with each non-overlapping occurrence of `from_`, found scanning `s` from
right to left, replaced by `to_`, every other character kept in place: the mirror image of
the scan from left to right. -/
def replace_all_right_to_left (s from_ to_ : List Char) : List Char :=
  (replace_all_left_to_right s.reverse from_.reverse to_.reverse).reverse

/-- No occurrence of `from_` can reach into text that `replace` has inserted: `from_` is a
single character, or `to_` is not empty and its first character does not occur in `from_`
after the first character of `from_`. -/
def apart_from_inserted (from_ to_ : List Char) : Prop :=
  from_.tail = [] ∨ ∃ c rest, to_ = c :: rest ∧ c ∉ from_.tail

/-- The start or the end of the string, or a character that is neither a letter nor a
digit. -/
def is_boundary : Option Char → Bool
  | none => true
  | some c => not_alnum c

/-- The string with each occurrence of `_Bool` that stands between boundaries replaced by
`bool`, every other character kept in order, in one scan from left to right; `prev` is the
character before the current one and `skip` counts the characters of an occurrence just
replaced that are still to be passed over. -/
def fix_boolean_scan : Nat → Option Char → List Char → List Char
  | _, _, [] => []
  | skip + 1, _, c :: cs => fix_boolean_scan skip (some c) cs
  | 0, prev, c :: cs =>
      if ['_', 'B', 'o', 'o', 'l'].isPrefixOf (c :: cs) && is_boundary prev &&
          is_boundary ((c :: cs).get? 5) then
        ['b', 'o', 'o', 'l'] ++ fix_boolean_scan 4 (some c) cs
      else c :: fix_boolean_scan 0 (some c) cs

/-- The pieces concatenated, with the separator re-inserted between consecutive pieces. -/
def join_pieces (separator : List Char) : List (List Char) → List Char
  | [] => []
  | [piece] => piece
  | piece :: next :: rest => piece ++ separator ++ join_pieces separator (next :: rest)

/-- The string without one separator character at its very end, if there is one. -/
def drop_final_separator (c : Char) (buffer : List Char) : List Char :=
  if buffer.getLast? = some c then buffer.dropLast else buffer

/-- The name a line of the form `sign T name` carries: the line begins with the sign, the
token `T` and a space, and the name is all the text after that space. -/
def entry_name (sign : Char) (token line : List Char) : Option (List Char) :=
  if (sign :: token ++ [' ']).isPrefixOf line then some (line.drop (token.length + 2))
  else none

/-- The names carried by the lines of the form `sign T name`, in the order of the lines. -/
def entries (sign : Char) (token : List Char) (lines : List (List Char)) :
    List (List Char) :=
  lines.filterMap (entry_name sign token)

/-- A line that `Config::read` cannot accept: it is not empty and (a) begins with a character
other than `#`, `+` and `-`, or (b) begins with `+` or `-` and contains no space, or (c) begins
with `+` or `-` and the text between that sign and the first space is none of namespace,
class, function. -/
def invalid_line (line : List Char) : Prop :=
  line ≠ [] ∧
  ((∃ c, line.head? = some c ∧ c ≠ '#' ∧ c ≠ '+' ∧ c ≠ '-') ∨
   ((line.head? = some '+' ∨ line.head? = some '-') ∧ ' ' ∉ line) ∨
   ((line.head? = some '+' ∨ line.head? = some '-') ∧
      ∃ token rest, line.tail = token ++ ' ' :: rest ∧ ' ' ∉ token ∧
        token ≠ _namespace_ ∧ token ≠ _class_ ∧ token ≠ _function_))

end binder

namespace ThreadManager

/-! # Theorems -/

open RosettaThreadManager

/-! ## Shared list and flag lemmas -/

theorem countP_set_add {α : Type} (p : α → Bool) :
    ∀ (l : List α) (t : Nat) (a b : α), l[t]? = some a →
      (l.set t b).countP p + (if p a = true then 1 else 0)
        = l.countP p + (if p b = true then 1 else 0) := by
  intro l
  induction l with
  | nil => intro t a b h; simp at h
  | cons x xs ih =>
    intro t a b h
    cases t with
    | zero =>
      simp only [List.getElem?_cons_zero, Option.some.injEq] at h
      subst h
      simp only [List.set_cons_zero, List.countP_cons]
      omega
    | succ t =>
      simp only [List.getElem?_cons_succ] at h
      have := ih t a b h
      simp only [List.set_cons_succ, List.countP_cons]
      omega

theorem job_flag_mark_job (jobs : List AtomicBoolContainer) (i j : Nat)
    (hi1 : 1 ≤ i) (hiN : i ≤ jobs.length) (hj : 1 ≤ j) :
    job_flag (mark_job jobs i) j = if j = i then true else job_flag jobs j := by
  unfold job_flag mark_job
  rw [List.getD_eq_getElem?_getD, List.getD_eq_getElem?_getD, List.getElem?_set]
  by_cases h : j = i
  · subst h
    have : j - 1 < jobs.length := by omega
    simp [this]
  · have : ¬ (i - 1 = j - 1) := by omega
    simp [this, h]

theorem job_flag_beyond (jobs : List AtomicBoolContainer) (j : Nat) (h : jobs.length < j) :
    job_flag jobs j = false := by
  unfold job_flag
  rw [List.getD_eq_getElem?_getD, List.getElem?_eq_none (by omega)]
  rfl

theorem length_mark_job (jobs : List AtomicBoolContainer) (i : Nat) :
    (mark_job jobs i).length = jobs.length := by
  simp [mark_job]

theorem getElem?_set_some {α : Type} (l : List α) (t u : Nat) (a b : α)
    (h : (l.set t b)[u]? = some a) : (u = t ∧ a = b) ∨ (u ≠ t ∧ l[u]? = some a) := by
  rw [List.getElem?_set] at h
  by_cases e : t = u
  · subst e
    left
    by_cases hl : t < l.length
    · simp [hl] at h; exact ⟨rfl, h.symm⟩
    · simp [hl] at h
  · right
    simp only [e, if_false] at h
    exact ⟨fun e2 => e e2.symm, h⟩

/-! ## The container and the configured total -/

/-- C10: `AtomicBoolContainer` has snapshot copy semantics.  A default-constructed
container holds false; after copy construction from `src`, and after assignment of `src` to
the object at `this` (self-assignment included), the target holds the value `src` held and
`src` still holds that value; self-assignment changes nothing at all. -/
theorem atomic_bool_container_snapshot_copy (heap : ContainerHeap) (this src : Nat) :
    AtomicBoolContainer.default.contained_bool_ = false ∧
    ((AtomicBoolContainer.copy_construct heap this src this).contained_bool_
        = (heap src).contained_bool_ ∧
      (AtomicBoolContainer.copy_construct heap this src src).contained_bool_
        = (heap src).contained_bool_) ∧
    ((AtomicBoolContainer.assign heap this src this).contained_bool_
        = (heap src).contained_bool_ ∧
      (AtomicBoolContainer.assign heap this src src).contained_bool_
        = (heap src).contained_bool_) ∧
    AtomicBoolContainer.assign heap this this = heap := by
  refine ⟨rfl, ⟨?_, ?_⟩, ⟨?_, ?_⟩, ?_⟩
  · simp [AtomicBoolContainer.copy_construct, ContainerHeap.store, AtomicBoolContainer.copy]
  · by_cases h : src = this <;>
      simp [AtomicBoolContainer.copy_construct, ContainerHeap.store, AtomicBoolContainer.copy, h]
  · by_cases h : this = src <;>
      simp [AtomicBoolContainer.assign, ContainerHeap.store, h]
  · by_cases h : this = src
    · simp [AtomicBoolContainer.assign, h]
    · have h2 : ¬ src = this := fun e => h e.symm
      simp [AtomicBoolContainer.assign, ContainerHeap.store, h, h2]
  · simp [AtomicBoolContainer.assign]

/-- C9: in a build without MULTI_THREADED, `total_threads()` returns 1, on a first call
and on every later call, and leaves the tracker as it was. -/
theorem total_threads_single_threaded_build (opts : ThreadingOptions)
    (tracker : RosettaThreadManagerInitializationTracker) :
    (total_threads false opts tracker).1 = 1 ∧
    (total_threads false opts tracker).2 = tracker ∧
    (total_threads false opts (total_threads false opts tracker).2).1 = 1 := by
  simp [total_threads]

/-- C8: `total_threads()` returns the same value before the thread pool is launched and
after it has been launched, whether or not the call before the launch is the one that read
the options, and for every state of the manager. -/
theorem total_threads_same_before_and_after_launch (opts : ThreadingOptions)
    (m : RosettaThreadManager) :
    (total_threads true opts (launch_threads opts m).tracker).1
        = (total_threads true opts m.tracker).1 ∧
    (total_threads true opts
        (launch_threads opts { m with tracker := (total_threads true opts m.tracker).2 }).tracker).1
        = (total_threads true opts m.tracker).1 := by
  constructor
  · unfold launch_threads create_thread_pool
    by_cases hl : m.thread_pool_was_launched_ = true
    · simp [hl]
    · cases hp : m.thread_pool_ with
      | some p => simp [hl, hp]
      | none =>
        by_cases hc : m.tracker.total_threads_ = 0
        · by_cases h0 : configured_thread_count opts = 0 <;>
            simp [hl, hp, hc, h0, total_threads, RosettaThreadManagerInitializationTracker.total_threads]
        · simp [hl, hp, hc, total_threads, RosettaThreadManagerInitializationTracker.total_threads]
  · unfold launch_threads create_thread_pool
    by_cases hc : m.tracker.total_threads_ = 0
    · by_cases h0 : configured_thread_count opts = 0
      · by_cases hl : m.thread_pool_was_launched_ = true
        · simp [hl, hc, h0, total_threads, RosettaThreadManagerInitializationTracker.total_threads]
        · cases hp : m.thread_pool_ <;>
            simp [hl, hp, hc, h0, total_threads, RosettaThreadManagerInitializationTracker.total_threads]
      · by_cases hl : m.thread_pool_was_launched_ = true
        · simp [hl, hc, h0, total_threads, RosettaThreadManagerInitializationTracker.total_threads]
        · cases hp : m.thread_pool_ <;>
            simp [hl, hp, hc, h0, total_threads, RosettaThreadManagerInitializationTracker.total_threads]
    · by_cases hl : m.thread_pool_was_launched_ = true
      · simp [hl, hc, total_threads, RosettaThreadManagerInitializationTracker.total_threads]
      · cases hp : m.thread_pool_ <;>
          simp [hl, hp, hc, total_threads, RosettaThreadManagerInitializationTracker.total_threads]

/-! ## Assignment records -/

theorem total_threads_of_consistent {opts : ThreadingOptions} {m : RosettaThreadManager}
    (h : m.consistent opts) :
    (total_threads true opts m.tracker).1 = configured_thread_count opts := by
  rcases h.1 with h0 | h0
  · simp [total_threads, RosettaThreadManagerInitializationTracker.total_threads, h0]
  · by_cases hc : configured_thread_count opts = 0
    · simp [total_threads, RosettaThreadManagerInitializationTracker.total_threads, h0, hc]
    · simp [total_threads, RosettaThreadManagerInitializationTracker.total_threads, h0, hc]

theorem consistent_fresh (opts : ThreadingOptions) : fresh.consistent opts := by
  simp [consistent, fresh, RosettaThreadManagerInitializationTracker.fresh]

theorem consistent_launch_threads {opts : ThreadingOptions} {m : RosettaThreadManager}
    (h : m.consistent opts) : (launch_threads opts m).consistent opts := by
  unfold launch_threads create_thread_pool
  by_cases hl : m.thread_pool_was_launched_ = true
  · simpa [hl] using h
  · cases hp : m.thread_pool_ with
    | some p => simpa [hl, hp] using h
    | none =>
      rcases h.1 with h0 | h0
      · by_cases hc : configured_thread_count opts = 0 <;>
        simp [hl, hp, consistent, RosettaThreadManagerInitializationTracker.total_threads, h0,
          RosettaThreadPool.launch, hc]
      · by_cases hc : configured_thread_count opts = 0 <;>
        simp [hl, hp, consistent, RosettaThreadManagerInitializationTracker.total_threads, h0,
          RosettaThreadPool.launch, hc]

theorem pool_nthreads_launch_threads {opts : ThreadingOptions} {m : RosettaThreadManager}
    (h : m.consistent opts) :
    (launch_threads opts m).pool.nthreads = configured_thread_count opts
      ∨ (launch_threads opts m).pool.nthreads = 0 := by
  have h2 := consistent_launch_threads h
  unfold consistent at h2
  unfold pool
  cases hp : (launch_threads opts m).thread_pool_ with
  | none => right; simp
  | some p =>
    rw [hp] at h2
    left; simpa using h2.2.2.1

theorem run_function_info (MT : Bool) (opts : ThreadingOptions) (m : RosettaThreadManager)
    (caller R : Nat) :
    (run_function_in_threads MT opts m caller R).1 =
      if MT then
        { requested_thread_count := R
          assigned_total_thread_count := 1 + (launch_threads opts m).pool.others_to_assign R
          assigned_thread_indices :=
            caller :: (launch_threads opts m).pool.idle.take
              ((launch_threads opts m).pool.others_to_assign R) }
      else
        { requested_thread_count := R, assigned_total_thread_count := 1,
          assigned_thread_indices := [caller] } := by
  cases MT
  · simp [run_function_in_threads, reserve_threads]
  · simp [run_function_in_threads, reserve_threads, RosettaThreadPool.reserve_threads,
      RosettaThreadPool.others_to_assign]

theorem run_function_tracker (MT : Bool) (opts : ThreadingOptions) (m : RosettaThreadManager)
    (caller R : Nat) :
    (run_function_in_threads MT opts m caller R).2.tracker =
      if MT then (launch_threads opts m).tracker else m.tracker := by
  cases MT
  · simp [run_function_in_threads, reserve_threads, release_threads]
  · simp [run_function_in_threads, reserve_threads, release_threads,
      RosettaThreadPool.reserve_threads]

theorem run_function_bounds (MT : Bool) (opts : ThreadingOptions) (m : RosettaThreadManager)
    (caller R : Nat) (hm : m.consistent opts) (hcap : 1 ≤ configured_thread_count opts)
    (hR : 1 ≤ R) :
    1 ≤ (run_function_in_threads MT opts m caller R).1.assigned_total_thread_count ∧
    (run_function_in_threads MT opts m caller R).1.assigned_total_thread_count ≤
      min R (total_threads MT opts (run_function_in_threads MT opts m caller R).2.tracker).1 := by
  rw [run_function_info, run_function_tracker]
  cases MT
  · simp [total_threads]; omega
  · have hT := total_threads_of_consistent (consistent_launch_threads hm)
    simp only [if_true, hT]
    rcases pool_nthreads_launch_threads hm with hp | hp
    · simp only [RosettaThreadPool.others_to_assign, hp]
      omega
    · simp only [RosettaThreadPool.others_to_assign, hp]
      omega


theorem dispatch_assigned_count_pos (MT : Bool) (opts : ThreadingOptions)
    (m : RosettaThreadManager) (caller R : Nat) :
    1 ≤ (run_function_in_threads MT opts m caller R).1.assigned_total_thread_count := by
  cases MT
  · simp [run_function_in_threads, reserve_threads]
  · simp [run_function_in_threads, reserve_threads, RosettaThreadPool.reserve_threads]

theorem do_work_vector_assignment {W : Type} (MT : Bool) (opts : ThreadingOptions)
    (m : RosettaThreadManager) (caller : Nat) (vec : List W) (R : Nat) (sched : List Nat) :
    (do_work_vector_in_threads MT opts m caller vec R sched).thread_assignment
        = (run_function_in_threads MT opts m caller R).1 ∧
    (do_work_vector_in_threads MT opts m caller vec R sched).manager
        = (run_function_in_threads MT opts m caller R).2 := by
  cases MT <;> simp [do_work_vector_in_threads]

theorem do_multistage_assignment {W : Type} (MT : Bool) (opts : ThreadingOptions)
    (m : RosettaThreadManager) (caller : Nat) (stages : List (List W)) (R : Nat)
    (sched : List Nat) :
    (do_multistage_work_vector_in_threads MT opts m caller stages R sched).thread_assignment
        = (run_function_in_threads MT opts m caller R).1 ∧
    (do_multistage_work_vector_in_threads MT opts m caller stages R sched).manager
        = (run_function_in_threads MT opts m caller R).2 := by
  cases MT <;> simp [do_multistage_work_vector_in_threads]

theorem configured_thread_count_pos (opts : ThreadingOptions) (h : 1 ≤ opts.hardware_cores) :
    1 ≤ configured_thread_count opts := by
  unfold configured_thread_count
  split <;> omega

theorem consistent_tracker_total_threads (MT : Bool) {opts : ThreadingOptions}
    {m : RosettaThreadManager} (h : m.consistent opts) :
    ({ m with tracker := (total_threads MT opts m.tracker).2 } :
      RosettaThreadManager).consistent opts := by
  cases MT
  · simpa [total_threads] using h
  · refine ⟨?_, h.2⟩
    rcases h.1 with h0 | h0
    · simp [total_threads, RosettaThreadManagerInitializationTracker.total_threads, h0]
    · by_cases hc : configured_thread_count opts = 0 <;>
        simp [total_threads, RosettaThreadManagerInitializationTracker.total_threads, h0, hc]

theorem consistent_set_pool {opts : ThreadingOptions} {m : RosettaThreadManager}
    (h : m.consistent opts) (p : RosettaThreadPool) (hp : p.nthreads = m.pool.nthreads)
    (hsome : m.thread_pool_.isSome = true) :
    ({ m with thread_pool_ := some p } : RosettaThreadManager).consistent opts := by
  unfold consistent at h ⊢
  unfold pool at hp
  cases hq : m.thread_pool_ with
  | none => rw [hq] at hsome; cases hsome
  | some q =>
    rw [hq] at h hp
    simp only [Option.getD_some] at hp
    exact ⟨h.1, h.2.1, by rw [hp]; exact h.2.2.1, by rw [hp]; exact h.2.2.2⟩

theorem launch_threads_pool_some {opts : ThreadingOptions} {m : RosettaThreadManager}
    (h : m.consistent opts) : (launch_threads opts m).thread_pool_.isSome = true := by
  unfold launch_threads create_thread_pool
  cases hp : m.thread_pool_ with
  | some p => by_cases hl : m.thread_pool_was_launched_ = true <;> simp [hl, hp]
  | none =>
    have := h.2
    rw [hp] at this
    simp [this, hp]

theorem consistent_reserve_threads (MT : Bool) {opts : ThreadingOptions}
    {m : RosettaThreadManager} (h : m.consistent opts) (caller R : Nat) :
    (reserve_threads MT opts m caller R).2.2.consistent opts := by
  cases MT
  · simpa [reserve_threads] using h
  · simp only [reserve_threads, if_true]
    exact consistent_set_pool (consistent_launch_threads h) _ rfl (launch_threads_pool_some h)

theorem consistent_release_threads (MT : Bool) {opts : ThreadingOptions}
    {m : RosettaThreadManager} (h : m.consistent opts) (allocation : RosettaThreadAllocation) :
    (release_threads MT m allocation).2.consistent opts := by
  unfold release_threads
  by_cases hr : allocation.released = true
  · simpa [hr] using h
  · cases MT
    · simpa [hr] using h
    · simp only [hr, if_true, Bool.false_eq_true, if_false]
      unfold consistent at h ⊢
      cases hq : m.thread_pool_ with
      | none => rw [hq] at h; simpa using h
      | some q => rw [hq] at h; simpa [RosettaThreadPool.release_threads] using h

theorem consistent_run_function (MT : Bool) {opts : ThreadingOptions}
    {m : RosettaThreadManager} (h : m.consistent opts) (caller R : Nat) :
    (run_function_in_threads MT opts m caller R).2.consistent opts :=
  consistent_release_threads MT (consistent_reserve_threads MT h caller R) _

theorem consistent_call (MT : Bool) {opts : ThreadingOptions} {m : RosettaThreadManager}
    (h : m.consistent opts) (call : ManagerCall) : (call.run MT opts m).consistent opts := by
  cases call with
  | launch_threads =>
    cases MT
    · simpa [ManagerCall.run] using h
    · simpa [ManagerCall.run] using consistent_launch_threads h
  | total_threads => exact consistent_tracker_total_threads MT h
  | reserve_threads caller R => exact consistent_reserve_threads MT h caller R
  | release_threads allocation => exact consistent_release_threads MT h allocation
  | run_function_in_threads caller R => exact consistent_run_function MT h caller R

/-- The data of the manager agree with the options after every history of calls. -/
theorem consistent_manager_after (MT : Bool) (opts : ThreadingOptions)
    (calls : List ManagerCall) : (manager_after MT opts calls).consistent opts := by
  unfold manager_after
  have : ∀ (calls : List ManagerCall) (m : RosettaThreadManager), m.consistent opts →
      (calls.foldl (fun m call => call.run MT opts m) m).consistent opts := by
    intro calls
    induction calls with
    | nil => intro m h; exact h
    | cons call calls ih => intro m h; exact ih _ (consistent_call MT h call)
  exact this calls _ (consistent_fresh opts)

/-- C2: after a call of `do_work_vector_in_threads`,
`do_work_vector_in_threads_no_locking`, `do_multistage_work_vector_in_threads` or
`run_function_in_threads` with requested thread count `R`, where `1 ≤ R` as the contract of
the pool and the header have it, the assigned thread count `A` of the assignment record
satisfies `1 ≤ A ≤ min(R, total_threads())`.  The call is made on the manager after any
history of earlier calls, on a node that has at least one core. -/
theorem assigned_thread_count_within_bounds {W : Type} (MT : Bool) (opts : ThreadingOptions)
    (calls : List ManagerCall) (caller R : Nat) (vec : List W) (stages : List (List W))
    (sched : List Nat) (hcores : 1 ≤ opts.hardware_cores) (hR : 1 ≤ R) :
    assigned_count_within_bounds MT opts R
      (do_work_vector_in_threads MT opts (manager_after MT opts calls) caller vec R
        sched).thread_assignment
      (do_work_vector_in_threads MT opts (manager_after MT opts calls) caller vec R
        sched).manager ∧
    assigned_count_within_bounds MT opts R
      (do_work_vector_in_threads_no_locking MT opts (manager_after MT opts calls) caller vec
        R).thread_assignment
      (do_work_vector_in_threads_no_locking MT opts (manager_after MT opts calls) caller vec
        R).manager ∧
    assigned_count_within_bounds MT opts R
      (do_multistage_work_vector_in_threads MT opts (manager_after MT opts calls) caller stages
        R sched).thread_assignment
      (do_multistage_work_vector_in_threads MT opts (manager_after MT opts calls) caller stages
        R sched).manager ∧
    assigned_count_within_bounds MT opts R
      (run_function_in_threads MT opts (manager_after MT opts calls) caller R).1
      (run_function_in_threads MT opts (manager_after MT opts calls) caller R).2 := by
  have h := run_function_bounds MT opts (manager_after MT opts calls) caller R
    (consistent_manager_after MT opts calls) (configured_thread_count_pos opts hcores) hR
  rw [(do_work_vector_assignment MT opts _ caller vec R sched).1,
    (do_work_vector_assignment MT opts _ caller vec R sched).2,
    (do_multistage_assignment MT opts _ caller stages R sched).1,
    (do_multistage_assignment MT opts _ caller stages R sched).2]
  exact ⟨h, h, h, h⟩

/-- Witness for C2: four configured threads, of which one worker is held by an earlier
reservation; a request for three threads is assigned three. -/
theorem assigned_thread_count_within_bounds_witness :
    1 ≤ (⟨4, 8⟩ : ThreadingOptions).hardware_cores ∧ 1 ≤ 3 ∧
    (do_work_vector_in_threads true ⟨4, 8⟩
      (manager_after true ⟨4, 8⟩ [ManagerCall.launch_threads, ManagerCall.reserve_threads 0 2])
      0 [(), (), ()] 3 [1, 0, 2]).thread_assignment.assigned_total_thread_count = 3 ∧
    assigned_count_within_bounds true ⟨4, 8⟩ 3
      (do_work_vector_in_threads true ⟨4, 8⟩
        (manager_after true ⟨4, 8⟩ [ManagerCall.launch_threads, ManagerCall.reserve_threads 0 2])
        0 [(), (), ()] 3 [1, 0, 2]).thread_assignment
      (do_work_vector_in_threads true ⟨4, 8⟩
        (manager_after true ⟨4, 8⟩ [ManagerCall.launch_threads, ManagerCall.reserve_threads 0 2])
        0 [(), (), ()] 3 [1, 0, 2]).manager :=
  ⟨by decide, by decide, by decide,
    (assigned_thread_count_within_bounds true ⟨4, 8⟩
      [ManagerCall.launch_threads, ManagerCall.reserve_threads 0 2] 0 3 [(), (), ()]
      [[()], [()]] [1, 0, 2] (by decide) (by decide)).1⟩

/-- C6: after `run_function_in_threads` and after each of the work-vector methods built on
it, the logical index of the calling thread is among the assigned thread indices of the
assignment record. -/
theorem calling_thread_among_assigned {W : Type} (MT : Bool) (opts : ThreadingOptions)
    (m : RosettaThreadManager) (caller R : Nat) (vec : List W) (stages : List (List W))
    (sched : List Nat) :
    caller ∈ (run_function_in_threads MT opts m caller R).1.assigned_thread_indices ∧
    caller ∈ (do_work_vector_in_threads MT opts m caller vec R
      sched).thread_assignment.assigned_thread_indices ∧
    caller ∈ (do_work_vector_in_threads_no_locking MT opts m caller vec
      R).thread_assignment.assigned_thread_indices ∧
    caller ∈ (do_multistage_work_vector_in_threads MT opts m caller stages R
      sched).thread_assignment.assigned_thread_indices := by
  have h : caller ∈ (run_function_in_threads MT opts m caller R).1.assigned_thread_indices := by
    rw [run_function_info]
    cases MT <;> simp
  rw [(do_work_vector_assignment MT opts m caller vec R sched).1,
    (do_multistage_assignment MT opts m caller stages R sched).1]
  exact ⟨h, h, h, h⟩

/-- C5: in the single-threaded build `do_work_vector_in_threads` runs the items `1..N` of
the vector, each once and in order, on the calling thread, whatever the requested thread
count, and reports one assigned thread, the caller. -/
theorem single_threaded_build_runs_all_on_caller {W : Type} (opts : ThreadingOptions)
    (m : RosettaThreadManager) (caller R : Nat) (vec : List W) (sched : List Nat) :
    (do_work_vector_in_threads false opts m caller vec R sched).executed
        = (List.range' 1 vec.length).map (fun i => { thread := caller, item := i }) ∧
    (do_work_vector_in_threads false opts m caller vec R
        sched).thread_assignment.assigned_total_thread_count = 1 ∧
    (do_work_vector_in_threads false opts m caller vec R
        sched).thread_assignment.assigned_thread_indices = [caller] := by
  simp [do_work_vector_in_threads, run_function_in_threads, reserve_threads]

/-- C7: releasing an allocation a second time is a no-op.  After an allocation obtained
from `reserve_threads` has been released, releasing it again returns the same allocation and
the same manager, and does so for whatever state the manager is in by then; the number of
available threads stays within the pool size and is what it was before the reservation. -/
theorem release_threads_twice_is_noop (MT : Bool) (opts : ThreadingOptions)
    (m : RosettaThreadManager) (caller R : Nat)
    (hpool : (launch_threads opts m).available_threads ≤ (launch_threads opts m).pool.nthreads) :
    let reserved := reserve_threads MT opts m caller R
    let first := release_threads MT reserved.2.2 reserved.1
    let second := release_threads MT first.2 first.1
    second = first ∧
    (∀ later : RosettaThreadManager, release_threads MT later first.1 = (first.1, later)) ∧
    (MT = true → second.2.available_threads ≤ second.2.pool.nthreads ∧
      second.2.available_threads = (launch_threads opts m).available_threads ∧
      reserved.2.2.available_threads ≤ second.2.available_threads) := by
  intro reserved first second
  have hrel : first.1.released = true := by
    simp only [first, release_threads]
    by_cases h : reserved.1.released = true
    · simp [h]
    · cases MT <;> simp [h]
  refine ⟨?_, ?_, ?_⟩
  · simp only [second, release_threads, hrel, if_true]
  · intro later
    simp only [release_threads, hrel, if_true]
  · intro hMT
    subst hMT
    have h2 : second = first := by simp only [second, release_threads, hrel, if_true]
    rw [h2]
    simp only [first, reserved, reserve_threads, release_threads, if_true,
      RosettaThreadPool.reserve_threads, available_threads, pool, Option.map_some',
      Option.getD_some, RosettaThreadPool.release_threads, List.length_append, List.length_drop,
      List.length_take, Bool.false_eq_true, if_false] at hpool ⊢
    have : RosettaThreadPool.others_to_assign
        ((launch_threads opts m).thread_pool_.getD { nthreads := 0, idle := [] }) R ≤
        ((launch_threads opts m).thread_pool_.getD { nthreads := 0, idle := [] }).idle.length := by
      unfold RosettaThreadPool.others_to_assign
      omega
    omega

/-- Witness for C7: three threads reserved from a fresh manager with four configured
threads, then released twice. -/
theorem release_threads_twice_is_noop_witness :
    (launch_threads ⟨4, 8⟩ fresh).available_threads ≤ (launch_threads ⟨4, 8⟩ fresh).pool.nthreads ∧
    release_threads true
        (release_threads true (reserve_threads true ⟨4, 8⟩ fresh 0 3).2.2
          (reserve_threads true ⟨4, 8⟩ fresh 0 3).1).2
        (release_threads true (reserve_threads true ⟨4, 8⟩ fresh 0 3).2.2
          (reserve_threads true ⟨4, 8⟩ fresh 0 3).1).1
      = release_threads true (reserve_threads true ⟨4, 8⟩ fresh 0 3).2.2
          (reserve_threads true ⟨4, 8⟩ fresh 0 3).1 :=
  ⟨by decide, (release_threads_twice_is_noop true ⟨4, 8⟩ fresh 0 3 (by decide)).1⟩

/-! ## Striped dispatch -/

theorem mem_no_locking_loop (N A : Nat) :
    ∀ (fuel i x : Nat), N < i + fuel * A →
      (x ∈ no_locking_loop N A fuel i ↔ x ≤ N ∧ ∃ q, x = i + q * A) := by
  intro fuel
  induction fuel with
  | zero =>
    intro i x h
    simp only [no_locking_loop, List.not_mem_nil, false_iff, not_and, not_exists]
    intro hx q hq
    have : i ≤ x := by rw [hq]; exact Nat.le_add_right _ _
    omega
  | succ f ih =>
    intro i x h
    unfold no_locking_loop
    by_cases hi : i ≤ N
    · have h2 : N < (i + A) + f * A := by
        have : (f + 1) * A = f * A + A := Nat.succ_mul f A
        omega
      simp only [hi, if_true, List.mem_cons, ih (i + A) x h2]
      constructor
      · rintro (rfl | ⟨hx, q, hq⟩)
        · exact ⟨hi, 0, by simp⟩
        · exact ⟨hx, q + 1, by rw [hq, Nat.succ_mul]; omega⟩
      · rintro ⟨hx, q, hq⟩
        cases q with
        | zero => left; simpa using hq
        | succ q => right; exact ⟨hx, q, by rw [hq, Nat.succ_mul]; omega⟩
    · simp only [hi, if_false, List.not_mem_nil, false_iff, not_and, not_exists]
      intro hx q hq
      have : i ≤ x := by rw [hq]; exact Nat.le_add_right _ _
      omega

theorem pairwise_no_locking_loop (N A : Nat) (hA : 1 ≤ A) :
    ∀ (fuel i : Nat), (∀ x ∈ no_locking_loop N A fuel i, i ≤ x) ∧
      List.Pairwise (fun a b => a < b) (no_locking_loop N A fuel i) := by
  intro fuel
  induction fuel with
  | zero => intro i; simp [no_locking_loop]
  | succ f ih =>
    intro i
    unfold no_locking_loop
    by_cases hi : i ≤ N
    · simp only [hi, if_true, List.mem_cons, List.pairwise_cons]
      refine ⟨?_, ?_, (ih (i + A)).2⟩
      · rintro x (rfl | hx)
        · exact Nat.le_refl _
        · have := (ih (i + A)).1 x hx; omega
      · intro x hx
        have := (ih (i + A)).1 x hx; omega
    · simp [hi]

theorem mem_thread_function_no_locking (N A k x : Nat) (hA : 1 ≤ A) :
    x ∈ work_vector_thread_function_no_locking N A k ↔ x ≤ N ∧ ∃ q, x = k + q * A := by
  unfold work_vector_thread_function_no_locking
  apply mem_no_locking_loop N A
  have : N + 1 ≤ (N + 1) * A := Nat.le_mul_of_pos_right _ hA
  omega

theorem stripe_index_unique (A k q x : Nat) (hk1 : 1 ≤ k) (hkA : k ≤ A) (hx : x = k + q * A) :
    k = (x - 1) % A + 1 := by
  have h1 : x - 1 = (k - 1) + q * A := by omega
  rw [h1, Nat.add_mul_mod_self_right, Nat.mod_eq_of_lt (by omega)]
  omega

/-- C3: in `do_work_vector_in_threads_no_locking` with `A` assigned threads over items
`1..N`, the thread with index `k` (`1 ≤ k ≤ A`) executes exactly the items `k, k + A,
k + 2A, ...` that are at most `N`, in ascending order; the item sets of different threads
are disjoint and together they cover `1..N`. -/
theorem no_locking_thread_runs_its_stripe {W : Type} (MT : Bool) (opts : ThreadingOptions)
    (m : RosettaThreadManager) (caller R : Nat) (vec : List W) :
    let r := do_work_vector_in_threads_no_locking MT opts m caller vec R
    let A := r.thread_assignment.assigned_total_thread_count
    let N := vec.length
    r.executed_by_thread = (List.range' 1 A).map
      (fun k => (k, work_vector_thread_function_no_locking N A k)) ∧
    (∀ k, 1 ≤ k → k ≤ A →
      (∀ i, i ∈ work_vector_thread_function_no_locking N A k ↔ i ≤ N ∧ ∃ q, i = k + q * A) ∧
      List.Pairwise (fun a b => a < b) (work_vector_thread_function_no_locking N A k)) ∧
    (∀ k k2, 1 ≤ k → k ≤ A → 1 ≤ k2 → k2 ≤ A → k ≠ k2 →
      List.Disjoint (work_vector_thread_function_no_locking N A k)
        (work_vector_thread_function_no_locking N A k2)) ∧
    (∀ i, 1 ≤ i → i ≤ N →
      ∃ k, 1 ≤ k ∧ k ≤ A ∧ i ∈ work_vector_thread_function_no_locking N A k) := by
  intro r A N
  have hA : 1 ≤ A := dispatch_assigned_count_pos MT opts m caller R
  refine ⟨rfl, ?_, ?_, ?_⟩
  · intro k _ _
    exact ⟨fun i => mem_thread_function_no_locking N A k i hA,
      (pairwise_no_locking_loop N A hA _ _).2⟩
  · intro k k2 hk1 hkA hk21 hk2A hne x hx hx2
    rw [mem_thread_function_no_locking N A k x hA] at hx
    rw [mem_thread_function_no_locking N A k2 x hA] at hx2
    obtain ⟨_, q, hq⟩ := hx
    obtain ⟨_, q2, hq2⟩ := hx2
    have e1 := stripe_index_unique A k q x hk1 hkA hq
    have e2 := stripe_index_unique A k2 q2 x hk21 hk2A hq2
    exact hne (e1.trans e2.symm)
  · intro i hi1 hiN
    refine ⟨(i - 1) % A + 1, by omega, ?_, ?_⟩
    · have := Nat.mod_lt (i - 1) (show 0 < A by omega)
      omega
    · rw [mem_thread_function_no_locking N A _ i hA]
      refine ⟨hiN, (i - 1) / A, ?_⟩
      have := Nat.mod_add_div (i - 1) A
      rw [Nat.mul_comm] at this
      omega

/-- Witness for C3: five items and two assigned threads; thread 1 runs items 1, 3, 5. -/
theorem no_locking_thread_runs_its_stripe_witness :
    (1 ≤ 1 ∧ 1 ≤ (do_work_vector_in_threads_no_locking true ⟨4, 8⟩ fresh 0
        [(), (), (), (), ()] 2).thread_assignment.assigned_total_thread_count) ∧
    work_vector_thread_function_no_locking 5 2 1 = [1, 3, 5] ∧
    (∀ i, i ∈ work_vector_thread_function_no_locking 5 2 1 ↔ i ≤ 5 ∧ ∃ q, i = 1 + q * 2) :=
  ⟨by decide, by decide,
    ((no_locking_thread_runs_its_stripe true ⟨4, 8⟩ fresh 0 2 [(), (), (), (), ()]).2.1 1
      (by decide) (by decide)).1⟩

/-! ## Mutex-protected dispatch -/

theorem step_none (N t : Nat) (s : WorkVectorRun) (h : s.positions[t]? = none) :
    work_vector_thread_step N t s = s := by
  simp [work_vector_thread_step, h]

theorem step_returned (N t i : Nat) (s : WorkVectorRun)
    (h : s.positions[t]? = some (WorkerPosition.scanning i)) (hi : N < i) :
    work_vector_thread_step N t s = s := by
  simp [work_vector_thread_step, h, hi]

theorem step_skip (N t i : Nat) (s : WorkVectorRun)
    (h : s.positions[t]? = some (WorkerPosition.scanning i)) (hi : ¬ N < i)
    (hf : job_flag s.jobs_completed i = true) :
    work_vector_thread_step N t s =
      { s with positions := s.positions.set t (WorkerPosition.scanning (i + 1)) } := by
  simp [work_vector_thread_step, h, hi, hf]

theorem step_claim (N t i : Nat) (s : WorkVectorRun)
    (h : s.positions[t]? = some (WorkerPosition.scanning i)) (hi : ¬ N < i)
    (hf : job_flag s.jobs_completed i = false) :
    work_vector_thread_step N t s =
      { s with
        jobs_completed := mark_job s.jobs_completed i
        positions := s.positions.set t (WorkerPosition.executing i) } := by
  simp [work_vector_thread_step, h, hi, hf]

theorem step_execute (N t i : Nat) (s : WorkVectorRun)
    (h : s.positions[t]? = some (WorkerPosition.executing i)) :
    work_vector_thread_step N t s =
      { jobs_completed := mark_job s.jobs_completed i
        positions := s.positions.set t (WorkerPosition.scanning (i + 1))
        executed := s.executed ++ [{ thread := t, item := i }] } := by
  simp [work_vector_thread_step, h]

theorem work_vector_invariant_step (N t : Nat) (s : WorkVectorRun)
    (inv : WorkVectorInvariant N s) : WorkVectorInvariant N (work_vector_thread_step N t s) := by
  cases hp : s.positions[t]? with
  | none => rw [step_none N t s hp]; exact inv
  | some p =>
    cases p with
    | scanning i =>
      obtain ⟨hi1, hiN, hbelow⟩ := inv.scanning_ok t i hp
      by_cases hi : N < i
      · rw [step_returned N t i s hp hi]; exact inv
      · cases hf : job_flag s.jobs_completed i with
        | true =>
          rw [step_skip N t i s hp hi hf]
          refine ⟨inv.flags_length, ?_, ?_, ?_⟩
          · intro u k hu
            rcases getElem?_set_some _ _ _ _ _ hu with ⟨_, hk⟩ | ⟨_, hk⟩
            · cases hk
              refine ⟨by omega, by omega, ?_⟩
              intro j hj1 hj
              by_cases e : j = i
              · subst e; exact hf
              · exact hbelow j hj1 (by omega)
            · exact inv.scanning_ok u k hk
          · intro u k hu
            rcases getElem?_set_some _ _ _ _ _ hu with ⟨_, hk⟩ | ⟨_, hk⟩
            · cases hk
            · exact inv.executing_ok u k hk
          · intro j
            have hc := countP_set_add (fun p => decide (p = WorkerPosition.executing j))
              s.positions t _ (WorkerPosition.scanning (i + 1)) hp
            have := inv.once j
            simp only [WorkVectorRun.executions, WorkVectorRun.claim_holders] at this ⊢
            simp at hc
            omega
        | false =>
          rw [step_claim N t i s hp hi hf]
          have hflag : ∀ j, 1 ≤ j → job_flag (mark_job s.jobs_completed i) j
              = if j = i then true else job_flag s.jobs_completed j :=
            fun j hj => job_flag_mark_job _ i j hi1 (by rw [inv.flags_length]; omega) hj
          have hmono : ∀ j, 1 ≤ j → job_flag s.jobs_completed j = true →
              job_flag (mark_job s.jobs_completed i) j = true := by
            intro j hj h
            rw [hflag j hj]; split <;> simp [h]
          refine ⟨by simp [length_mark_job, inv.flags_length], ?_, ?_, ?_⟩
          · intro u k hu
            rcases getElem?_set_some _ _ _ _ _ hu with ⟨_, hk⟩ | ⟨_, hk⟩
            · cases hk
            · obtain ⟨a, b, c⟩ := inv.scanning_ok u k hk
              exact ⟨a, b, fun j hj1 hj => hmono j hj1 (c j hj1 hj)⟩
          · intro u k hu
            rcases getElem?_set_some _ _ _ _ _ hu with ⟨_, hk⟩ | ⟨_, hk⟩
            · cases hk
              refine ⟨hi1, by omega, ?_⟩
              intro j hj1 hj
              rw [hflag j hj1]
              by_cases e : j = i
              · simp [e]
              · simp only [e, if_false]; exact hbelow j hj1 (by omega)
            · obtain ⟨a, b, c⟩ := inv.executing_ok u k hk
              exact ⟨a, b, fun j hj1 hj => hmono j hj1 (c j hj1 hj)⟩
          · intro j
            have hc := countP_set_add (fun p => decide (p = WorkerPosition.executing j))
              s.positions t _ (WorkerPosition.executing i) hp
            have := inv.once j
            simp only [WorkVectorRun.executions, WorkVectorRun.claim_holders] at this ⊢
            simp at hc
            by_cases hj : 1 ≤ j
            · rw [hflag j hj]
              by_cases e : j = i
              · subst e
                rw [hf] at this
                simp only [Bool.false_eq_true, and_false, if_false] at this
                simp only [if_true, hj, and_self] at hc ⊢
                omega
              · have e2 : ¬ i = j := fun h => e h.symm
                simp only [e, e2, if_false] at hc ⊢
                omega
            · have e2 : ¬ i = j := by omega
              simp only [hj, false_and, e2, if_false] at this hc ⊢
              omega
    | executing i =>
      obtain ⟨hi1, hiN, hbelow⟩ := inv.executing_ok t i hp
      rw [step_execute N t i s hp]
      have hflag : ∀ j, 1 ≤ j → job_flag (mark_job s.jobs_completed i) j
          = job_flag s.jobs_completed j := by
        intro j hj
        rw [job_flag_mark_job _ i j hi1 (by rw [inv.flags_length]; omega) hj]
        by_cases e : j = i
        · subst e; simp [hbelow j hj (Nat.le_refl _)]
        · simp [e]
      refine ⟨by simp [length_mark_job, inv.flags_length], ?_, ?_, ?_⟩
      · intro u k hu
        rcases getElem?_set_some _ _ _ _ _ hu with ⟨_, hk⟩ | ⟨_, hk⟩
        · cases hk
          refine ⟨by omega, by omega, ?_⟩
          intro j hj1 hj
          rw [hflag j hj1]
          exact hbelow j hj1 (by omega)
        · obtain ⟨a, b, c⟩ := inv.scanning_ok u k hk
          exact ⟨a, b, fun j hj1 hj => by rw [hflag j hj1]; exact c j hj1 hj⟩
      · intro u k hu
        rcases getElem?_set_some _ _ _ _ _ hu with ⟨_, hk⟩ | ⟨_, hk⟩
        · cases hk
        · obtain ⟨a, b, c⟩ := inv.executing_ok u k hk
          exact ⟨a, b, fun j hj1 hj => by rw [hflag j hj1]; exact c j hj1 hj⟩
      · intro j
        have hc := countP_set_add (fun p => decide (p = WorkerPosition.executing j))
          s.positions t _ (WorkerPosition.scanning (i + 1)) hp
        have := inv.once j
        simp only [WorkVectorRun.executions, WorkVectorRun.claim_holders, List.map_append,
          List.count_append, List.map_cons, List.map_nil] at this ⊢
        simp at hc
        by_cases hj : 1 ≤ j
        · rw [hflag j hj]
          by_cases e : i = j
          · subst e
            simp only [if_true] at hc
            have h1 : List.count i [i] = 1 := by simp
            omega
          · simp only [e, if_false] at hc
            have h0 : List.count j [i] = 0 := by simp [List.count_cons, e]
            omega
        · have e : ¬ i = j := by omega
          simp only [e, if_false] at hc
          have h0 : List.count j [i] = 0 := by simp [List.count_cons, e]
          simp only [hj, false_and, if_false] at this ⊢
          omega


theorem job_flag_replicate (N j : Nat) :
    job_flag (List.replicate N AtomicBoolContainer.default) j = false := by
  unfold job_flag
  rw [List.getD_eq_getElem?_getD, List.getElem?_replicate]
  split <;> rfl

theorem work_vector_invariant_initial (N A : Nat) :
    WorkVectorInvariant N (WorkVectorRun.initial N A) := by
  refine ⟨by simp [WorkVectorRun.initial], ?_, ?_, ?_⟩
  · intro t i h
    simp only [WorkVectorRun.initial, List.getElem?_replicate] at h
    split at h
    · simp only [Option.some.injEq, WorkerPosition.scanning.injEq] at h
      subst h
      exact ⟨Nat.le_refl _, by omega, fun j h1 h2 => by omega⟩
    · cases h
  · intro t i h
    simp only [WorkVectorRun.initial, List.getElem?_replicate] at h
    split at h <;> cases h
  · intro j
    simp [WorkVectorRun.initial, WorkVectorRun.executions, WorkVectorRun.claim_holders,
      job_flag_replicate, List.countP_replicate]

theorem work_vector_invariant_run (N : Nat) (schedule : List Nat) :
    ∀ s, WorkVectorInvariant N s → WorkVectorInvariant N (run_work_vector_schedule N schedule s) := by
  induction schedule with
  | nil => intro s h; exact h
  | cons t rest ih =>
    intro s h
    exact ih _ (work_vector_invariant_step N t s h)

theorem run_work_vector_schedule_append (N : Nat) (l1 l2 : List Nat) (s : WorkVectorRun) :
    run_work_vector_schedule N (l1 ++ l2) s
      = run_work_vector_schedule N l2 (run_work_vector_schedule N l1 s) := by
  simp [run_work_vector_schedule, List.foldl_append]

theorem step_positions_length (N t : Nat) (s : WorkVectorRun) :
    (work_vector_thread_step N t s).positions.length = s.positions.length := by
  unfold work_vector_thread_step
  split
  · rfl
  · split
    · rfl
    · split <;> simp
  · simp

theorem step_positions_other (N t u : Nat) (s : WorkVectorRun) (h : u ≠ t) :
    (work_vector_thread_step N t s).positions[u]? = s.positions[u]? := by
  have h2 : t ≠ u := fun e => h e.symm
  unfold work_vector_thread_step
  split
  · rfl
  · split
    · rfl
    · split <;> simp [List.getElem?_set_ne h2]
  · simp [List.getElem?_set_ne h2]

theorem step_progress (N t : Nat) (s : WorkVectorRun) (inv : WorkVectorInvariant N s)
    (p : WorkerPosition) (hp : s.positions[t]? = some p) :
    ∃ q, (work_vector_thread_step N t s).positions[t]? = some q ∧
      q.remaining N ≤ p.remaining N - 1 := by
  have hlt : t < s.positions.length := by
    by_contra hc
    rw [List.getElem?_eq_none (by omega)] at hp
    cases hp
  cases p with
  | scanning i =>
    obtain ⟨hi1, hiN, _⟩ := inv.scanning_ok t i hp
    by_cases hi : N < i
    · rw [step_returned N t i s hp hi]
      exact ⟨_, hp, by simp only [WorkerPosition.remaining]; omega⟩
    · cases hf : job_flag s.jobs_completed i with
      | true =>
        rw [step_skip N t i s hp hi hf]
        refine ⟨WorkerPosition.scanning (i + 1), by simp [hlt], ?_⟩
        simp only [WorkerPosition.remaining]; omega
      | false =>
        rw [step_claim N t i s hp hi hf]
        refine ⟨WorkerPosition.executing i, by simp [hlt], ?_⟩
        simp only [WorkerPosition.remaining]; omega
  | executing i =>
    obtain ⟨hi1, hiN, _⟩ := inv.executing_ok t i hp
    rw [step_execute N t i s hp]
    refine ⟨WorkerPosition.scanning (i + 1), by simp [hlt], ?_⟩
    simp only [WorkerPosition.remaining]; omega

theorem remaining_zero (N t : Nat) (s : WorkVectorRun) (inv : WorkVectorInvariant N s)
    (p : WorkerPosition) (hp : s.positions[t]? = some p) (h0 : p.remaining N = 0) :
    p = WorkerPosition.scanning (N + 1) := by
  cases p with
  | scanning i =>
    obtain ⟨hi1, hiN, _⟩ := inv.scanning_ok t i hp
    simp only [WorkerPosition.remaining] at h0
    have : i = N + 1 := by omega
    rw [this]
  | executing i =>
    obtain ⟨hi1, hiN, _⟩ := inv.executing_ok t i hp
    simp only [WorkerPosition.remaining] at h0
    omega

theorem remaining_le (N t : Nat) (s : WorkVectorRun) (inv : WorkVectorInvariant N s)
    (p : WorkerPosition) (hp : s.positions[t]? = some p) : p.remaining N ≤ 2 * N := by
  cases p with
  | scanning i =>
    obtain ⟨hi1, hiN, _⟩ := inv.scanning_ok t i hp
    simp only [WorkerPosition.remaining]; omega
  | executing i =>
    obtain ⟨hi1, hiN, _⟩ := inv.executing_ok t i hp
    simp only [WorkerPosition.remaining]; omega

theorem run_thread_until_returned (N t : Nat) :
    ∀ (k : Nat) (s : WorkVectorRun), WorkVectorInvariant N s →
      ∀ p, s.positions[t]? = some p → p.remaining N ≤ k →
        (run_work_vector_schedule N (List.replicate k t) s).positions[t]?
          = some (WorkerPosition.scanning (N + 1)) := by
  intro k
  induction k with
  | zero =>
    intro s inv p hp hk
    have := remaining_zero N t s inv p hp (by omega)
    simpa [run_work_vector_schedule, this] using hp
  | succ k ih =>
    intro s inv p hp hk
    obtain ⟨q, hq, hle⟩ := step_progress N t s inv p hp
    have := ih (work_vector_thread_step N t s) (work_vector_invariant_step N t s inv) q hq (by omega)
    simpa [run_work_vector_schedule, List.replicate_succ] using this

theorem run_thread_others (N t u : Nat) (h : u ≠ t) :
    ∀ (k : Nat) (s : WorkVectorRun),
      (run_work_vector_schedule N (List.replicate k t) s).positions[u]? = s.positions[u]? := by
  intro k
  induction k with
  | zero => intro s; rfl
  | succ k ih =>
    intro s
    have := ih (work_vector_thread_step N t s)
    rw [step_positions_other N t u s h] at this
    simpa [run_work_vector_schedule, List.replicate_succ] using this

theorem run_positions_length (N : Nat) (schedule : List Nat) :
    ∀ s, (run_work_vector_schedule N schedule s).positions.length = s.positions.length := by
  induction schedule with
  | nil => intro s; rfl
  | cons t rest ih =>
    intro s
    have := ih (work_vector_thread_step N t s)
    rw [step_positions_length] at this
    simpa [run_work_vector_schedule] using this

theorem completion_schedule_returns (N : Nat) :
    ∀ (A : Nat) (s : WorkVectorRun), WorkVectorInvariant N s → A ≤ s.positions.length →
      ∀ u, u < A → (run_work_vector_schedule N (completion_schedule N A) s).positions[u]?
        = some (WorkerPosition.scanning (N + 1)) := by
  intro A
  induction A with
  | zero => intro s _ _ u hu; omega
  | succ A ih =>
    intro s inv hlen u hu
    have hsplit : completion_schedule N (A + 1)
        = completion_schedule N A ++ List.replicate (2 * N) A := by
      simp [completion_schedule, List.range_succ, List.flatMap_append]
    rw [hsplit, run_work_vector_schedule_append]
    have inv1 := work_vector_invariant_run N (completion_schedule N A) s inv
    have hlen1 := run_positions_length N (completion_schedule N A) s
    by_cases e : u = A
    · subst e
      have hlt : u < (run_work_vector_schedule N (completion_schedule N u) s).positions.length := by
        omega
      have hp : (run_work_vector_schedule N (completion_schedule N u) s).positions[u]?
          = some ((run_work_vector_schedule N (completion_schedule N u) s).positions[u]) := by
        simp [hlt]
      exact run_thread_until_returned N u (2 * N) _ inv1 _ hp (remaining_le N u _ inv1 _ hp)
    · rw [run_thread_others N A u e]
      exact ih s inv (by omega) u (by omega)


/-- Whatever the interleaving, at the end of a run every thread has returned and the executed
items are the items `1..N`, each once. -/
theorem work_vector_run_complete (N A : Nat) (hA : 1 ≤ A) (schedule : List Nat) :
    (work_vector_run N A schedule).positions
      = List.replicate A (WorkerPosition.scanning (N + 1)) ∧
    ((work_vector_run N A schedule).executed.map WorkEvent.item).Perm (List.range' 1 N) := by
  unfold work_vector_run
  rw [run_work_vector_schedule_append]
  have inv1 := work_vector_invariant_run N schedule _ (work_vector_invariant_initial N A)
  have hlen1 : (run_work_vector_schedule N schedule (WorkVectorRun.initial N A)).positions.length
      = A := by
    rw [run_positions_length]; simp [WorkVectorRun.initial]
  have inv2 := work_vector_invariant_run N (completion_schedule N A) _ inv1
  have hret := completion_schedule_returns N A _ inv1 (by omega)
  have hlen2 := run_positions_length N (completion_schedule N A)
    (run_work_vector_schedule N schedule (WorkVectorRun.initial N A))
  generalize run_work_vector_schedule N (completion_schedule N A)
    (run_work_vector_schedule N schedule (WorkVectorRun.initial N A)) = s at inv2 hret hlen2
  have hpos : s.positions = List.replicate A (WorkerPosition.scanning (N + 1)) := by
    rw [List.eq_replicate_iff]
    refine ⟨by omega, ?_⟩
    intro b hb
    obtain ⟨n, hn⟩ := List.mem_iff_getElem?.1 hb
    have hnA : n < A := by
      by_contra hc
      rw [List.getElem?_eq_none (by omega)] at hn
      cases hn
    rw [hret n hnA] at hn
    exact (Option.some.inj hn).symm
  refine ⟨hpos, ?_⟩
  rw [List.perm_iff_count]
  intro j
  have honce := inv2.once j
  have hhold : s.claim_holders j = 0 := by
    simp [WorkVectorRun.claim_holders, hpos, List.countP_replicate]
  rw [hhold] at honce
  simp only [WorkVectorRun.executions, Nat.add_zero] at honce
  rw [honce, List.count_eq_of_nodup (List.nodup_range' 1 N)]
  simp only [List.mem_range'_1]
  by_cases hj : 1 ≤ j ∧ j < 1 + N
  · have h0 : s.positions[0]? = some (WorkerPosition.scanning (N + 1)) := hret 0 (by omega)
    have hf := (inv2.scanning_ok 0 (N + 1) h0).2.2 j hj.1 (by omega)
    simp [hj, hf]
  · rw [if_neg hj]
    by_cases h1 : 1 ≤ j
    · have hf := job_flag_beyond s.jobs_completed j (by rw [inv2.flags_length]; omega)
      simp [hf]
    · simp [h1]

theorem map_item_with_logical_indices (info : RosettaThreadAssignmentInfo)
    (events : List WorkEvent) :
    (with_logical_indices info events).map WorkEvent.item = events.map WorkEvent.item := by
  simp [with_logical_indices, List.map_map, Function.comp_def]

/-- C1: for every work vector of `N` items and every requested thread count `R` with
`1 ≤ R ≤ total_threads()`, `do_work_vector_in_threads` has run each of the items `1..N`
exactly once when it returns, whatever the number of threads that were assigned and however
their steps interleaved; in the multi-threaded build every assigned thread has returned from
the thread function by then. -/
theorem do_work_vector_runs_every_item_once {W : Type} (MT : Bool) (opts : ThreadingOptions)
    (m : RosettaThreadManager) (caller R : Nat) (vec : List W) (schedule : List Nat)
    (_hR1 : 1 ≤ R) (_hRT : R ≤ (total_threads MT opts m.tracker).1) :
    ((do_work_vector_in_threads MT opts m caller vec R schedule).executed.map
        WorkEvent.item).Perm (List.range' 1 vec.length) ∧
    (∀ i, 1 ≤ i → i ≤ vec.length →
      ((do_work_vector_in_threads MT opts m caller vec R schedule).executed.map
        WorkEvent.item).count i = 1) ∧
    (MT = true →
      (work_vector_run vec.length
        (do_work_vector_in_threads MT opts m caller vec R
          schedule).thread_assignment.assigned_total_thread_count schedule).positions
        = List.replicate
          (do_work_vector_in_threads MT opts m caller vec R
            schedule).thread_assignment.assigned_total_thread_count
          (WorkerPosition.scanning (vec.length + 1))) := by
  have hperm : ((do_work_vector_in_threads MT opts m caller vec R schedule).executed.map
        WorkEvent.item).Perm (List.range' 1 vec.length) := by
    cases MT
    · simp [do_work_vector_in_threads, List.map_map, Function.comp_def]
    · simp only [do_work_vector_in_threads, if_true, map_item_with_logical_indices]
      exact (work_vector_run_complete vec.length _
        (dispatch_assigned_count_pos true opts m caller R) schedule).2
  refine ⟨hperm, ?_, ?_⟩
  · intro i h1 hN
    rw [hperm.count_eq, List.count_eq_of_nodup (List.nodup_range' 1 vec.length)]
    simp only [List.mem_range'_1]
    rw [if_pos ⟨h1, by omega⟩]
  · intro hMT
    subst hMT
    simp only [do_work_vector_in_threads, if_true]
    exact (work_vector_run_complete vec.length _
      (dispatch_assigned_count_pos true opts m caller R) schedule).1

/-- Witness for C1: five items, three threads requested of a pool of four, with an
interleaving of the three assigned threads. -/
theorem do_work_vector_runs_every_item_once_witness :
    (1 ≤ 3 ∧ 3 ≤ (total_threads true ⟨4, 8⟩ RosettaThreadManager.fresh.tracker).1) ∧
    ((do_work_vector_in_threads true ⟨4, 8⟩ RosettaThreadManager.fresh 0
        [(), (), (), (), ()] 3 [0, 1, 2, 1, 1, 0, 2, 2]).executed.map
        WorkEvent.item).Perm (List.range' 1 5) :=
  ⟨by decide,
    (do_work_vector_runs_every_item_once true ⟨4, 8⟩ RosettaThreadManager.fresh 0 3
      [(), (), (), (), ()] [0, 1, 2, 1, 1, 0, 2, 2] (by decide) (by decide)).1⟩

/-! ## Multistage dispatch -/

theorem stage_job_flag_mark (flags : List (List AtomicBoolContainer)) (σ0 i σ j : Nat)
    (h1 : 1 ≤ σ0) (h2 : σ0 ≤ flags.length) (hi1 : 1 ≤ i)
    (hi2 : i ≤ (flags.getD (σ0 - 1) []).length) (hσ : 1 ≤ σ) (hj : 1 ≤ j) :
    stage_job_flag (mark_stage_job flags σ0 i) σ j
      = if σ = σ0 ∧ j = i then true else stage_job_flag flags σ j := by
  unfold stage_job_flag mark_stage_job
  rw [List.getD_eq_getElem?_getD (flags.set _ _), List.getElem?_set]
  by_cases e : σ = σ0
  · subst e
    have hlt : σ - 1 < flags.length := by omega
    simp only [if_true, hlt, Option.getD_some, true_and]
    exact job_flag_mark_job _ i j hi1 hi2 hj
  · have e2 : ¬ (σ0 - 1 = σ - 1) := by omega
    simp only [e2, if_false, e, false_and]
    rw [← List.getD_eq_getElem?_getD]

theorem length_mark_stage_job (flags : List (List AtomicBoolContainer)) (σ0 i : Nat) :
    (mark_stage_job flags σ0 i).length = flags.length := by
  simp [mark_stage_job]

theorem stage_length_mark_stage_job (flags : List (List AtomicBoolContainer)) (σ0 i σ : Nat) :
    ((mark_stage_job flags σ0 i).getD (σ - 1) []).length = (flags.getD (σ - 1) []).length := by
  unfold mark_stage_job
  rw [List.getD_eq_getElem?_getD (flags.set _ _), List.getElem?_set]
  by_cases e : σ0 - 1 = σ - 1
  · rw [e]
    by_cases hlt : σ - 1 < flags.length
    · simp only [if_true, hlt, Option.getD_some, length_mark_job]
    · have h3 : flags.length ≤ σ - 1 := by omega
      simp only [if_true, hlt, if_false, Option.getD_none, List.getD_eq_getElem?_getD,
        List.getElem?_eq_none h3]
  · simp only [e, if_false]
    rw [← List.getD_eq_getElem?_getD]

theorem barrier_count_set (counts : List Nat) (σ0 σ v : Nat) (h1 : 1 ≤ σ0)
    (h2 : σ0 ≤ counts.length) (hσ : 1 ≤ σ) :
    barrier_count (counts.set (σ0 - 1) v) σ = if σ = σ0 then v else barrier_count counts σ := by
  unfold barrier_count
  rw [List.getD_eq_getElem?_getD, List.getElem?_set]
  by_cases e : σ = σ0
  · subst e
    have hlt : σ - 1 < counts.length := by omega
    simp [hlt]
  · have e2 : ¬ (σ0 - 1 = σ - 1) := by omega
    simp only [e2, if_false, e]
    rw [← List.getD_eq_getElem?_getD]

theorem countP_lt_of_not (l : List StageWorkerPosition) (t σ : Nat) (p : StageWorkerPosition)
    (hp : l[t]? = some p) (h : p.arrived σ = false) :
    l.countP (StageWorkerPosition.arrived σ) < l.length := by
  have hc := countP_set_add (StageWorkerPosition.arrived σ) l t p (StageWorkerPosition.waiting σ) hp
  have hle := List.countP_le_length (StageWorkerPosition.arrived σ)
    (l := l.set t (StageWorkerPosition.waiting σ))
  have hw : (StageWorkerPosition.waiting σ).arrived σ = true := by
    simp [StageWorkerPosition.arrived]
  rw [h, hw] at hc
  simp only [Bool.false_eq_true, if_false, if_true, List.length_set] at hc hle
  omega

theorem completed_in_append (l1 l2 : List StageEvent) (σ j : Nat) (h : completed_in l1 σ j) :
    completed_in (l1 ++ l2) σ j := by
  obtain ⟨e, he, h2⟩ := h
  exact ⟨e, List.mem_append_left _ he, h2⟩

theorem stages_in_order_append_completed (sizes : List Nat) (l : List StageEvent)
    (e : StageEvent) (hk : e.kind = StageEventKind.completed) (h : stages_in_order sizes l) :
    stages_in_order sizes (l ++ [e]) := by
  intro pre x post hsplit hx σ j h1 h2 h3 h4
  rcases List.append_eq_append_iff.1 hsplit with ⟨a, ha1, ha2⟩ | ⟨c, hc1, hc2⟩
  · -- pre = l ++ a, [e] = a ++ x :: post
    cases a with
    | nil =>
      simp only [List.nil_append, List.cons.injEq] at ha2
      rw [← ha2.1, hk] at hx
      cases hx
    | cons y ys =>
      simp only [List.cons_append, List.cons.injEq] at ha2
      have := ha2.2
      simp at this
  · -- l = pre ++ c, x :: post = c ++ [e]
    cases c with
    | nil =>
      simp only [List.nil_append, List.cons.injEq] at hc2
      rw [hc2.1, hk] at hx
      cases hx
    | cons y ys =>
      simp only [List.cons_append, List.cons.injEq] at hc2
      rw [← hc2.1] at hc1
      exact h pre x ys hc1 hx σ j h1 h2 h3 h4

theorem stages_in_order_append_started (sizes : List Nat) (l : List StageEvent)
    (e : StageEvent) (h : stages_in_order sizes l)
    (hnew : ∀ σ j, 1 ≤ σ → σ < e.stage → 1 ≤ j → j ≤ stage_size sizes σ → completed_in l σ j) :
    stages_in_order sizes (l ++ [e]) := by
  intro pre x post hsplit hx σ j h1 h2 h3 h4
  rcases List.append_eq_append_iff.1 hsplit with ⟨a, ha1, ha2⟩ | ⟨c, hc1, hc2⟩
  · cases a with
    | nil =>
      simp only [List.nil_append, List.cons.injEq] at ha2
      simp only [List.append_nil] at ha1
      rw [ha1]
      rw [← ha2.1] at h2
      exact hnew σ j h1 h2 h3 h4
    | cons y ys =>
      simp only [List.cons_append, List.cons.injEq] at ha2
      have := ha2.2
      simp at this
  · cases c with
    | nil =>
      simp only [List.nil_append, List.cons.injEq] at hc2
      simp only [List.append_nil] at hc1
      rw [← hc1]
      rw [hc2.1] at h2
      exact hnew σ j h1 h2 h3 h4
    | cons y ys =>
      simp only [List.cons_append, List.cons.injEq] at hc2
      rw [← hc2.1] at hc1
      exact h pre x ys hc1 hx σ j h1 h2 h3 h4

theorem multistage_invariant_update (sizes : List Nat) (s : MultistageRun) (t : Nat)
    (p q : StageWorkerPosition) (flags : List (List AtomicBoolContainer)) (counts : List Nat)
    (events : List StageEvent) (inv : MultistageInvariant sizes s)
    (hp : s.positions[t]? = some p)
    (hfl : flags.length = sizes.length)
    (hsl : ∀ σ, 1 ≤ σ → σ ≤ sizes.length → (flags.getD (σ - 1) []).length = stage_size sizes σ)
    (hcl : counts.length = sizes.length)
    (hq : q.well_formed sizes)
    (hbar : ∀ σ, 1 ≤ σ → σ ≤ sizes.length →
      barrier_count counts σ + (if q.arrived σ = true then 1 else 0)
        = barrier_count s.barrier_threadcount σ + (if p.arrived σ = true then 1 else 0))
    (hzero : ∀ σ, 1 ≤ σ → barrier_count s.barrier_threadcount σ = 0 → barrier_count counts σ = 0)
    (hpass : ∀ σ, 1 ≤ σ → σ < q.stage → barrier_count counts σ = 0)
    (hmono : ∀ σ j, 1 ≤ σ → 1 ≤ j → stage_job_flag s.multistage_jobs_completed σ j = true →
      stage_job_flag flags σ j = true)
    (hcov : ∀ σ j, 1 ≤ σ → 1 ≤ j → j ≤ stage_size sizes σ → q.covers σ j →
      stage_job_flag flags σ j = true)
    (hclaim : ∀ σ j, 1 ≤ σ → 1 ≤ j → stage_job_flag flags σ j = true →
      q = StageWorkerPosition.executing σ j ∨ completed_in events σ j ∨
        (stage_job_flag s.multistage_jobs_completed σ j = true ∧
          p ≠ StageWorkerPosition.executing σ j))
    (hev : ∀ σ j, completed_in s.events σ j → completed_in events σ j)
    (hord : stages_in_order sizes events) :
    MultistageInvariant sizes
      { multistage_jobs_completed := flags, barrier_threadcount := counts,
        positions := s.positions.set t q, events := events } := by
  have hlt : t < s.positions.length := by
    by_contra hc
    rw [List.getElem?_eq_none (by omega)] at hp
    cases hp
  refine ⟨hfl, hsl, hcl, ?_, ?_, ?_, ?_, ?_, hord⟩
  · intro u r hu
    rcases getElem?_set_some _ _ _ _ _ hu with ⟨_, hr⟩ | ⟨_, hr⟩
    · rw [hr]; exact hq
    · exact inv.positions_ok u r hr
  · intro σ h1 h2
    have hc := countP_set_add (StageWorkerPosition.arrived σ) s.positions t p q hp
    have hb := inv.barrier σ h1 h2
    have := hbar σ h1 h2
    simp only [List.length_set]
    omega
  · intro u r hu σ h1 h2
    rcases getElem?_set_some _ _ _ _ _ hu with ⟨_, hr⟩ | ⟨_, hr⟩
    · rw [hr] at h2; exact hpass σ h1 h2
    · exact hzero σ h1 (inv.passed u r hr σ h1 h2)
  · intro u r hu σ j h1 h2 h3 h4
    rcases getElem?_set_some _ _ _ _ _ hu with ⟨_, hr⟩ | ⟨_, hr⟩
    · rw [hr] at h4; exact hcov σ j h1 h2 h3 h4
    · exact hmono σ j h1 h2 (inv.flagged u r hr σ j h1 h2 h3 h4)
  · intro σ j h1 h2 h3
    rcases hclaim σ j h1 h2 h3 with hq1 | hq2 | ⟨hq3, hne⟩
    · left
      exact ⟨t, by simp [hlt, hq1]⟩
    · right; exact hq2
    · rcases inv.claimed σ j h1 h2 hq3 with ⟨u, hu⟩ | hdone
      · left
        refine ⟨u, ?_⟩
        have hut : t ≠ u := by
          intro e
          subst e
          rw [hp] at hu
          exact hne (Option.some.inj hu)
        simp only [List.getElem?_set_ne hut]
        exact hu
      · right; exact hev σ j hdone


theorem multistage_step_none (sizes : List Nat) (t : Nat) (s : MultistageRun)
    (h : s.positions[t]? = none) : multistage_thread_step sizes t s = s := by
  simp [multistage_thread_step, h]

theorem multistage_step_returned (sizes : List Nat) (t σ i : Nat) (s : MultistageRun)
    (h : s.positions[t]? = some (StageWorkerPosition.scanning σ i)) (hs : sizes.length < σ) :
    multistage_thread_step sizes t s = s := by
  simp [multistage_thread_step, h, hs]

theorem multistage_step_arrive (sizes : List Nat) (t σ i : Nat) (s : MultistageRun)
    (h : s.positions[t]? = some (StageWorkerPosition.scanning σ i)) (hs : ¬ sizes.length < σ)
    (hi : stage_size sizes σ < i) :
    multistage_thread_step sizes t s =
      { multistage_jobs_completed := s.multistage_jobs_completed
        barrier_threadcount :=
          s.barrier_threadcount.set (σ - 1) (barrier_count s.barrier_threadcount σ - 1)
        positions := s.positions.set t (StageWorkerPosition.waiting σ)
        events := s.events } := by
  simp [multistage_thread_step, h, hs, hi, barrier_count]

theorem multistage_step_skip (sizes : List Nat) (t σ i : Nat) (s : MultistageRun)
    (h : s.positions[t]? = some (StageWorkerPosition.scanning σ i)) (hs : ¬ sizes.length < σ)
    (hi : ¬ stage_size sizes σ < i)
    (hf : stage_job_flag s.multistage_jobs_completed σ i = true) :
    multistage_thread_step sizes t s =
      { multistage_jobs_completed := s.multistage_jobs_completed
        barrier_threadcount := s.barrier_threadcount
        positions := s.positions.set t (StageWorkerPosition.scanning σ (i + 1))
        events := s.events } := by
  simp [multistage_thread_step, h, hs, hi, hf]

theorem multistage_step_claim (sizes : List Nat) (t σ i : Nat) (s : MultistageRun)
    (h : s.positions[t]? = some (StageWorkerPosition.scanning σ i)) (hs : ¬ sizes.length < σ)
    (hi : ¬ stage_size sizes σ < i)
    (hf : stage_job_flag s.multistage_jobs_completed σ i = false) :
    multistage_thread_step sizes t s =
      { multistage_jobs_completed := mark_stage_job s.multistage_jobs_completed σ i
        barrier_threadcount := s.barrier_threadcount
        positions := s.positions.set t (StageWorkerPosition.executing σ i)
        events := s.events ++
          [{ kind := StageEventKind.started, thread := t, stage := σ, item := i }] } := by
  simp [multistage_thread_step, h, hs, hi, hf]

theorem multistage_step_execute (sizes : List Nat) (t σ i : Nat) (s : MultistageRun)
    (h : s.positions[t]? = some (StageWorkerPosition.executing σ i)) :
    multistage_thread_step sizes t s =
      { multistage_jobs_completed := mark_stage_job s.multistage_jobs_completed σ i
        barrier_threadcount := s.barrier_threadcount
        positions := s.positions.set t (StageWorkerPosition.scanning σ (i + 1))
        events := s.events ++
          [{ kind := StageEventKind.completed, thread := t, stage := σ, item := i }] } := by
  simp [multistage_thread_step, h]

theorem multistage_step_pass (sizes : List Nat) (t σ : Nat) (s : MultistageRun)
    (h : s.positions[t]? = some (StageWorkerPosition.waiting σ))
    (hc : barrier_count s.barrier_threadcount σ = 0) :
    multistage_thread_step sizes t s =
      { multistage_jobs_completed := s.multistage_jobs_completed
        barrier_threadcount := s.barrier_threadcount
        positions := s.positions.set t (StageWorkerPosition.scanning (σ + 1) 1)
        events := s.events } := by
  unfold barrier_count at hc
  rw [List.getD_eq_getElem?_getD] at hc
  simp [multistage_thread_step, h, hc]

theorem multistage_step_blocked (sizes : List Nat) (t σ : Nat) (s : MultistageRun)
    (h : s.positions[t]? = some (StageWorkerPosition.waiting σ))
    (hc : ¬ barrier_count s.barrier_threadcount σ = 0) :
    multistage_thread_step sizes t s = s := by
  unfold barrier_count at hc
  rw [List.getD_eq_getElem?_getD] at hc
  simp [multistage_thread_step, h, hc]

theorem all_completed_before (sizes : List Nat) (s : MultistageRun)
    (inv : MultistageInvariant sizes s) (t : Nat) (p : StageWorkerPosition)
    (hp : s.positions[t]? = some p) (σ j : Nat) (h1 : 1 ≤ σ) (h2 : σ < p.stage)
    (hS : p.stage ≤ sizes.length + 1)
    (h3 : 1 ≤ j) (h4 : j ≤ stage_size sizes σ) (hcov : p.covers σ j) :
    completed_in s.events σ j := by
  have hflag := inv.flagged t p hp σ j h1 h3 h4 hcov
  have hzero := inv.passed t p hp σ h1 h2
  have hbar := inv.barrier σ h1 (by omega)
  rw [hzero, Nat.zero_add] at hbar
  rcases inv.claimed σ j h1 h3 hflag with ⟨u, hu⟩ | hdone
  · exfalso
    have hlt := countP_lt_of_not s.positions u σ _ hu (by simp [StageWorkerPosition.arrived])
    omega
  · exact hdone

theorem multistage_invariant_step (sizes : List Nat) (t : Nat) (s : MultistageRun)
    (inv : MultistageInvariant sizes s) :
    MultistageInvariant sizes (multistage_thread_step sizes t s) := by
  cases hp : s.positions[t]? with
  | none => rw [multistage_step_none sizes t s hp]; exact inv
  | some p =>
    have hwf := inv.positions_ok t p hp
    cases p with
    | scanning σ0 i =>
      obtain ⟨hσ1, hσS, hi1, hiN⟩ := hwf
      by_cases hs : sizes.length < σ0
      · rw [multistage_step_returned sizes t σ0 i s hp hs]; exact inv
      · by_cases hi : stage_size sizes σ0 < i
        · rw [multistage_step_arrive sizes t σ0 i s hp hs hi]
          have hcount : ∀ σ, 1 ≤ σ →
              barrier_count (s.barrier_threadcount.set (σ0 - 1)
                (barrier_count s.barrier_threadcount σ0 - 1)) σ
              = if σ = σ0 then barrier_count s.barrier_threadcount σ0 - 1
                else barrier_count s.barrier_threadcount σ :=
            fun σ h => barrier_count_set _ σ0 σ _ hσ1 (by rw [inv.counts_length]; omega) h
          apply multistage_invariant_update sizes s t _ _ _ _ _ inv hp inv.flags_length
            inv.stage_flags_length
          · simp [inv.counts_length]
          · exact ⟨hσ1, by omega⟩
          · intro σ h1 h2
            rw [hcount σ h1]
            by_cases e : σ = σ0
            · subst e
              have hlt := countP_lt_of_not s.positions t σ _ hp
                (by simp [StageWorkerPosition.arrived])
              have hb := inv.barrier σ h1 h2
              simp [StageWorkerPosition.arrived]
              omega
            · have : (σ ≤ σ0) ↔ (σ < σ0) := by omega
              simp [StageWorkerPosition.arrived, e, this]
          · intro σ h1 h0
            rw [hcount σ h1]
            by_cases e : σ = σ0
            · subst e; simp only [if_true]; omega
            · simp only [e, if_false]; exact h0
          · intro σ h1 h2
            rw [hcount σ h1]
            simp only [StageWorkerPosition.stage] at h2
            have := inv.passed t _ hp σ h1 h2
            have e : ¬ σ = σ0 := by omega
            simp only [e, if_false]; exact this
          · intro σ j _ _ h; exact h
          · intro σ j h1 h2 h3 h4
            apply inv.flagged t _ hp σ j h1 h2 h3
            simp only [StageWorkerPosition.covers] at h4 ⊢
            by_cases e : σ = σ0
            · subst e; right; exact ⟨rfl, by omega⟩
            · left; omega
          · intro σ j _ _ h
            exact Or.inr (Or.inr ⟨h, by simp⟩)
          · intro σ j h; exact h
          · exact inv.ordered
        · cases hf : stage_job_flag s.multistage_jobs_completed σ0 i with
          | true =>
            rw [multistage_step_skip sizes t σ0 i s hp hs hi hf]
            apply multistage_invariant_update sizes s t _ _ _ _ _ inv hp inv.flags_length
              inv.stage_flags_length inv.counts_length
            · exact ⟨hσ1, hσS, by omega, by omega⟩
            · intro σ _ _
              simp [StageWorkerPosition.arrived]
            · intro σ _ h; exact h
            · intro σ h1 h2
              exact inv.passed t _ hp σ h1 h2
            · intro σ j _ _ h; exact h
            · intro σ j h1 h2 h3 h4
              by_cases e : σ = σ0 ∧ j = i
              · rw [e.1, e.2]; exact hf
              · apply inv.flagged t _ hp σ j h1 h2 h3
                simp only [StageWorkerPosition.covers] at h4 ⊢
                omega
            · intro σ j _ _ h
              exact Or.inr (Or.inr ⟨h, by simp⟩)
            · intro σ j h; exact h
            · exact inv.ordered
          | false =>
            rw [multistage_step_claim sizes t σ0 i s hp hs hi hf]
            have hflag : ∀ σ j, 1 ≤ σ → 1 ≤ j →
                stage_job_flag (mark_stage_job s.multistage_jobs_completed σ0 i) σ j
                  = if σ = σ0 ∧ j = i then true
                    else stage_job_flag s.multistage_jobs_completed σ j :=
              fun σ j h1 h2 => stage_job_flag_mark _ σ0 i σ j hσ1
                (by rw [inv.flags_length]; omega) hi1
                (by rw [inv.stage_flags_length σ0 hσ1 (by omega)]; omega) h1 h2
            apply multistage_invariant_update sizes s t _ _ _ _ _ inv hp
            · rw [length_mark_stage_job]; exact inv.flags_length
            · intro σ h1 h2
              rw [stage_length_mark_stage_job]; exact inv.stage_flags_length σ h1 h2
            · exact inv.counts_length
            · exact ⟨hσ1, by omega, hi1, by omega⟩
            · intro σ _ _
              simp [StageWorkerPosition.arrived]
            · intro σ _ h; exact h
            · intro σ h1 h2
              exact inv.passed t _ hp σ h1 h2
            · intro σ j h1 h2 h
              rw [hflag σ j h1 h2]; split <;> simp [h]
            · intro σ j h1 h2 h3 h4
              rw [hflag σ j h1 h2]
              by_cases e : σ = σ0 ∧ j = i
              · simp [e]
              · simp only [e, if_false]
                apply inv.flagged t _ hp σ j h1 h2 h3
                simp only [StageWorkerPosition.covers] at h4 ⊢
                omega
            · intro σ j h1 h2 h
              rw [hflag σ j h1 h2] at h
              by_cases e : σ = σ0 ∧ j = i
              · left; rw [e.1, e.2]
              · simp only [e, if_false] at h
                exact Or.inr (Or.inr ⟨h, by simp⟩)
            · intro σ j h; exact completed_in_append _ _ σ j h
            · apply stages_in_order_append_started sizes _ _ inv.ordered
              intro σ j h1 h2 h3 h4
              exact all_completed_before sizes s inv t _ hp σ j h1 h2 hσS h3 h4
                (by simp only [StageWorkerPosition.covers]; left; exact h2)
    | executing σ0 i =>
      obtain ⟨hσ1, hσS, hi1, hiN⟩ := hwf
      rw [multistage_step_execute sizes t σ0 i s hp]
      have hold : stage_job_flag s.multistage_jobs_completed σ0 i = true :=
        inv.flagged t _ hp σ0 i hσ1 hi1 hiN
          (Or.inr ⟨rfl, Nat.le_refl _⟩)
      have hflag : ∀ σ j, 1 ≤ σ → 1 ≤ j →
          stage_job_flag (mark_stage_job s.multistage_jobs_completed σ0 i) σ j
            = stage_job_flag s.multistage_jobs_completed σ j := by
        intro σ j h1 h2
        rw [stage_job_flag_mark _ σ0 i σ j hσ1 (by rw [inv.flags_length]; omega) hi1
          (by rw [inv.stage_flags_length σ0 hσ1 (by omega)]; omega) h1 h2]
        by_cases e : σ = σ0 ∧ j = i
        · rw [e.1, e.2, hold]; simp
        · simp only [e, if_false]
      apply multistage_invariant_update sizes s t _ _ _ _ _ inv hp
      · rw [length_mark_stage_job]; exact inv.flags_length
      · intro σ h1 h2
        rw [stage_length_mark_stage_job]; exact inv.stage_flags_length σ h1 h2
      · exact inv.counts_length
      · exact ⟨hσ1, by omega, by omega, by omega⟩
      · intro σ _ _
        simp [StageWorkerPosition.arrived]
      · intro σ _ h; exact h
      · intro σ h1 h2
        exact inv.passed t _ hp σ h1 h2
      · intro σ j h1 h2 h
        rw [hflag σ j h1 h2]; exact h
      · intro σ j h1 h2 h3 h4
        rw [hflag σ j h1 h2]
        apply inv.flagged t _ hp σ j h1 h2 h3
        simp only [StageWorkerPosition.covers] at h4 ⊢
        omega
      · intro σ j h1 h2 h
        rw [hflag σ j h1 h2] at h
        by_cases e : σ = σ0 ∧ j = i
        · right; left
          rw [e.1, e.2]
          unfold completed_in
          refine ⟨{ kind := StageEventKind.completed, thread := t, stage := σ0, item := i },
            List.mem_append_right _ (List.mem_singleton.2 rfl), ?_⟩
          exact ⟨rfl, rfl, rfl⟩
        · refine Or.inr (Or.inr ⟨h, ?_⟩)
          intro he
          simp only [StageWorkerPosition.executing.injEq] at he
          exact e ⟨he.1.symm, he.2.symm⟩
      · intro σ j h; exact completed_in_append _ _ σ j h
      · exact stages_in_order_append_completed sizes _ _ rfl inv.ordered
    | waiting σ0 =>
      obtain ⟨hσ1, hσS⟩ := hwf
      by_cases hc : barrier_count s.barrier_threadcount σ0 = 0
      · rw [multistage_step_pass sizes t σ0 s hp hc]
        apply multistage_invariant_update sizes s t _ _ _ _ _ inv hp inv.flags_length
          inv.stage_flags_length inv.counts_length
        · exact ⟨by omega, by omega, Nat.le_refl _, by omega⟩
        · intro σ _ _
          have : (σ < σ0 + 1) ↔ (σ ≤ σ0) := by omega
          simp [StageWorkerPosition.arrived, this]
        · intro σ _ h; exact h
        · intro σ h1 h2
          by_cases e : σ = σ0
          · rw [e]; exact hc
          · exact inv.passed t _ hp σ h1 (by
              simp only [StageWorkerPosition.stage] at h2 ⊢; omega)
        · intro σ j _ _ h; exact h
        · intro σ j h1 h2 h3 h4
          apply inv.flagged t _ hp σ j h1 h2 h3
          simp only [StageWorkerPosition.covers] at h4 ⊢
          omega
        · intro σ j _ _ h
          exact Or.inr (Or.inr ⟨h, by simp⟩)
        · intro σ j h; exact h
        · exact inv.ordered
      · rw [multistage_step_blocked sizes t σ0 s hp hc]; exact inv


theorem stage_job_flag_initial (sizes : List Nat) (σ j : Nat) :
    stage_job_flag (sizes.map (fun n => List.replicate n AtomicBoolContainer.default)) σ j
      = false := by
  unfold stage_job_flag job_flag
  rw [List.getD_eq_getElem?_getD (List.map _ _), List.getElem?_map]
  cases sizes[σ - 1]? with
  | none => rfl
  | some n =>
    simp only [Option.map_some', Option.getD_some]
    rw [List.getD_eq_getElem?_getD, List.getElem?_replicate]
    split <;> rfl

theorem multistage_invariant_initial (sizes : List Nat) (A : Nat) :
    MultistageInvariant sizes (MultistageRun.initial sizes A) := by
  have hpos : ∀ (t : Nat) (p : StageWorkerPosition),
      (MultistageRun.initial sizes A).positions[t]? = some p →
        p = StageWorkerPosition.scanning 1 1 := by
    intro t p h
    simp only [MultistageRun.initial, List.getElem?_replicate] at h
    split at h
    · exact (Option.some.inj h).symm
    · cases h
  refine ⟨by simp [MultistageRun.initial], ?_, by simp [MultistageRun.initial], ?_, ?_, ?_, ?_,
    ?_, ?_⟩
  · intro σ h1 h2
    have hlt : σ - 1 < sizes.length := by omega
    simp [MultistageRun.initial, stage_size, List.getD_eq_getElem?_getD, List.getElem?_map,
      List.getElem?_eq_getElem hlt]
  · intro t p h
    rw [hpos t p h]
    exact ⟨Nat.le_refl _, by omega, Nat.le_refl _, by omega⟩
  · intro σ h1 h2
    have hlt : σ - 1 < sizes.length := by omega
    have hn : ¬ σ < 1 := by omega
    simp [MultistageRun.initial, barrier_count, List.getD_eq_getElem?_getD,
      List.getElem?_replicate, hlt, List.countP_replicate, StageWorkerPosition.arrived, hn]
  · intro t p h σ h1 h2
    rw [hpos t p h] at h2
    simp only [StageWorkerPosition.stage] at h2
    omega
  · intro t p h σ j h1 h2 _ h4
    rw [hpos t p h] at h4
    simp only [StageWorkerPosition.covers] at h4
    omega
  · intro σ j _ _ h
    simp only [MultistageRun.initial] at h
    rw [stage_job_flag_initial] at h
    cases h
  · intro pre e post h
    simp [MultistageRun.initial] at h

theorem multistage_invariant_run (sizes : List Nat) (schedule : List Nat) :
    ∀ s, MultistageInvariant sizes s →
      MultistageInvariant sizes (run_multistage_schedule sizes schedule s) := by
  induction schedule with
  | nil => intro s h; exact h
  | cons t rest ih =>
    intro s h
    exact ih _ (multistage_invariant_step sizes t s h)

theorem stages_in_order_rename (sizes : List Nat) (events : List StageEvent)
    (f : StageEvent → StageEvent)
    (hf : ∀ e, (f e).kind = e.kind ∧ (f e).stage = e.stage ∧ (f e).item = e.item)
    (h : stages_in_order sizes events) : stages_in_order sizes (events.map f) := by
  intro pre e post hsplit hk σ j h1 h2 h3 h4
  obtain ⟨l1, l2, hl, hl1, hl2⟩ := List.map_eq_append_iff.1 hsplit
  obtain ⟨a, l3, hl3, ha, _⟩ := List.map_eq_cons_iff.1 hl2
  rw [hl3] at hl
  rw [← ha] at hk h2
  rw [(hf a).1] at hk
  rw [(hf a).2.1] at h2
  obtain ⟨x, hx, hx1, hx2, hx3⟩ := h l1 a l3 hl hk σ j h1 h2 h3 h4
  refine ⟨f x, ?_, ?_, ?_, ?_⟩
  · rw [← hl1]; exact List.mem_map_of_mem f hx
  · rw [(hf x).1]; exact hx1
  · rw [(hf x).2.1]; exact hx2
  · rw [(hf x).2.2]; exact hx3

theorem direct_stage_events_stage (caller stage N : Nat) :
    ∀ e ∈ direct_stage_events caller stage N, e.stage = stage := by
  intro e he
  simp only [direct_stage_events, List.mem_flatMap, List.mem_cons, List.mem_singleton,
    List.not_mem_nil, or_false] at he
  obtain ⟨i, _, rfl | rfl⟩ := he <;> rfl

theorem direct_stage_events_completed (caller stage N j : Nat) (h1 : 1 ≤ j) (h2 : j ≤ N) :
    completed_in (direct_stage_events caller stage N) stage j := by
  refine ⟨{ kind := StageEventKind.completed, thread := caller, stage := stage, item := j },
    ?_, rfl, rfl, rfl⟩
  simp only [direct_stage_events, List.mem_flatMap]
  exact ⟨j, List.mem_range'_1.2 ⟨h1, by omega⟩, by simp⟩

theorem direct_multistage_events_in_order (caller : Nat) :
    ∀ (rest : List Nat) (s0 : Nat) (pre : List StageEvent) (e : StageEvent)
      (post : List StageEvent),
      direct_multistage_events caller s0 rest = pre ++ e :: post →
      e.kind = StageEventKind.started →
      ∀ σ j, s0 ≤ σ → σ < e.stage → 1 ≤ j → j ≤ rest.getD (σ - s0) 0 →
        completed_in pre σ j := by
  intro rest
  induction rest with
  | nil =>
    intro s0 pre e post h
    simp [direct_multistage_events] at h
  | cons n rest ih =>
    intro s0 pre e post h hk σ j h1 h2 h3 h4
    simp only [direct_multistage_events] at h
    have key : ∀ a, pre = direct_stage_events caller s0 n ++ a →
        direct_multistage_events caller (s0 + 1) rest = a ++ e :: post →
        completed_in pre σ j := by
      intro a ha1 ha2
      by_cases e0 : σ = s0
      · subst e0
        rw [Nat.sub_self, List.getD_cons_zero] at h4
        rw [ha1]
        exact completed_in_append _ _ σ j (direct_stage_events_completed caller σ n j h3 h4)
      · have hσ : σ - s0 = (σ - (s0 + 1)) + 1 := by omega
        rw [hσ, List.getD_cons_succ] at h4
        obtain ⟨x, hx, hx2⟩ := ih (s0 + 1) a e post ha2 hk σ j (by omega) h2 h3 h4
        rw [ha1]
        exact ⟨x, List.mem_append_right _ hx, hx2⟩
    rcases List.append_eq_append_iff.1 h with ⟨a, ha1, ha2⟩ | ⟨c, hc1, hc2⟩
    · exact key a ha1 ha2
    · cases c with
      | nil =>
        simp only [List.append_nil] at hc1
        simp only [List.nil_append] at hc2
        exact key [] (by simp [hc1]) (by simp [hc2])
      | cons y ys =>
        simp only [List.cons_append, List.cons.injEq] at hc2
        have hy : y ∈ direct_stage_events caller s0 n := by
          rw [hc1]; simp
        have := direct_stage_events_stage caller s0 n y hy
        rw [← hc2.1] at this
        omega

theorem run_multistage_schedule_append (sizes : List Nat) (l1 l2 : List Nat) (s : MultistageRun) :
    run_multistage_schedule sizes (l1 ++ l2) s
      = run_multistage_schedule sizes l2 (run_multistage_schedule sizes l1 s) := by
  simp [run_multistage_schedule, List.foldl_append]

theorem multistage_step_positions_length (sizes : List Nat) (t : Nat) (s : MultistageRun) :
    (multistage_thread_step sizes t s).positions.length = s.positions.length := by
  unfold multistage_thread_step
  split
  · rfl
  · split
    · rfl
    · split
      · simp
      · split <;> simp
  · simp
  · split <;> simp

theorem multistage_step_positions_other (sizes : List Nat) (t u : Nat) (s : MultistageRun)
    (h : u ≠ t) : (multistage_thread_step sizes t s).positions[u]? = s.positions[u]? := by
  have h2 : t ≠ u := fun e => h e.symm
  unfold multistage_thread_step
  split
  · rfl
  · split
    · rfl
    · split
      · simp [List.getElem?_set_ne h2]
      · split <;> simp [List.getElem?_set_ne h2]
  · simp [List.getElem?_set_ne h2]
  · split <;> simp [List.getElem?_set_ne h2]

theorem multistage_step_count_zero (sizes : List Nat) (t : Nat) (s : MultistageRun)
    (inv : MultistageInvariant sizes s) (σ : Nat) (h1 : 1 ≤ σ)
    (h0 : barrier_count s.barrier_threadcount σ = 0) :
    barrier_count (multistage_thread_step sizes t s).barrier_threadcount σ = 0 := by
  cases hp : s.positions[t]? with
  | none => rw [multistage_step_none sizes t s hp]; exact h0
  | some p =>
    have hwf := inv.positions_ok t p hp
    cases p with
    | scanning σ0 i =>
      by_cases hs : sizes.length < σ0
      · rw [multistage_step_returned sizes t σ0 i s hp hs]; exact h0
      · by_cases hi : stage_size sizes σ0 < i
        · rw [multistage_step_arrive sizes t σ0 i s hp hs hi]
          simp only
          rw [barrier_count_set _ σ0 σ _ hwf.1 (by rw [inv.counts_length]; omega) h1]
          by_cases e : σ = σ0
          · subst e; simp only [if_true]; omega
          · simp only [e, if_false]; exact h0
        · cases hf : stage_job_flag s.multistage_jobs_completed σ0 i with
          | true => rw [multistage_step_skip sizes t σ0 i s hp hs hi hf]; exact h0
          | false => rw [multistage_step_claim sizes t σ0 i s hp hs hi hf]; exact h0
    | executing σ0 i => rw [multistage_step_execute sizes t σ0 i s hp]; exact h0
    | waiting σ0 =>
      by_cases hc : barrier_count s.barrier_threadcount σ0 = 0
      · rw [multistage_step_pass sizes t σ0 s hp hc]; exact h0
      · rw [multistage_step_blocked sizes t σ0 s hp hc]; exact h0

/-- One step of a thread that has reached the barrier closing stage `k - 1`, whose countdown
is at zero, brings the thread closer to the barrier closing stage `k`; the positions the
thread has reached stay reached. -/
theorem multistage_step_progress (sizes : List Nat) (t : Nat) (s : MultistageRun)
    (inv : MultistageInvariant sizes s) (k : Nat) (hk1 : 1 ≤ k) (hkS : k ≤ sizes.length)
    (hzero : 2 ≤ k → barrier_count s.barrier_threadcount (k - 1) = 0)
    (p : StageWorkerPosition) (hp : s.positions[t]? = some p)
    (harr : p.arrived (k - 1) = true) :
    ∃ q, (multistage_thread_step sizes t s).positions[t]? = some q ∧
      q.arrived (k - 1) = true ∧ (p.arrived k = true → q.arrived k = true) ∧
      q.distance sizes k ≤ p.distance sizes k - 1 := by
  have hlt : t < s.positions.length := by
    by_contra hc
    rw [List.getElem?_eq_none (by omega)] at hp
    cases hp
  have hwf := inv.positions_ok t p hp
  cases p with
  | scanning σ0 i =>
    obtain ⟨hσ1, hσS, hi1, hiN⟩ := hwf
    simp only [StageWorkerPosition.arrived, decide_eq_true_eq] at harr
    by_cases hs : sizes.length < σ0
    · rw [multistage_step_returned sizes t σ0 i s hp hs]
      refine ⟨_, hp, by simp [StageWorkerPosition.arrived, harr], fun h => h, ?_⟩
      have : k < σ0 := by omega
      simp [StageWorkerPosition.distance, this]
    · by_cases hi : stage_size sizes σ0 < i
      · rw [multistage_step_arrive sizes t σ0 i s hp hs hi]
        refine ⟨StageWorkerPosition.waiting σ0, by simp [hlt], ?_, ?_, ?_⟩
        · simp only [StageWorkerPosition.arrived, decide_eq_true_eq]; omega
        · simp only [StageWorkerPosition.arrived, decide_eq_true_eq]; omega
        · have : k ≤ σ0 := by omega
          simp [StageWorkerPosition.distance, this]
      · cases hf : stage_job_flag s.multistage_jobs_completed σ0 i with
        | true =>
          rw [multistage_step_skip sizes t σ0 i s hp hs hi hf]
          refine ⟨StageWorkerPosition.scanning σ0 (i + 1), by simp [hlt], ?_, ?_, ?_⟩
          · simp only [StageWorkerPosition.arrived, decide_eq_true_eq]; omega
          · simp only [StageWorkerPosition.arrived, decide_eq_true_eq]; omega
          · simp only [StageWorkerPosition.distance]
            by_cases e : k < σ0
            · simp [e]
            · have : σ0 = k := by omega
              subst this
              simp only [e, if_false]; omega
        | false =>
          rw [multistage_step_claim sizes t σ0 i s hp hs hi hf]
          refine ⟨StageWorkerPosition.executing σ0 i, by simp [hlt], ?_, ?_, ?_⟩
          · simp only [StageWorkerPosition.arrived, decide_eq_true_eq]; omega
          · simp only [StageWorkerPosition.arrived, decide_eq_true_eq]; omega
          · simp only [StageWorkerPosition.distance]
            by_cases e : k < σ0
            · simp [e]
            · have : σ0 = k := by omega
              subst this
              simp only [e, if_false]; omega
  | executing σ0 i =>
    obtain ⟨hσ1, hσS, hi1, hiN⟩ := hwf
    simp only [StageWorkerPosition.arrived, decide_eq_true_eq] at harr
    rw [multistage_step_execute sizes t σ0 i s hp]
    refine ⟨StageWorkerPosition.scanning σ0 (i + 1), by simp [hlt], ?_, ?_, ?_⟩
    · simp only [StageWorkerPosition.arrived, decide_eq_true_eq]; omega
    · simp only [StageWorkerPosition.arrived, decide_eq_true_eq]; omega
    · simp only [StageWorkerPosition.distance]
      by_cases e : k < σ0
      · simp [e]
      · have : σ0 = k := by omega
        subst this
        simp only [e, if_false]; omega
  | waiting σ0 =>
    obtain ⟨hσ1, hσS⟩ := hwf
    simp only [StageWorkerPosition.arrived, decide_eq_true_eq] at harr
    by_cases hc : barrier_count s.barrier_threadcount σ0 = 0
    · rw [multistage_step_pass sizes t σ0 s hp hc]
      refine ⟨StageWorkerPosition.scanning (σ0 + 1) 1, by simp [hlt], ?_, ?_, ?_⟩
      · simp only [StageWorkerPosition.arrived, decide_eq_true_eq]; omega
      · simp only [StageWorkerPosition.arrived, decide_eq_true_eq]; omega
      · simp only [StageWorkerPosition.distance]
        by_cases e : k ≤ σ0
        · have : k < σ0 + 1 := by omega
          simp [this]
        · have e2 : ¬ k < σ0 + 1 := by omega
          simp only [e, e2, if_false]; omega
    · rw [multistage_step_blocked sizes t σ0 s hp hc]
      refine ⟨_, hp, by simp [StageWorkerPosition.arrived, harr], fun h => h, ?_⟩
      by_cases e : k ≤ σ0
      · simp [StageWorkerPosition.distance, e]
      · exfalso
        have e1 : σ0 = k - 1 := by omega
        rw [e1] at hc
        exact hc (hzero (by omega))


theorem arrived_of_distance_zero (sizes : List Nat) (k : Nat) (p : StageWorkerPosition)
    (hwf : p.well_formed sizes) (harr : p.arrived (k - 1) = true) (hk1 : 1 ≤ k)
    (h0 : p.distance sizes k = 0) : p.arrived k = true := by
  cases p with
  | scanning s i =>
    simp only [StageWorkerPosition.distance] at h0
    simp only [StageWorkerPosition.arrived, decide_eq_true_eq]
    by_contra hc
    simp only [hc, if_false] at h0
    omega
  | executing s i =>
    obtain ⟨_, _, _, hiN⟩ := hwf
    simp only [StageWorkerPosition.distance] at h0
    simp only [StageWorkerPosition.arrived, decide_eq_true_eq] at harr ⊢
    by_contra hc
    simp only [hc, if_false] at h0
    have : s = k := by omega
    subst this
    omega
  | waiting s =>
    simp only [StageWorkerPosition.distance] at h0
    simp only [StageWorkerPosition.arrived, decide_eq_true_eq]
    by_contra hc
    simp only [hc, if_false] at h0
    omega

theorem distance_le (sizes : List Nat) (k : Nat) (p : StageWorkerPosition)
    (hwf : p.well_formed sizes) : p.distance sizes k ≤ 2 * stage_size sizes k + 2 := by
  cases p with
  | scanning s i =>
    obtain ⟨_, _, hi1, _⟩ := hwf
    simp only [StageWorkerPosition.distance]
    split <;> omega
  | executing s i =>
    simp only [StageWorkerPosition.distance]
    split <;> omega
  | waiting s =>
    simp only [StageWorkerPosition.distance]
    split <;> omega

theorem arrived_pred (k : Nat) (p : StageWorkerPosition) (h : p.arrived k = true) :
    p.arrived (k - 1) = true := by
  cases p <;> simp only [StageWorkerPosition.arrived, decide_eq_true_eq] at h ⊢ <;> omega

theorem stage_size_le_foldl_max (sizes : List Nat) (k : Nat) :
    stage_size sizes k ≤ sizes.foldl max 0 := by
  have gen : ∀ (l : List Nat) (a n : Nat), a ≤ l.foldl max a ∧ l.getD n 0 ≤ l.foldl max a := by
    intro l
    induction l with
    | nil => intro a n; simp
    | cons x xs ih =>
      intro a n
      simp only [List.foldl_cons]
      refine ⟨Nat.le_trans (Nat.le_max_left a x) (ih (max a x) 0).1, ?_⟩
      cases n with
      | zero =>
        simp only [List.getD_cons_zero]
        exact Nat.le_trans (Nat.le_max_right a x) (ih (max a x) 0).1
      | succ n =>
        simp only [List.getD_cons_succ]
        exact (ih (max a x) n).2
  exact (gen sizes 0 (k - 1)).2

theorem multistage_run_positions_length (sizes : List Nat) (schedule : List Nat) :
    ∀ s, (run_multistage_schedule sizes schedule s).positions.length = s.positions.length := by
  induction schedule with
  | nil => intro s; rfl
  | cons t rest ih =>
    intro s
    have := ih (multistage_thread_step sizes t s)
    rw [multistage_step_positions_length] at this
    simpa [run_multistage_schedule] using this

theorem multistage_turn_others (sizes : List Nat) (t u : Nat) (h : u ≠ t) :
    ∀ (n : Nat) (s : MultistageRun),
      (run_multistage_schedule sizes (List.replicate n t) s).positions[u]? = s.positions[u]? := by
  intro n
  induction n with
  | zero => intro s; rfl
  | succ n ih =>
    intro s
    have := ih (multistage_thread_step sizes t s)
    rw [multistage_step_positions_other sizes t u s h] at this
    simpa [run_multistage_schedule, List.replicate_succ] using this

/-- A turn of enough steps brings a thread to the barrier that closes stage `k`. -/
theorem multistage_turn_arrives (sizes : List Nat) (t k : Nat) (hk1 : 1 ≤ k)
    (hkS : k ≤ sizes.length) :
    ∀ (n : Nat) (s : MultistageRun), MultistageInvariant sizes s →
      (2 ≤ k → barrier_count s.barrier_threadcount (k - 1) = 0) →
      ∀ p, s.positions[t]? = some p → p.arrived (k - 1) = true → p.distance sizes k ≤ n →
        ∃ q, (run_multistage_schedule sizes (List.replicate n t) s).positions[t]? = some q ∧
          q.arrived k = true := by
  intro n
  induction n with
  | zero =>
    intro s inv _ p hp harr hn
    exact ⟨p, by simpa [run_multistage_schedule] using hp,
      arrived_of_distance_zero sizes k p (inv.positions_ok t p hp) harr hk1 (by omega)⟩
  | succ n ih =>
    intro s inv hzero p hp harr hn
    obtain ⟨q, hq, hq1, _, hq3⟩ := multistage_step_progress sizes t s inv k hk1 hkS hzero p hp harr
    have hzero2 : 2 ≤ k →
        barrier_count (multistage_thread_step sizes t s).barrier_threadcount (k - 1) = 0 :=
      fun h2 => multistage_step_count_zero sizes t s inv (k - 1) (by omega) (hzero h2)
    obtain ⟨r, hr, hr1⟩ := ih (multistage_thread_step sizes t s)
      (multistage_invariant_step sizes t s inv) hzero2 q hq hq1 (by omega)
    exact ⟨r, by simpa [run_multistage_schedule, List.replicate_succ] using hr, hr1⟩

theorem count_zero_of_all_arrived (sizes : List Nat) (s : MultistageRun)
    (inv : MultistageInvariant sizes s) (σ : Nat) (h1 : 1 ≤ σ) (h2 : σ ≤ sizes.length)
    (hall : ∀ (u : Nat) (p : StageWorkerPosition), s.positions[u]? = some p →
      p.arrived σ = true) :
    barrier_count s.barrier_threadcount σ = 0 := by
  have hb := inv.barrier σ h1 h2
  have hc : s.positions.countP (StageWorkerPosition.arrived σ) = s.positions.length := by
    rw [List.countP_eq_length]
    intro a ha
    obtain ⟨n, hn⟩ := List.mem_iff_getElem?.1 ha
    exact hall n a hn
  omega

/-- One round brings every thread from the barrier closing stage `k - 1` to the barrier
closing stage `k`. -/
theorem multistage_round_arrives (sizes : List Nat) (k : Nat) (hk1 : 1 ≤ k)
    (hkS : k ≤ sizes.length) :
    ∀ (A : Nat) (s : MultistageRun), MultistageInvariant sizes s → A ≤ s.positions.length →
      (∀ (u : Nat) (p : StageWorkerPosition), s.positions[u]? = some p →
        p.arrived (k - 1) = true) →
      (∀ (u : Nat) (p : StageWorkerPosition),
        (run_multistage_schedule sizes (multistage_round sizes A) s).positions[u]? = some p →
          p.arrived (k - 1) = true ∧ (u < A → p.arrived k = true)) := by
  intro A
  induction A with
  | zero =>
    intro s _ _ hall u p hp
    simp only [multistage_round, List.range_zero, List.flatMap_nil, run_multistage_schedule,
      List.foldl_nil] at hp
    exact ⟨hall u p hp, fun h => by omega⟩
  | succ A ih =>
    intro s inv hlen hall u p hp
    have hsplit : multistage_round sizes (A + 1)
        = multistage_round sizes A ++ List.replicate (2 * sizes.foldl max 0 + 2) A := by
      simp [multistage_round, List.range_succ, List.flatMap_append]
    rw [hsplit, run_multistage_schedule_append] at hp
    have inv1 := multistage_invariant_run sizes (multistage_round sizes A) s inv
    have hlen1 := multistage_run_positions_length sizes (multistage_round sizes A) s
    have ih1 := ih s inv (by omega) hall
    by_cases e : u = A
    · subst e
      have hlt : u <
          (run_multistage_schedule sizes (multistage_round sizes u) s).positions.length := by
        omega
      have hpu : (run_multistage_schedule sizes (multistage_round sizes u) s).positions[u]?
          = some ((run_multistage_schedule sizes (multistage_round sizes u) s).positions[u]) := by
        simp [hlt]
      have harr := (ih1 u _ hpu).1
      have hzero : 2 ≤ k → barrier_count
          (run_multistage_schedule sizes (multistage_round sizes u) s).barrier_threadcount
          (k - 1) = 0 :=
        fun h2 => count_zero_of_all_arrived sizes _ inv1 (k - 1) (by omega) (by omega)
          (fun v r hv => (ih1 v r hv).1)
      have hd := distance_le sizes k _ (inv1.positions_ok u _ hpu)
      have hmax := stage_size_le_foldl_max sizes k
      obtain ⟨q, hq, hq1⟩ := multistage_turn_arrives sizes u k hk1 hkS
        (2 * sizes.foldl max 0 + 2) _ inv1 hzero _ hpu harr (by omega)
      rw [hq] at hp
      cases hp
      exact ⟨arrived_pred k _ hq1, fun _ => hq1⟩
    · rw [multistage_turn_others sizes A u e] at hp
      obtain ⟨h1, h2⟩ := ih1 u p hp
      have hlt : u < s.positions.length := by
        by_contra hc
        rw [List.getElem?_eq_none (by omega)] at hp
        cases hp
      exact ⟨h1, fun h => h2 (by omega)⟩


/-- The first `k` rounds of the completion schedule. -/
theorem multistage_rounds_arrive (sizes : List Nat) (A : Nat) :
    ∀ (k : Nat), k ≤ sizes.length → ∀ (s : MultistageRun), MultistageInvariant sizes s →
      s.positions.length = A →
      ∀ (u : Nat) (p : StageWorkerPosition),
        (run_multistage_schedule sizes
          ((List.range k).flatMap (fun _ => multistage_round sizes A)) s).positions[u]? = some p →
          p.arrived k = true := by
  intro k
  induction k with
  | zero =>
    intro _ s inv _ u p hp
    simp only [List.range_zero, List.flatMap_nil, run_multistage_schedule, List.foldl_nil] at hp
    have hwf := inv.positions_ok u p hp
    cases p with
    | scanning σ i =>
      simp only [StageWorkerPosition.arrived, decide_eq_true_eq]; exact hwf.1
    | executing σ i =>
      simp only [StageWorkerPosition.arrived, decide_eq_true_eq]; exact hwf.1
    | waiting σ =>
      simp only [StageWorkerPosition.arrived, decide_eq_true_eq]; omega
  | succ k ih =>
    intro hk s inv hlen u p hp
    rw [List.range_succ, List.flatMap_append, List.flatMap_singleton,
      run_multistage_schedule_append] at hp
    have inv1 := multistage_invariant_run sizes
      ((List.range k).flatMap (fun _ => multistage_round sizes A)) s inv
    have hlen1 := multistage_run_positions_length sizes
      ((List.range k).flatMap (fun _ => multistage_round sizes A)) s
    have hall := ih (by omega) s inv hlen
    have hlt : u < A := by
      by_contra hc
      rw [List.getElem?_eq_none (by
        rw [multistage_run_positions_length, hlen1]; omega)] at hp
      cases hp
    exact (multistage_round_arrives sizes (k + 1) (by omega) hk A _ inv1 (by omega)
      (fun v r hv => by simpa using hall v r hv) u p hp).2 hlt

theorem multistage_step_of_returned (sizes : List Nat) (t : Nat) (s : MultistageRun)
    (i : Nat) (h : s.positions[t]? = some (StageWorkerPosition.scanning (sizes.length + 1) i)) :
    multistage_thread_step sizes t s = s :=
  multistage_step_returned sizes t _ i s h (by omega)

theorem multistage_turn_of_returned (sizes : List Nat) (t i : Nat) :
    ∀ (n : Nat) (s : MultistageRun),
      s.positions[t]? = some (StageWorkerPosition.scanning (sizes.length + 1) i) →
      run_multistage_schedule sizes (List.replicate n t) s = s := by
  intro n
  induction n with
  | zero => intro s _; rfl
  | succ n ih =>
    intro s h
    have := ih s h
    simp only [run_multistage_schedule, List.replicate_succ, List.foldl_cons,
      multistage_step_of_returned sizes t s i h] at this ⊢
    exact this

/-- A thread that has reached the last barrier, whose countdown is at zero, returns within
one step. -/
theorem multistage_turn_returns (sizes : List Nat) (t : Nat) (s : MultistageRun)
    (inv : MultistageInvariant sizes s)
    (hzero : 1 ≤ sizes.length → barrier_count s.barrier_threadcount sizes.length = 0)
    (p : StageWorkerPosition) (hp : s.positions[t]? = some p)
    (harr : p.arrived sizes.length = true) (n : Nat) :
    (run_multistage_schedule sizes (List.replicate (n + 1) t) s).positions[t]?
      = some (StageWorkerPosition.scanning (sizes.length + 1) 1) := by
  have hlt : t < s.positions.length := by
    by_contra hc
    rw [List.getElem?_eq_none (by omega)] at hp
    cases hp
  have hwf := inv.positions_ok t p hp
  have hone : (multistage_thread_step sizes t s).positions[t]?
      = some (StageWorkerPosition.scanning (sizes.length + 1) 1) := by
    cases p with
    | scanning σ i =>
      obtain ⟨_, hσS, hi1, hiN⟩ := hwf
      simp only [StageWorkerPosition.arrived, decide_eq_true_eq] at harr
      have e : σ = sizes.length + 1 := by omega
      subst e
      have hsz : stage_size sizes (sizes.length + 1) = 0 := by
        simp [stage_size, List.getD_eq_getElem?_getD]
      have hi : i = 1 := by omega
      subst hi
      rw [multistage_step_of_returned sizes t s 1 hp]
      exact hp
    | executing σ i =>
      obtain ⟨_, hσS, _, _⟩ := hwf
      simp only [StageWorkerPosition.arrived, decide_eq_true_eq] at harr
      omega
    | waiting σ =>
      obtain ⟨hσ1, hσS⟩ := hwf
      simp only [StageWorkerPosition.arrived, decide_eq_true_eq] at harr
      have e : σ = sizes.length := by omega
      subst e
      rw [multistage_step_pass sizes t _ s hp (hzero hσ1)]
      simp [hlt]
  have := multistage_turn_of_returned sizes t 1 n (multistage_thread_step sizes t s) hone
  simp only [run_multistage_schedule, List.replicate_succ, List.foldl_cons] at this ⊢
  rw [this]
  exact hone

/-- The last round: every thread that has reached the last barrier returns. -/
theorem multistage_round_returns (sizes : List Nat) :
    ∀ (A : Nat) (s : MultistageRun), MultistageInvariant sizes s → A ≤ s.positions.length →
      (∀ (u : Nat) (p : StageWorkerPosition), s.positions[u]? = some p →
        p.arrived sizes.length = true) →
      (∀ (u : Nat) (p : StageWorkerPosition),
        (run_multistage_schedule sizes (multistage_round sizes A) s).positions[u]? = some p →
          p.arrived sizes.length = true ∧
            (u < A → p = StageWorkerPosition.scanning (sizes.length + 1) 1)) := by
  intro A
  induction A with
  | zero =>
    intro s _ _ hall u p hp
    simp only [multistage_round, List.range_zero, List.flatMap_nil, run_multistage_schedule,
      List.foldl_nil] at hp
    exact ⟨hall u p hp, fun h => by omega⟩
  | succ A ih =>
    intro s inv hlen hall u p hp
    have hsplit : multistage_round sizes (A + 1)
        = multistage_round sizes A ++ List.replicate (2 * sizes.foldl max 0 + 1 + 1) A := by
      simp [multistage_round, List.range_succ, List.flatMap_append]
    rw [hsplit, run_multistage_schedule_append] at hp
    have inv1 := multistage_invariant_run sizes (multistage_round sizes A) s inv
    have hlen1 := multistage_run_positions_length sizes (multistage_round sizes A) s
    have ih1 := ih s inv (by omega) hall
    by_cases e : u = A
    · subst e
      have hlt : u <
          (run_multistage_schedule sizes (multistage_round sizes u) s).positions.length := by
        omega
      have hpu : (run_multistage_schedule sizes (multistage_round sizes u) s).positions[u]?
          = some ((run_multistage_schedule sizes (multistage_round sizes u) s).positions[u]) := by
        simp [hlt]
      have hzero : 1 ≤ sizes.length → barrier_count
          (run_multistage_schedule sizes (multistage_round sizes u) s).barrier_threadcount
          sizes.length = 0 :=
        fun h1 => count_zero_of_all_arrived sizes _ inv1 sizes.length h1 (Nat.le_refl _)
          (fun v r hv => (ih1 v r hv).1)
      rw [multistage_turn_returns sizes u _ inv1 hzero _ hpu (ih1 u _ hpu).1] at hp
      cases hp
      exact ⟨by simp [StageWorkerPosition.arrived], fun _ => rfl⟩
    · rw [multistage_turn_others sizes A u e] at hp
      obtain ⟨h1, h2⟩ := ih1 u p hp
      have hlt : u < s.positions.length := by
        by_contra hc
        rw [List.getElem?_eq_none (by omega)] at hp
        cases hp
      exact ⟨h1, fun h => h2 (by omega)⟩

/-- Whatever the interleaving, at the end of a multistage run every thread has returned and
every item of every stage has completed. -/
theorem multistage_run_complete (sizes : List Nat) (A : Nat) (hA : 1 ≤ A)
    (schedule : List Nat) :
    (multistage_run sizes A schedule).positions
      = List.replicate A (StageWorkerPosition.scanning (sizes.length + 1) 1) ∧
    (∀ σ j, 1 ≤ σ → σ ≤ sizes.length → 1 ≤ j → j ≤ stage_size sizes σ →
      completed_in (multistage_run sizes A schedule).events σ j) := by
  unfold multistage_run
  rw [run_multistage_schedule_append]
  have inv1 := multistage_invariant_run sizes schedule _ (multistage_invariant_initial sizes A)
  have hlen1 : (run_multistage_schedule sizes schedule
      (MultistageRun.initial sizes A)).positions.length = A := by
    rw [multistage_run_positions_length]; simp [MultistageRun.initial]
  generalize run_multistage_schedule sizes schedule (MultistageRun.initial sizes A) = s1
    at inv1 hlen1
  unfold multistage_completion_schedule
  rw [List.range_succ, List.flatMap_append, List.flatMap_singleton,
    run_multistage_schedule_append]
  have hall := multistage_rounds_arrive sizes A sizes.length (Nat.le_refl _) s1 inv1 hlen1
  have inv2 := multistage_invariant_run sizes
    ((List.range sizes.length).flatMap (fun _ => multistage_round sizes A)) s1 inv1
  have hlen2 := multistage_run_positions_length sizes
    ((List.range sizes.length).flatMap (fun _ => multistage_round sizes A)) s1
  generalize run_multistage_schedule sizes
    ((List.range sizes.length).flatMap (fun _ => multistage_round sizes A)) s1 = s2
    at hall inv2 hlen2
  have hret := multistage_round_returns sizes A s2 inv2 (by omega) hall
  have inv3 := multistage_invariant_run sizes (multistage_round sizes A) s2 inv2
  have hlen3 := multistage_run_positions_length sizes (multistage_round sizes A) s2
  generalize run_multistage_schedule sizes (multistage_round sizes A) s2 = s3
    at hret inv3 hlen3
  have hpos : s3.positions
      = List.replicate A (StageWorkerPosition.scanning (sizes.length + 1) 1) := by
    rw [List.eq_replicate_iff]
    refine ⟨by omega, ?_⟩
    intro b hb
    obtain ⟨n, hn⟩ := List.mem_iff_getElem?.1 hb
    have hnA : n < A := by
      by_contra hc
      rw [List.getElem?_eq_none (by omega)] at hn
      cases hn
    exact (hret n b hn).2 hnA
  refine ⟨hpos, ?_⟩
  intro σ j h1 h2 h3 h4
  have h0 : s3.positions[0]? = some (StageWorkerPosition.scanning (sizes.length + 1) 1) := by
    rw [hpos, List.getElem?_replicate]
    simp; omega
  have hflag := inv3.flagged 0 _ h0 σ j h1 h3 h4 (Or.inl (by omega))
  rcases inv3.claimed σ j h1 h3 hflag with ⟨u, hu⟩ | hdone
  · exfalso
    rw [hpos, List.getElem?_replicate] at hu
    split at hu <;> cases hu
  · exact hdone

theorem completed_in_rename (events : List StageEvent) (f : StageEvent → StageEvent)
    (hf : ∀ e, (f e).kind = e.kind ∧ (f e).stage = e.stage ∧ (f e).item = e.item)
    (σ j : Nat) (h : completed_in events σ j) : completed_in (events.map f) σ j := by
  obtain ⟨x, hx, hx1, hx2, hx3⟩ := h
  refine ⟨f x, List.mem_map_of_mem f hx, ?_, ?_, ?_⟩
  · rw [(hf x).1]; exact hx1
  · rw [(hf x).2.1]; exact hx2
  · rw [(hf x).2.2]; exact hx3

theorem direct_multistage_events_completed (caller : Nat) :
    ∀ (rest : List Nat) (s0 σ j : Nat), s0 ≤ σ → 1 ≤ j → j ≤ rest.getD (σ - s0) 0 →
      completed_in (direct_multistage_events caller s0 rest) σ j := by
  intro rest
  induction rest with
  | nil =>
    intro s0 σ j _ h1 h2
    simp at h2
    omega
  | cons n rest ih =>
    intro s0 σ j h0 h1 h2
    simp only [direct_multistage_events]
    by_cases e0 : σ = s0
    · subst e0
      rw [Nat.sub_self, List.getD_cons_zero] at h2
      exact completed_in_append _ _ σ j (direct_stage_events_completed caller σ n j h1 h2)
    · have hσ : σ - s0 = (σ - (s0 + 1)) + 1 := by omega
      rw [hσ, List.getD_cons_succ] at h2
      obtain ⟨x, hx, hx2⟩ := ih (s0 + 1) σ j (by omega) h1 h2
      exact ⟨x, List.mem_append_right _ hx, hx2⟩

/-- C4: in the observations of `do_multistage_work_vector_in_threads`, whenever an item of a
stage begins execution on any thread, every item of every earlier stage has completed
before; this holds for every interleaving of the assigned threads, and in the
single-threaded build.  In particular no item of stage `i + 1` begins before every item of
stage `i` has completed, and the stages run in their given order.  The statement is not
empty: when the call returns, every item of every stage has completed. -/
theorem multistage_stages_run_in_order {W : Type} (MT : Bool) (opts : ThreadingOptions)
    (m : RosettaThreadManager) (caller R : Nat) (stages : List (List W)) (schedule : List Nat) :
    stages_in_order (stages.map List.length)
      (do_multistage_work_vector_in_threads MT opts m caller stages R schedule).events ∧
    (∀ σ j, 1 ≤ σ → σ ≤ stages.length → 1 ≤ j → j ≤ stage_size (stages.map List.length) σ →
      completed_in
        (do_multistage_work_vector_in_threads MT opts m caller stages R schedule).events σ j) := by
  cases MT
  · simp only [do_multistage_work_vector_in_threads, Bool.false_eq_true, if_false]
    refine ⟨?_, ?_⟩
    · intro pre e post h hk σ j h1 h2 h3 h4
      exact direct_multistage_events_in_order caller _ 1 pre e post h hk σ j h1 h2 h3 h4
    · intro σ j h1 _ h3 h4
      exact direct_multistage_events_completed caller _ 1 σ j h1 h3 h4
  · simp only [do_multistage_work_vector_in_threads, if_true]
    refine ⟨?_, ?_⟩
    · apply stages_in_order_rename
      · intro e; exact ⟨rfl, rfl, rfl⟩
      · unfold multistage_run
        exact (multistage_invariant_run _ _ _ (multistage_invariant_initial _ _)).ordered
    · intro σ j h1 h2 h3 h4
      apply completed_in_rename
      · intro e; exact ⟨rfl, rfl, rfl⟩
      · exact (multistage_run_complete _ _ (dispatch_assigned_count_pos true opts m caller R)
          schedule).2 σ j h1 (by simpa using h2) h3 h4

/-- Witness for C4: two stages of three and two items on two threads; item 1 of stage 2
has completed when the call returns, and the observations are in stage order. -/
theorem multistage_stages_run_in_order_witness :
    (1 ≤ 2 ∧ 2 ≤ [[(), (), ()], [(), ()]].length ∧ 1 ≤ 1 ∧
      1 ≤ stage_size ([[(), (), ()], [(), ()]].map List.length) 2) ∧
    stages_in_order ([[(), (), ()], [(), ()]].map List.length)
      (do_multistage_work_vector_in_threads true ⟨4, 8⟩ fresh 0 [[(), (), ()], [(), ()]] 2
        [0, 1, 1, 0, 1]).events ∧
    completed_in
      (do_multistage_work_vector_in_threads true ⟨4, 8⟩ fresh 0 [[(), (), ()], [(), ()]] 2
        [0, 1, 1, 0, 1]).events 2 1 :=
  ⟨by decide,
    (multistage_stages_run_in_order true ⟨4, 8⟩ fresh 0 2 [[(), (), ()], [(), ()]]
      [0, 1, 1, 0, 1]).1,
    (multistage_stages_run_in_order true ⟨4, 8⟩ fresh 0 2 [[(), (), ()], [(), ()]]
      [0, 1, 1, 0, 1]).2 2 1 (by decide) (by decide) (by decide) (by decide)⟩

end ThreadManager

namespace binder

/-! ## Occurrences -/

theorem compare_is_zero_iff (s : List Char) (pos len : Nat) (str : List Char) :
    compare_is_zero s pos len str = true ↔ (s.drop pos).take len = str := by
  simp [compare_is_zero]

/-- Where `pat` stands at position `p` of `s`, the string splits there. -/
theorem occurrence_split (s pat : List Char) (p : Nat)
    (h : (s.drop p).take pat.length = pat) (hp : p ≤ s.length) :
    ∃ pre post, s = pre ++ pat ++ post ∧ pre.length = p :=
  ⟨s.take p, (s.drop p).drop pat.length, by
    have h1 : s = s.take p ++ s.drop p := (List.take_append_drop p s).symm
    have h2 : s.drop p = pat ++ (s.drop p).drop pat.length := by
      conv_lhs => rw [← List.take_append_drop pat.length (s.drop p), h]
    rw [List.append_assoc, ← h2]
    exact h1, by simp [hp]⟩

theorem occurrence_of_split (pre pat post : List Char) :
    ((pre ++ pat ++ post).drop pre.length).take pat.length = pat := by
  simp [List.append_assoc]

theorem occurrence_bound (s pat : List Char) (p : Nat) (hpat : pat ≠ [])
    (h : (s.drop p).take pat.length = pat) : p + pat.length ≤ s.length := by
  have h1 : ((s.drop p).take pat.length).length = pat.length := by rw [h]
  simp only [List.length_take, List.length_drop] at h1
  have : 0 < pat.length := List.length_pos.2 hpat
  omega

theorem rfind_down_some (s pat : List Char) :
    ∀ (p f : Nat), rfind_down s pat p = some f →
      (s.drop f).take pat.length = pat ∧ f ≤ p ∧
        ∀ r, f < r → r ≤ p → (s.drop r).take pat.length ≠ pat := by
  intro p
  induction p with
  | zero =>
    intro f h
    simp only [rfind_down] at h
    split at h
    · rename_i hc
      cases h
      exact ⟨(compare_is_zero_iff _ _ _ _).1 hc, Nat.le_refl _, fun r h1 h2 => by omega⟩
    · cases h
  | succ p ih =>
    intro f h
    simp only [rfind_down] at h
    split at h
    · rename_i hc
      cases h
      exact ⟨(compare_is_zero_iff _ _ _ _).1 hc, Nat.le_refl _, fun r h1 h2 => by omega⟩
    · rename_i hc
      obtain ⟨h1, h2, h3⟩ := ih f h
      refine ⟨h1, by omega, ?_⟩
      intro r hr1 hr2
      by_cases e : r = p + 1
      · subst e
        intro hm
        exact hc ((compare_is_zero_iff _ _ _ _).2 hm)
      · exact h3 r hr1 (by omega)

theorem rfind_down_none (s pat : List Char) :
    ∀ (p : Nat), rfind_down s pat p = none →
      ∀ r, r ≤ p → (s.drop r).take pat.length ≠ pat := by
  intro p
  induction p with
  | zero =>
    intro h r hr
    simp only [rfind_down] at h
    split at h
    · cases h
    · rename_i hc
      have : r = 0 := by omega
      subst this
      intro hm
      exact hc ((compare_is_zero_iff _ _ _ _).2 hm)
  | succ p ih =>
    intro h r hr
    simp only [rfind_down] at h
    split at h
    · cases h
    · rename_i hc
      by_cases e : r = p + 1
      · subst e
        intro hm
        exact hc ((compare_is_zero_iff _ _ _ _).2 hm)
      · exact ih h r (by omega)

/-- What `rfind` returns when it finds something: `pat` stands at the position returned,
which is at most `pos`, and at no later position up to `pos`. -/
theorem rfind_some (s pat : List Char) (pos f : Nat) (hpat : pat ≠ [])
    (h : rfind s pat pos = some f) :
    (s.drop f).take pat.length = pat ∧ f ≤ pos ∧ f + pat.length ≤ s.length ∧
      ∀ r, f < r → r ≤ pos → (s.drop r).take pat.length ≠ pat := by
  unfold rfind at h
  split at h
  · rename_i hlen
    obtain ⟨h1, h2, h3⟩ := rfind_down_some s pat _ f h
    refine ⟨h1, by omega, occurrence_bound s pat f hpat h1, ?_⟩
    intro r hr1 hr2 hm
    have hb := occurrence_bound s pat r hpat hm
    exact h3 r hr1 (by omega) hm
  · cases h

/-- What `rfind` returns when it finds nothing: `pat` stands at no position up to `pos`. -/
theorem rfind_none (s pat : List Char) (pos : Nat) (hpat : pat ≠ [])
    (h : rfind s pat pos = none) :
    ∀ r, r ≤ pos → (s.drop r).take pat.length ≠ pat := by
  intro r hr hm
  have hb := occurrence_bound s pat r hpat hm
  unfold rfind at h
  split at h
  · exact rfind_down_none s pat _ h r (by omega) hm
  · omega

theorem infix_iff_occurrence (s pat : List Char) :
    pat <:+: s ↔ ∃ p, p ≤ s.length ∧ (s.drop p).take pat.length = pat := by
  constructor
  · rintro ⟨a, b, rfl⟩
    exact ⟨a.length, by simp, occurrence_of_split a pat b⟩
  · rintro ⟨p, hp, h⟩
    obtain ⟨pre, post, e, _⟩ := occurrence_split s pat p h hp
    exact ⟨pre, post, e.symm⟩

/-! ## begins_with, base_namespace, last_namespace -/

/-- C16: `begins_with(source, prefix)` returns true if and only if `prefix` is a prefix of
`source`, that is `source` is `prefix` followed by some, possibly empty, string; it is true
for the empty prefix and false whenever `prefix` is longer than `source`. -/
theorem begins_with_iff_prefix_of_source (source pre : List Char) :
    (begins_with source pre = true ↔ ∃ rest, source = pre ++ rest) ∧
    begins_with source [] = true ∧
    (source.length < pre.length → begins_with source pre = false) := by
  have key : begins_with source pre = true ↔ ∃ rest, source = pre ++ rest := by
    unfold begins_with
    rw [compare_is_zero_iff, List.drop_zero]
    constructor
    · intro h
      exact ⟨source.drop pre.length, by
        conv_lhs => rw [← List.take_append_drop pre.length source, h]⟩
    · rintro ⟨rest, rfl⟩
      simp
  refine ⟨key, ?_, ?_⟩
  · simp [begins_with, compare_is_zero]
  · intro hlt
    cases hb : begins_with source pre with
    | false => rfl
    | true =>
      obtain ⟨rest, e⟩ := key.1 hb
      rw [e, List.length_append] at hlt
      omega

/-- Witness for C16: `core` is not long enough to begin with `core::pose`. -/
theorem begins_with_iff_prefix_of_source_witness :
    ['c', 'o', 'r', 'e'].length < ['c', 'o', 'r', 'e', ':', ':', 'p', 'o', 's', 'e'].length ∧
    begins_with ['c', 'o', 'r', 'e'] ['c', 'o', 'r', 'e', ':', ':', 'p', 'o', 's', 'e'] = false :=
  ⟨by decide,
    (begins_with_iff_prefix_of_source ['c', 'o', 'r', 'e']
      ['c', 'o', 'r', 'e', ':', ':', 'p', 'o', 's', 'e']).2.2 (by decide)⟩

theorem infix_drop_of_occurrence (s pat : List Char) (k r : Nat) (hk : k ≤ r)
    (hr : r ≤ s.length) (h : (s.drop r).take pat.length = pat) : pat <:+: s.drop k := by
  rw [infix_iff_occurrence]
  refine ⟨r - k, by simp; omega, ?_⟩
  rw [List.drop_drop]
  have : k + (r - k) = r := by omega
  rw [this]
  exact h

/-- The last occurrence of `::` in a string is unique. -/
theorem last_separator_unique (pre post pre2 post2 : List Char)
    (e : pre ++ [':', ':'] ++ post = pre2 ++ [':', ':'] ++ post2)
    (h : ¬ [':', ':'] <:+: (':' :: post)) (h2 : ¬ [':', ':'] <:+: (':' :: post2)) :
    pre = pre2 ∧ post = post2 := by
  have hlen : pre.length = pre2.length := by
    by_contra hne
    rcases Nat.lt_or_gt_of_ne hne with hlt | hgt
    · apply h
      have hocc := occurrence_of_split pre2 [':', ':'] post2
      rw [← e] at hocc
      have := infix_drop_of_occurrence (pre ++ [':', ':'] ++ post) [':', ':'] (pre.length + 1)
        pre2.length (by omega) (by rw [e]; simp) hocc
      simpa [List.append_assoc] using this
    · apply h2
      have hocc := occurrence_of_split pre [':', ':'] post
      rw [e] at hocc
      have := infix_drop_of_occurrence (pre2 ++ [':', ':'] ++ post2) [':', ':'] (pre2.length + 1)
        pre.length (by omega) (by rw [← e]; simp) hocc
      simpa [List.append_assoc] using this
  rw [List.append_assoc, List.append_assoc] at e
  obtain ⟨e1, e2⟩ := List.append_inj e hlen
  exact ⟨e1, by simpa using e2⟩

/-- What `ns.rfind("::")` finds: nothing if `::` does not occur in `ns`, and otherwise the
start of the last occurrence. -/
theorem rfind_separator (ns : List Char) (hlen : ns.length < 2 ^ 64) :
    (rfind ns [':', ':'] npos = none ∧ ¬ [':', ':'] <:+: ns) ∨
    ∃ pre post, rfind ns [':', ':'] npos = some pre.length ∧ ns = pre ++ [':', ':'] ++ post ∧
      ¬ [':', ':'] <:+: (':' :: post) := by
  have hnpos : npos = 2 ^ 64 - 1 := rfl
  cases hf : rfind ns [':', ':'] npos with
  | none =>
    left
    refine ⟨rfl, ?_⟩
    rw [infix_iff_occurrence]
    rintro ⟨p, hp, hocc⟩
    exact rfind_none ns [':', ':'] npos (by simp) hf p (by omega) hocc
  | some f =>
    right
    obtain ⟨h1, h2, h3, h4⟩ := rfind_some ns [':', ':'] npos f (by simp) hf
    obtain ⟨pre, post, e, hpre⟩ := occurrence_split ns [':', ':'] f h1 (by omega)
    refine ⟨pre, post, by rw [hpre], e, ?_⟩
    intro hin
    have hd : ':' :: post = ns.drop (f + 1) := by
      rw [e, ← hpre]; simp [List.append_assoc]
    rw [hd, infix_iff_occurrence] at hin
    obtain ⟨p, hp, hocc⟩ := hin
    rw [List.drop_drop] at hocc
    simp only [List.length_drop] at hp
    have hb := occurrence_bound ns [':', ':'] (f + 1 + p) (by simp) hocc
    exact h4 (f + 1 + p) (by omega) (by omega) hocc

/-- C17: `base_namespace(ns)` returns the enclosing namespace.  If `ns` contains `::`, then
`ns` is `pre` followed by `::` and `post` with no `::` starting after that one, and the result
is `pre`, the part before the last occurrence of `::`; such a `pre` is the result whichever
way `ns` is split at its last `::`.  If `ns` contains no `::` the result is the empty
string.  For `core::pose::motif` the result is `core::pose`. -/
theorem base_namespace_is_enclosing (ns : List Char) (hlen : ns.length < 2 ^ 64) :
    ([':', ':'] <:+: ns → ∃ pre post, ns = pre ++ [':', ':'] ++ post ∧
      ¬ [':', ':'] <:+: (':' :: post) ∧ base_namespace ns = pre) ∧
    (∀ pre post, ns = pre ++ [':', ':'] ++ post → ¬ [':', ':'] <:+: (':' :: post) →
      base_namespace ns = pre) ∧
    (¬ [':', ':'] <:+: ns → base_namespace ns = []) ∧
    base_namespace "core::pose::motif".toList = "core::pose".toList := by
  have hbase : ∀ pre post, rfind ns [':', ':'] npos = some pre.length →
      ns = pre ++ [':', ':'] ++ post → base_namespace ns = pre := by
    intro pre post hf e
    unfold base_namespace
    rw [hf]
    simp only [substr, List.drop_zero]
    rw [e]
    simp [List.append_assoc]
  refine ⟨?_, ?_, ?_, by decide⟩
  · intro hin
    rcases rfind_separator ns hlen with ⟨_, hno⟩ | ⟨pre, post, hf, e, hlast⟩
    · exact absurd hin hno
    · exact ⟨pre, post, e, hlast, hbase pre post hf e⟩
  · intro pre post e hlast
    rcases rfind_separator ns hlen with ⟨_, hno⟩ | ⟨pre2, post2, hf, e2, hlast2⟩
    · exact absurd ⟨pre, post, e.symm⟩ hno
    · obtain ⟨e3, _⟩ := last_separator_unique pre post pre2 post2 (by rw [← e, ← e2]) hlast hlast2
      rw [e3]
      exact hbase pre2 post2 hf e2
  · intro hno
    rcases rfind_separator ns hlen with ⟨hf, _⟩ | ⟨pre, post, _, e, _⟩
    · simp [base_namespace, hf]
    · exact absurd ⟨pre, post, e.symm⟩ hno

/-- Witness for C17: `a::b` has `a` as its enclosing namespace. -/
theorem base_namespace_is_enclosing_witness :
    ['a', ':', ':', 'b'].length < 2 ^ 64 ∧
    base_namespace ['a', ':', ':', 'b'] = ['a'] :=
  ⟨by decide,
    (base_namespace_is_enclosing ['a', ':', ':', 'b'] (by decide)).2.1 ['a'] ['b'] (by decide)
      (by decide)⟩

/-- C18: `last_namespace(ns)` returns the innermost namespace.  If `ns` contains `::`, the
result is the part of `ns` after its last occurrence of `::` and contains no `::` itself, and
`base_namespace(ns)` followed by `::` followed by `last_namespace(ns)` is `ns`.  If `ns`
contains no `::` the result is `ns`.  For `core::pose::motif` the result is `motif`. -/
theorem last_namespace_is_innermost (ns : List Char) (hlen : ns.length < 2 ^ 64) :
    ([':', ':'] <:+: ns → ∃ pre post, ns = pre ++ [':', ':'] ++ post ∧
      ¬ [':', ':'] <:+: (':' :: post) ∧ last_namespace ns = post) ∧
    (∀ pre post, ns = pre ++ [':', ':'] ++ post → ¬ [':', ':'] <:+: (':' :: post) →
      last_namespace ns = post) ∧
    ([':', ':'] <:+: ns → ¬ [':', ':'] <:+: last_namespace ns) ∧
    ([':', ':'] <:+: ns → base_namespace ns ++ [':', ':'] ++ last_namespace ns = ns) ∧
    (¬ [':', ':'] <:+: ns → last_namespace ns = ns) ∧
    last_namespace "core::pose::motif".toList = "motif".toList := by
  have hlast : ∀ pre post, rfind ns [':', ':'] npos = some pre.length →
      ns = pre ++ [':', ':'] ++ post → last_namespace ns = post := by
    intro pre post hf e
    unfold last_namespace
    rw [hf]
    simp only [substr]
    rw [e]
    simp [List.append_assoc]
  have hbase : ∀ pre post, rfind ns [':', ':'] npos = some pre.length →
      ns = pre ++ [':', ':'] ++ post → base_namespace ns = pre := by
    intro pre post hf e
    unfold base_namespace
    rw [hf]
    simp only [substr, List.drop_zero]
    rw [e]
    simp [List.append_assoc]
  refine ⟨?_, ?_, ?_, ?_, ?_, by decide⟩
  · intro hin
    rcases rfind_separator ns hlen with ⟨_, hno⟩ | ⟨pre, post, hf, e, hl⟩
    · exact absurd hin hno
    · exact ⟨pre, post, e, hl, hlast pre post hf e⟩
  · intro pre post e hl
    rcases rfind_separator ns hlen with ⟨_, hno⟩ | ⟨pre2, post2, hf, e2, hl2⟩
    · exact absurd ⟨pre, post, e.symm⟩ hno
    · obtain ⟨_, e3⟩ := last_separator_unique pre post pre2 post2 (by rw [← e, ← e2]) hl hl2
      rw [e3]
      exact hlast pre2 post2 hf e2
  · intro hin
    rcases rfind_separator ns hlen with ⟨_, hno⟩ | ⟨pre, post, hf, e, hl⟩
    · exact absurd hin hno
    · rw [hlast pre post hf e]
      intro hp
      exact hl (List.IsInfix.trans hp (List.suffix_cons _ _).isInfix)
  · intro hin
    rcases rfind_separator ns hlen with ⟨_, hno⟩ | ⟨pre, post, hf, e, hl⟩
    · exact absurd hin hno
    · rw [hlast pre post hf e, hbase pre post hf e]
      exact e.symm
  · intro hno
    rcases rfind_separator ns hlen with ⟨hf, _⟩ | ⟨pre, post, _, e, _⟩
    · simp [last_namespace, hf]
    · exact absurd ⟨pre, post, e.symm⟩ hno

/-- Witness for C18: `a::b` has `b` as its innermost namespace. -/
theorem last_namespace_is_innermost_witness :
    ['a', ':', ':', 'b'].length < 2 ^ 64 ∧
    last_namespace ['a', ':', ':', 'b'] = ['b'] :=
  ⟨by decide,
    (last_namespace_is_innermost ['a', ':', ':', 'b'] (by decide)).2.1 ['a'] ['b'] (by decide)
      (by decide)⟩

/-! ## split -/

theorem join_pieces_append_singleton (separator : List Char) :
    ∀ (pieces : List (List Char)) (piece : List Char), pieces ≠ [] →
      join_pieces separator (pieces ++ [piece])
        = join_pieces separator pieces ++ separator ++ piece := by
  intro pieces
  induction pieces with
  | nil => intro piece h; exact absurd rfl h
  | cons x xs ih =>
    intro piece _
    cases xs with
    | nil => simp [join_pieces]
    | cons y ys =>
      have := ih piece (by simp)
      show x ++ separator ++ join_pieces separator (y :: ys ++ [piece])
        = x ++ separator ++ join_pieces separator (y :: ys) ++ separator ++ piece
      rw [this]
      simp [List.append_assoc]

theorem join_pieces_extend_last (separator : List Char) (pieces : List (List Char))
    (piece tail : List Char) :
    join_pieces separator (pieces ++ [piece ++ tail])
      = join_pieces separator (pieces ++ [piece]) ++ tail := by
  by_cases h : pieces = []
  · subst h; simp [join_pieces]
  · rw [join_pieces_append_singleton separator pieces _ h,
      join_pieces_append_singleton separator pieces _ h]
    simp [List.append_assoc]

theorem compare_single (buffer : List Char) (i : Nat) (c : Char) (hi : i < buffer.length) :
    compare_is_zero buffer i [c].length [c] = decide (buffer.getD i (Char.ofNat 0) = c) := by
  have hd : buffer.drop i = buffer.getD i (Char.ofNat 0) :: buffer.drop (i + 1) := by
    rw [List.getD_eq_getElem _ _ hi]
    exact List.drop_eq_getElem_cons hi
  simp [compare_is_zero, hd]

/-- The invariant of the loop of `split` for a separator of one character: the pieces so far
and the line being built, joined, are what has been read, and no piece contains the
separator. -/
theorem split_loop_single (buffer : List Char) (c : Char) (hlen : buffer.length < 2 ^ 32) :
    ∀ (fuel i : Nat) (line : List Char) (lines : List (List Char)),
      i + fuel = buffer.length → c ∉ line → (∀ l ∈ lines, c ∉ l) →
      (∀ piece ∈ split_loop buffer [c] fuel i line lines, c ∉ piece) ∧
      join_pieces [c] (split_loop buffer [c] fuel i line lines)
        = drop_final_separator c (join_pieces [c] (lines ++ [line]) ++ buffer.drop i) := by
  have hfinal : ∀ (line : List Char) (lines : List (List Char)), c ∉ line →
      (∀ l ∈ lines, c ∉ l) →
      (∀ piece ∈ (if line.length ≠ 0 then lines ++ [line] else lines), c ∉ piece) ∧
      join_pieces [c] (if line.length ≠ 0 then lines ++ [line] else lines)
        = drop_final_separator c (join_pieces [c] (lines ++ [line])) := by
    intro line lines hline hlines
    by_cases hl : line = []
    · subst hl
      simp only [List.length_nil, ne_eq, not_true_eq_false, if_false]
      refine ⟨hlines, ?_⟩
      by_cases hls : lines = []
      · subst hls; simp [join_pieces, drop_final_separator]
      · rw [join_pieces_append_singleton [c] lines [] hls]
        simp [drop_final_separator]
    · have hne : line.length ≠ 0 := by
        intro h0; exact hl (List.length_eq_zero.1 h0)
      simp only [hne, ne_eq, not_false_eq_true, if_true]
      refine ⟨?_, ?_⟩
      · intro piece hp
        rcases List.mem_append.1 hp with h | h
        · exact hlines piece h
        · rw [List.mem_singleton.1 h]; exact hline
      · have hlast : (join_pieces [c] (lines ++ [line])).getLast? = line.getLast? := by
          have := join_pieces_extend_last [c] lines [] line
          simp only [List.nil_append] at this
          rw [this, List.getLast?_append]
          cases hg : line.getLast? with
          | none => exact absurd (List.getLast?_eq_none_iff.1 hg) hl
          | some x => rfl
        unfold drop_final_separator
        rw [hlast]
        have : line.getLast? ≠ some c := by
          intro h
          exact hline (List.mem_of_getLast?_eq_some h)
        simp [this]
  intro fuel
  induction fuel with
  | zero =>
    intro i line lines hi hline hlines
    have : buffer.drop i = [] := List.drop_eq_nil_of_le (by omega)
    simp only [split_loop, this, List.append_nil]
    exact hfinal line lines hline hlines
  | succ fuel ih =>
    intro i line lines hi hline hlines
    have hlt : i < buffer.length := by omega
    have hmod : (i + 1) % 2 ^ 32 = i + 1 := Nat.mod_eq_of_lt (by omega)
    have hd : buffer.drop i = buffer.getD i (Char.ofNat 0) :: buffer.drop (i + 1) := by
      rw [List.getD_eq_getElem _ _ hlt]
      exact List.drop_eq_getElem_cons hlt
    simp only [split_loop, hlt, if_true, hmod, compare_single buffer i c hlt]
    by_cases hc : buffer.getD i (Char.ofNat 0) = c
    · simp only [hc, decide_True, Bool.not_true, Bool.false_eq_true, if_false]
      have := ih (i + 1) [] (lines ++ [line]) (by omega) (by simp) (by
        intro l hl
        rcases List.mem_append.1 hl with h | h
        · exact hlines l h
        · rw [List.mem_singleton.1 h]; exact hline)
      refine ⟨this.1, ?_⟩
      rw [this.2, join_pieces_append_singleton [c] (lines ++ [line]) [] (by simp), hd, hc]
      simp [List.append_assoc]
    · simp only [hc, decide_False, Bool.not_false, if_true]
      have := ih (i + 1) (line ++ [buffer.getD i (Char.ofNat 0)]) lines (by omega) (by
        intro hmem
        rcases List.mem_append.1 hmem with h | h
        · exact hline h
        · exact hc (List.mem_singleton.1 h).symm) hlines
      refine ⟨this.1, ?_⟩
      rw [this.2, join_pieces_extend_last, hd]
      simp [List.append_assoc]

/-- What `split` does for a separator of one character: no piece contains the separator,
and the pieces joined with the separator between them give back the buffer, without one
separator at its very end if there is one. -/
theorem split_single_character_separator (buffer : List Char) (c : Char)
    (hlen : buffer.length < 2 ^ 32) :
    (∀ piece ∈ split buffer [c], c ∉ piece) ∧
    join_pieces [c] (split buffer [c]) = drop_final_separator c buffer := by
  have := split_loop_single buffer c hlen buffer.length 0 [] [] (by omega) (by simp) (by simp)
  simpa [split, join_pieces] using this

/-- C11, at the failing input: splitting `a::b` at the separator `::` gives the pieces `a`
and `:b`; the loop moves on by one character where the separator stands, so the rest of the
separator stays in the next piece, and joining the pieces with the separator does not give
back the buffer. -/
theorem split_leaves_rest_of_long_separator :
    split ['a', ':', ':', 'b'] [':', ':'] = [['a'], [':', 'b']] ∧
    join_pieces [':', ':'] (split ['a', ':', ':', 'b'] [':', ':']) ≠ ['a', ':', ':', 'b'] := by
  decide

/-! ## Config::is_namespace_binding_requested -/

theorem begins_with_true_iff (source pre : List Char) :
    begins_with source pre = true ↔ pre <+: source := by
  unfold begins_with
  rw [compare_is_zero_iff, List.drop_zero, List.prefix_iff_eq_take]
  exact eq_comm

/-- What one of the loops of `is_namespace_binding_requested` leaves: an entry at least as
long as every entry that begins the namespace, which is either the one it started with or an
entry of the list that begins the namespace and is longer than the one it started with, in
which case the flag is set. -/
theorem longest_begin_spec (namespace_ : List Char) :
    ∀ (entries : List (List Char)) (found : List Char × Bool),
      found.1.length ≤ (longest_begin namespace_ entries found).1.length ∧
      (∀ n ∈ entries, n <+: namespace_ →
        n.length ≤ (longest_begin namespace_ entries found).1.length) ∧
      (longest_begin namespace_ entries found = found ∨
        ((longest_begin namespace_ entries found).2 = true ∧
          (longest_begin namespace_ entries found).1 ∈ entries ∧
          (longest_begin namespace_ entries found).1 <+: namespace_ ∧
          found.1.length < (longest_begin namespace_ entries found).1.length)) := by
  intro entries
  induction entries with
  | nil => intro found; simp [longest_begin]
  | cons n rest ih =>
    intro found
    unfold longest_begin
    by_cases hb : begins_with namespace_ n = true
    · have hpre := (begins_with_true_iff namespace_ n).1 hb
      by_cases hl : n.length > found.1.length
      · simp only [hb, hl, if_true]
        obtain ⟨h1, h2, h3⟩ := ih (n, true)
        refine ⟨by simp only at h1; omega, ?_, ?_⟩
        · intro x hx hxp
          rcases List.mem_cons.1 hx with e | hx
          · rw [e]; exact h1
          · exact h2 x hx hxp
        · right
          rcases h3 with e | ⟨e1, e2, e3, e4⟩
          · rw [e]
            exact ⟨rfl, List.mem_cons_self _ _, hpre, hl⟩
          · exact ⟨e1, List.mem_cons_of_mem _ e2, e3, by simp only at e4; omega⟩
      · simp only [hb, hl, if_true, if_false]
        obtain ⟨h1, h2, h3⟩ := ih found
        refine ⟨h1, ?_, ?_⟩
        · intro x hx hxp
          rcases List.mem_cons.1 hx with e | hx
          · rw [e]; omega
          · exact h2 x hx hxp
        · rcases h3 with e | ⟨e1, e2, e3, e4⟩
          · left; exact e
          · right; exact ⟨e1, List.mem_cons_of_mem _ e2, e3, e4⟩
    · have hnp : ¬ n <+: namespace_ := fun h => hb ((begins_with_true_iff namespace_ n).2 h)
      simp only [hb, Bool.false_eq_true, if_false]
      obtain ⟨h1, h2, h3⟩ := ih found
      refine ⟨h1, ?_, ?_⟩
      · intro x hx hxp
        rcases List.mem_cons.1 hx with e | hx
        · rw [e] at hxp; exact absurd hxp hnp
        · exact h2 x hx hxp
      · rcases h3 with e | ⟨e1, e2, e3, e4⟩
        · left; exact e
        · right; exact ⟨e1, List.mem_cons_of_mem _ e2, e3, e4⟩

/-- The result of one loop started with the empty entry and a cleared flag: either nothing
non-empty in the list begins the namespace, and the loop leaves the empty entry and the
cleared flag, or it leaves the longest entry that begins the namespace, non-empty, with the
flag set. -/
theorem longest_begin_initial (namespace_ : List Char) (entries : List (List Char)) :
    (∀ n ∈ entries, n <+: namespace_ →
      n.length ≤ (longest_begin namespace_ entries ([], false)).1.length) ∧
    ((longest_begin namespace_ entries ([], false) = ([], false)) ∨
      ((longest_begin namespace_ entries ([], false)).2 = true ∧
        (longest_begin namespace_ entries ([], false)).1 ∈ entries ∧
        (longest_begin namespace_ entries ([], false)).1 <+: namespace_ ∧
        0 < (longest_begin namespace_ entries ([], false)).1.length)) := by
  obtain ⟨_, h2, h3⟩ := longest_begin_spec namespace_ entries ([], false)
  exact ⟨h2, h3⟩

/-- C14: `is_namespace_binding_requested(ns)` is decided by the longest matching prefix.  It
returns true exactly when some entry of `namespaces_to_bind` is a non-empty prefix of `ns`,
is the longest such entry, and is strictly longer than every entry of `namespaces_to_skip`
that is a prefix of `ns`.  It throws exactly when the longest matching bind entry and the
longest matching skip entry have the same non-zero length.  In every other case it returns
false. -/
theorem namespace_binding_by_longest_prefix (cfg : Config) (ns : List Char) :
    (cfg.is_namespace_binding_requested ns = Except.ok true ↔
      ∃ n ∈ cfg.namespaces_to_bind, n ≠ [] ∧ n <+: ns ∧
        (∀ n2 ∈ cfg.namespaces_to_bind, n2 <+: ns → n2.length ≤ n.length) ∧
        ∀ s ∈ cfg.namespaces_to_skip, s <+: ns → s.length < n.length) ∧
    ((∃ e, cfg.is_namespace_binding_requested ns = Except.error e) ↔
      ∃ n ∈ cfg.namespaces_to_bind, ∃ s ∈ cfg.namespaces_to_skip, n <+: ns ∧ s <+: ns ∧
        (∀ n2 ∈ cfg.namespaces_to_bind, n2 <+: ns → n2.length ≤ n.length) ∧
        (∀ s2 ∈ cfg.namespaces_to_skip, s2 <+: ns → s2.length ≤ s.length) ∧
        n.length = s.length ∧ n.length ≠ 0) ∧
    (cfg.is_namespace_binding_requested ns = Except.ok true ∨
      cfg.is_namespace_binding_requested ns = Except.ok false ∨
      cfg.is_namespace_binding_requested ns
        = Except.error (runtime_error.conflicting_requests ns)) := by
  obtain ⟨hb1, hb2⟩ := longest_begin_initial ns cfg.namespaces_to_bind
  obtain ⟨hs1, hs2⟩ := longest_begin_initial ns cfg.namespaces_to_skip
  unfold Config.is_namespace_binding_requested
  generalize longest_begin ns cfg.namespaces_to_bind ([], false) = bound at hb1 hb2
  generalize longest_begin ns cfg.namespaces_to_skip ([], false) = skipped at hs1 hs2
  -- the longest matching entries, where there are any, have the lengths the loops found
  have hbound : ∀ n ∈ cfg.namespaces_to_bind, n <+: ns →
      (∀ n2 ∈ cfg.namespaces_to_bind, n2 <+: ns → n2.length ≤ n.length) →
      n.length = bound.1.length := by
    intro n hn hnp hmax
    have h1 := hb1 n hn hnp
    rcases hb2 with e | h
    · rw [e] at h1 ⊢; simpa using h1
    · have := hmax _ h.2.1 h.2.2.1
      omega
  have hskipped : ∀ s ∈ cfg.namespaces_to_skip, s <+: ns →
      (∀ s2 ∈ cfg.namespaces_to_skip, s2 <+: ns → s2.length ≤ s.length) →
      s.length = skipped.1.length := by
    intro s hs hsp hmax
    have h1 := hs1 s hs hsp
    rcases hs2 with e | h
    · rw [e] at h1 ⊢; simpa using h1
    · have := hmax _ h.2.1 h.2.2.1
      omega
  have hb0 : bound = ([], false) → bound.1.length = 0 := fun e => by rw [e]; rfl
  have hs0 : skipped = ([], false) → skipped.1.length = 0 := fun e => by rw [e]; rfl
  have htrue : (∃ n ∈ cfg.namespaces_to_bind, n ≠ [] ∧ n <+: ns ∧
        (∀ n2 ∈ cfg.namespaces_to_bind, n2 <+: ns → n2.length ≤ n.length) ∧
        ∀ s ∈ cfg.namespaces_to_skip, s <+: ns → s.length < n.length) ↔
      bound.1.length > skipped.1.length := by
    constructor
    · rintro ⟨n, hn, hne, hnp, hmax, hskip⟩
      have h1 := hbound n hn hnp hmax
      rcases hs2 with e | h
      · have := hs0 e
        have : 0 < n.length := List.length_pos.2 hne
        omega
      · have := hskip _ h.2.1 h.2.2.1
        omega
    · intro hgt
      rcases hb2 with e | h
      · have := hb0 e; omega
      · refine ⟨bound.1, h.2.1, ?_, h.2.2.1, hb1, ?_⟩
        · intro h0; rw [h0] at hgt; simp at hgt
        · intro s hs hsp
          have := hs1 s hs hsp
          omega
  have hthrow : (∃ n ∈ cfg.namespaces_to_bind, ∃ s ∈ cfg.namespaces_to_skip, n <+: ns ∧
        s <+: ns ∧ (∀ n2 ∈ cfg.namespaces_to_bind, n2 <+: ns → n2.length ≤ n.length) ∧
        (∀ s2 ∈ cfg.namespaces_to_skip, s2 <+: ns → s2.length ≤ s.length) ∧
        n.length = s.length ∧ n.length ≠ 0) ↔
      (bound.1.length = skipped.1.length ∧ bound.2 = true ∧ skipped.2 = true) := by
    constructor
    · rintro ⟨n, hn, s, hs, hnp, hsp, hnmax, hsmax, hlen, hn0⟩
      have h1 := hbound n hn hnp hnmax
      have h2 := hskipped s hs hsp hsmax
      refine ⟨by omega, ?_, ?_⟩
      · rcases hb2 with e | h
        · have := hb0 e; omega
        · exact h.1
      · rcases hs2 with e | h
        · have := hs0 e; omega
        · exact h.1
    · rintro ⟨heq, hbf, hsf⟩
      rcases hb2 with e | hbm
      · rw [e] at hbf; cases hbf
      · rcases hs2 with e | hsm
        · rw [e] at hsf; cases hsf
        · exact ⟨bound.1, hbm.2.1, skipped.1, hsm.2.1, hbm.2.2.1, hsm.2.2.1, hb1, hs1, heq,
            by omega⟩
  rw [htrue, hthrow]
  simp only
  by_cases hgt : bound.1.length > skipped.1.length
  · rw [if_pos hgt]
    refine ⟨⟨fun _ => hgt, fun _ => rfl⟩, ⟨?_, ?_⟩, by simp⟩
    · rintro ⟨e, he⟩; cases he
    · intro h; omega
  · rw [if_neg hgt]
    by_cases hlt : bound.1.length < skipped.1.length
    · rw [if_pos hlt]
      refine ⟨⟨?_, fun h => absurd h hgt⟩, ⟨?_, ?_⟩, by simp⟩
      · intro h; cases h
      · rintro ⟨e, he⟩; cases he
      · intro h; omega
    · rw [if_neg hlt]
      have heq : bound.1.length = skipped.1.length := by omega
      by_cases hflags : (bound.2 && skipped.2) = true
      · rw [if_pos hflags]
        have hf := Bool.and_eq_true_iff.1 hflags
        refine ⟨⟨?_, fun h => absurd h hgt⟩, ⟨fun _ => ⟨heq, hf.1, hf.2⟩, fun _ => ⟨_, rfl⟩⟩,
          by simp⟩
        intro h; cases h
      · rw [if_neg hflags]
        have hbf : bound.2 = false := by
          rcases hb2 with e | hbm
          · rw [e]
          · exfalso
            rcases hs2 with e | hsm
            · have := hs0 e; omega
            · exact hflags (by rw [hbm.1, hsm.1]; rfl)
        rw [hbf]
        simp only [Bool.false_eq_true, if_false]
        refine ⟨⟨?_, fun h => absurd h hgt⟩, ⟨?_, ?_⟩, by simp⟩
        · intro h; cases h
        · rintro ⟨e, he⟩; cases he
        · intro h
          have := h.2.1
          cases this

/-! ## Config::read -/

theorem find_char_none (c : Char) : ∀ (l : List Char), find_char l c = none → c ∉ l := by
  intro l
  induction l with
  | nil => intro _; simp
  | cons x rest ih =>
    intro h
    simp only [find_char] at h
    split at h
    · cases h
    · rename_i hx
      simp only [Option.map_eq_none'] at h
      simp only [List.mem_cons, not_or]
      exact ⟨fun e => hx e.symm, ih h⟩

theorem find_char_some (c : Char) :
    ∀ (l : List Char) (k : Nat), find_char l c = some k →
      ∃ pre post, l = pre ++ c :: post ∧ pre.length = k ∧ c ∉ pre := by
  intro l
  induction l with
  | nil => intro k h; cases h
  | cons x rest ih =>
    intro k h
    simp only [find_char] at h
    split at h
    · rename_i hx
      cases h
      exact ⟨[], rest, by simp [hx], rfl, by simp⟩
    · rename_i hx
      cases hf : find_char rest c with
      | none => rw [hf] at h; cases h
      | some j =>
        rw [hf] at h
        simp only [Option.map_some', Option.some.injEq] at h
        obtain ⟨pre, post, e, hl, hn⟩ := ih j hf
        refine ⟨x :: pre, post, by simp [e], by simp [hl, h], ?_⟩
        simp only [List.mem_cons, not_or]
        exact ⟨fun e => hx e.symm, hn⟩

theorem first_separator_unique (c : Char) :
    ∀ (a b x y : List Char), c ∉ a → c ∉ b → a ++ c :: x = b ++ c :: y → a = b ∧ x = y := by
  intro a
  induction a with
  | nil =>
    intro b x y _ hb e
    cases b with
    | nil => simpa using e
    | cons d b =>
      simp only [List.nil_append, List.cons_append, List.cons.injEq] at e
      simp only [List.mem_cons, not_or] at hb
      exact absurd e.1 hb.1
  | cons d a ih =>
    intro b x y ha hb e
    simp only [List.mem_cons, not_or] at ha
    cases b with
    | nil =>
      simp only [List.nil_append, List.cons_append, List.cons.injEq] at e
      exact absurd e.1.symm ha.1
    | cons d2 b =>
      simp only [List.cons_append, List.cons.injEq] at e
      simp only [List.mem_cons, not_or] at hb
      obtain ⟨e1, e2⟩ := ih b x y ha.2 hb.2 e.2
      exact ⟨by rw [e.1, e1], e2⟩

/-- What a line that begins with a sign looks like to `read`: either it has no space, or it
is the sign, a token without space, a space, and a name, and `find`, `substr` deliver the
position of that space, the token and the name. -/
theorem signed_line (sign : Char) (rest : List Char) (hs : sign ≠ ' ') :
    (find_char (sign :: rest) ' ' = none ∧ ' ' ∉ sign :: rest) ∨
    ∃ token name, rest = token ++ ' ' :: name ∧ ' ' ∉ token ∧
      find_char (sign :: rest) ' ' = some (token.length + 1) ∧
      substr (sign :: rest) 1 (token.length + 1 - 1) = token ∧
      (sign :: rest).drop (token.length + 1 + 1) = name := by
  cases hf : find_char (sign :: rest) ' ' with
  | none => left; exact ⟨rfl, find_char_none ' ' _ hf⟩
  | some k =>
    right
    obtain ⟨pre, post, e, hl, hn⟩ := find_char_some ' ' _ k hf
    cases pre with
    | nil =>
      simp only [List.nil_append, List.cons.injEq] at e
      exact absurd e.1 hs
    | cons x token =>
      simp only [List.cons_append, List.cons.injEq] at e
      simp only [List.mem_cons, not_or] at hn
      simp only [List.length_cons] at hl
      refine ⟨token, post, e.2, hn.2, by rw [hl], ?_, ?_⟩
      · rw [e.2]; simp [substr]
      · rw [e.2]; simp

theorem read_line_of_empty (cfg : Config) : cfg.read_line [] = Except.ok cfg := by
  simp [Config.read_line]

theorem read_line_of_comment (cfg : Config) (rest : List Char) :
    cfg.read_line ('#' :: rest) = Except.ok cfg := by
  simp [Config.read_line]

theorem read_line_of_other (cfg : Config) (c : Char) (rest : List Char) (h1 : c ≠ '#')
    (h2 : c ≠ '+') (h3 : c ≠ '-') :
    cfg.read_line (c :: rest) = Except.error (runtime_error.invalid_line_start (c :: rest)) := by
  simp [Config.read_line, h1, h2, h3]

theorem read_line_of_no_space (cfg : Config) (sign : Char) (rest : List Char)
    (hs : sign = '+' ∨ sign = '-') (h : find_char (sign :: rest) ' ' = none) :
    cfg.read_line (sign :: rest) = Except.error (runtime_error.missing_space (sign :: rest)) := by
  rcases hs with rfl | rfl <;> simp [Config.read_line, h]

/-- The effect of `read` on a line made of a sign, a token, a space and a name. -/
theorem read_line_of_entry (cfg : Config) (sign : Char) (token name : List Char)
    (hs : sign = '+' ∨ sign = '-') (ht : ' ' ∉ token) :
    cfg.read_line (sign :: (token ++ ' ' :: name)) =
      if token = _namespace_ then
        if sign = '+' then
          Except.ok { cfg with namespaces_to_bind := cfg.namespaces_to_bind ++ [name] }
        else Except.ok { cfg with namespaces_to_skip := cfg.namespaces_to_skip ++ [name] }
      else if token = _class_ then
        if sign = '+' then
          Except.ok { cfg with classes_to_bind := cfg.classes_to_bind ++ [name] }
        else Except.ok { cfg with classes_to_skip := cfg.classes_to_skip ++ [name] }
      else if token = _function_ then
        if sign = '+' then
          Except.ok { cfg with functions_to_bind := cfg.functions_to_bind ++ [name] }
        else Except.ok { cfg with functions_to_skip := cfg.functions_to_skip ++ [name] }
      else Except.error (runtime_error.invalid_token token (sign :: (token ++ ' ' :: name))) := by
  have hsp : sign ≠ ' ' := by rcases hs with rfl | rfl <;> decide
  rcases signed_line sign (token ++ ' ' :: name) hsp with ⟨_, hno⟩ | ⟨t2, n2, e, ht2, hf, hsub, hdrop⟩
  · exfalso; apply hno; simp
  · obtain ⟨e1, e3⟩ := first_separator_unique ' ' token t2 name n2 ht ht2 e
    subst e1
    subst e3
    have hne : (sign :: (token ++ ' ' :: name)).length ≠ 0 := by simp
    have hget : (sign :: (token ++ ' ' :: name)).getD 0 (Char.ofNat 0) = sign := rfl
    unfold Config.read_line
    rw [if_pos hne, hget]
    have hhash : sign ≠ '#' := by rcases hs with rfl | rfl <;> decide
    rw [if_neg hhash, if_pos hs, hf]
    simp only [hsub, hdrop]
    by_cases hplus : sign = '+' <;> simp [hplus]

/-- The loop body of `read` throws on a line exactly when the line is invalid, whatever the
lists hold. -/
theorem read_line_error_iff (cfg : Config) (line : List Char) :
    (∃ e, cfg.read_line line = Except.error e) ↔ invalid_line line := by
  cases line with
  | nil =>
    rw [read_line_of_empty]
    constructor
    · rintro ⟨e, he⟩; cases he
    · rintro ⟨h, _⟩; exact absurd rfl h
  | cons c rest =>
    by_cases hhash : c = '#'
    · subst hhash
      rw [read_line_of_comment]
      constructor
      · rintro ⟨e, he⟩; cases he
      · rintro ⟨_, h | h | h⟩
        · obtain ⟨d, hd, h1, _⟩ := h
          simp only [List.head?_cons, Option.some.injEq] at hd
          exact absurd hd.symm h1
        · rcases h.1 with h1 | h1 <;> simp at h1
        · rcases h.1 with h1 | h1 <;> simp at h1
    · by_cases hs : c = '+' ∨ c = '-'
      · have hsp : c ≠ ' ' := by rcases hs with rfl | rfl <;> decide
        have hhead : (c :: rest).head? = some '+' ∨ (c :: rest).head? = some '-' := by
          rcases hs with rfl | rfl <;> simp
        rcases signed_line c rest hsp with ⟨hf, hno⟩ | ⟨token, name, e, ht, _, _, _⟩
        · rw [read_line_of_no_space cfg c rest hs hf]
          constructor
          · intro _
            exact ⟨by simp, Or.inr (Or.inl ⟨hhead, hno⟩)⟩
          · intro _; exact ⟨_, rfl⟩
        · subst e
          rw [read_line_of_entry cfg c token name hs ht]
          constructor
          · rintro ⟨err, he⟩
            refine ⟨by simp, Or.inr (Or.inr ⟨hhead, token, name, rfl, ht, ?_⟩)⟩
            by_cases h1 : token = _namespace_
            · rw [if_pos h1] at he; split at he <;> cases he
            · rw [if_neg h1] at he
              by_cases h2 : token = _class_
              · rw [if_pos h2] at he; split at he <;> cases he
              · rw [if_neg h2] at he
                by_cases h3 : token = _function_
                · rw [if_pos h3] at he; split at he <;> cases he
                · exact ⟨h1, h2, h3⟩
          · rintro ⟨_, h | h | h⟩
            · obtain ⟨d, hd, _, h2, h3⟩ := h
              simp only [List.head?_cons, Option.some.injEq] at hd
              rcases hs with e | e
              · exact absurd (hd.symm.trans e) h2
              · exact absurd (hd.symm.trans e) h3
            · exfalso; apply h.2; simp
            · obtain ⟨_, t2, r2, e2, ht2, h1, h2, h3⟩ := h
              simp only [List.tail_cons] at e2
              obtain ⟨e3, _⟩ := first_separator_unique ' ' token t2 name r2 ht ht2 e2
              subst e3
              rw [if_neg h1, if_neg h2, if_neg h3]
              exact ⟨_, rfl⟩
      · have h2 : c ≠ '+' := fun e => hs (Or.inl e)
        have h3 : c ≠ '-' := fun e => hs (Or.inr e)
        rw [read_line_of_other cfg c rest hhash h2 h3]
        constructor
        · intro _
          exact ⟨by simp, Or.inl ⟨c, by simp, hhash, h2, h3⟩⟩
        · intro _; exact ⟨_, rfl⟩

theorem read_lines_error_iff :
    ∀ (lines : List (List Char)) (cfg : Config),
      (∃ e, cfg.read_lines lines = Except.error e) ↔ ∃ line ∈ lines, invalid_line line := by
  intro lines
  induction lines with
  | nil =>
    intro cfg
    simp [Config.read_lines]
  | cons line rest ih =>
    intro cfg
    unfold Config.read_lines
    cases hr : cfg.read_line line with
    | error e =>
      simp only
      constructor
      · intro _
        exact ⟨line, List.mem_cons_self _ _, (read_line_error_iff cfg line).1 ⟨e, hr⟩⟩
      · intro _; exact ⟨e, rfl⟩
    | ok cfg2 =>
      simp only
      rw [ih cfg2]
      have hvalid : ¬ invalid_line line := by
        intro h
        obtain ⟨e, he⟩ := (read_line_error_iff cfg line).2 h
        rw [hr] at he
        cases he
      constructor
      · rintro ⟨l, hl, hi⟩
        exact ⟨l, List.mem_cons_of_mem _ hl, hi⟩
      · rintro ⟨l, hl, hi⟩
        rcases List.mem_cons.1 hl with e | hl
        · rw [e] at hi; exact absurd hi hvalid
        · exact ⟨l, hl, hi⟩

/-- C13: `Config::read` fails with a runtime_error exactly when the file contains a
non-empty line that (a) begins with a character other than `#`, `+` and `-`, or (b) begins
with `+` or `-` but contains no space, or (c) begins with `+` or `-` and the text between that
sign and the first space is none of namespace, class, function; on every other file it
succeeds. -/
theorem read_fails_iff_invalid_line (cfg : Config) (content : List Char) :
    ((∃ e, cfg.read content = Except.error e) ↔
      ∃ line ∈ getlines content, invalid_line line) ∧
    ((∃ cfg2, cfg.read content = Except.ok cfg2) ↔
      ¬ ∃ line ∈ getlines content, invalid_line line) := by
  have h := read_lines_error_iff (getlines content) cfg
  refine ⟨h, ?_⟩
  rw [← h]
  unfold Config.read
  cases cfg.read_lines (getlines content) with
  | error e => simp
  | ok c => simp

theorem entry_name_of_entry (s sign : Char) (T token name : List Char) (hT : ' ' ∉ T)
    (ht : ' ' ∉ token) :
    entry_name s T (sign :: (token ++ ' ' :: name))
      = if s = sign ∧ T = token then some name else none := by
  unfold entry_name
  by_cases h : s = sign ∧ T = token
  · obtain ⟨rfl, rfl⟩ := h
    have hp : (s :: T ++ [' ']).isPrefixOf (s :: (T ++ ' ' :: name)) = true := by
      rw [List.isPrefixOf_iff_prefix]
      exact ⟨name, by simp⟩
    rw [if_pos hp, if_pos ⟨rfl, rfl⟩]
    congr 1
    have : T.length + 2 = (s :: T ++ [' ']).length := by simp
    rw [this]
    have e : s :: (T ++ ' ' :: name) = (s :: T ++ [' ']) ++ name := by simp
    rw [e, List.drop_left]
  · have hp : ¬ (s :: T ++ [' ']).isPrefixOf (sign :: (token ++ ' ' :: name)) = true := by
      rw [List.isPrefixOf_iff_prefix]
      rintro ⟨r, hr⟩
      simp only [List.cons_append, List.append_assoc, List.singleton_append,
        List.cons.injEq] at hr
      obtain ⟨e1, _⟩ := first_separator_unique ' ' T token r name hT ht hr.2
      exact h ⟨hr.1, e1⟩
    rw [if_neg hp, if_neg h]

theorem entry_name_of_empty (s : Char) (T : List Char) : entry_name s T [] = none := by
  simp [entry_name, List.isPrefixOf]

theorem entry_name_of_other (s c : Char) (T rest : List Char) (h : s ≠ c) :
    entry_name s T (c :: rest) = none := by
  simp [entry_name, List.isPrefixOf, h]

/-- What the loop body of `read` does to the lists when it accepts a line: each list gets the
name the line carries for it, if any, at its end. -/
theorem read_line_ok (cfg cfg2 : Config) (line : List Char)
    (h : cfg.read_line line = Except.ok cfg2) :
    cfg2.namespaces_to_bind
        = cfg.namespaces_to_bind ++ (entry_name '+' _namespace_ line).toList ∧
    cfg2.namespaces_to_skip
        = cfg.namespaces_to_skip ++ (entry_name '-' _namespace_ line).toList ∧
    cfg2.classes_to_bind = cfg.classes_to_bind ++ (entry_name '+' _class_ line).toList ∧
    cfg2.classes_to_skip = cfg.classes_to_skip ++ (entry_name '-' _class_ line).toList ∧
    cfg2.functions_to_bind
        = cfg.functions_to_bind ++ (entry_name '+' _function_ line).toList ∧
    cfg2.functions_to_skip
        = cfg.functions_to_skip ++ (entry_name '-' _function_ line).toList := by
  have hn : ' ' ∉ _namespace_ := by decide
  have hc : ' ' ∉ _class_ := by decide
  have hf : ' ' ∉ _function_ := by decide
  have d1 : _namespace_ ≠ _class_ := by decide
  have d2 : _namespace_ ≠ _function_ := by decide
  have d3 : _class_ ≠ _function_ := by decide
  have pm : ('+' : Char) ≠ '-' := by decide
  have mp : ('-' : Char) ≠ '+' := by decide
  cases line with
  | nil =>
    rw [read_line_of_empty] at h
    cases h
    simp [entry_name_of_empty]
  | cons c rest =>
    by_cases hhash : c = '#'
    · subst hhash
      rw [read_line_of_comment] at h
      cases h
      simp [entry_name_of_other]
    · by_cases hs : c = '+' ∨ c = '-'
      · have hsp : c ≠ ' ' := by rcases hs with rfl | rfl <;> decide
        rcases signed_line c rest hsp with ⟨hfnd, _⟩ | ⟨token, name, e, ht, _, _, _⟩
        · rw [read_line_of_no_space cfg c rest hs hfnd] at h
          cases h
        · subst e
          rw [read_line_of_entry cfg c token name hs ht] at h
          simp only [entry_name_of_entry _ c _ token name hn ht,
            entry_name_of_entry _ c _ token name hc ht,
            entry_name_of_entry _ c _ token name hf ht]
          by_cases h1 : token = _namespace_
          · subst h1
            rw [if_pos rfl] at h
            rcases hs with rfl | rfl
            · simp only [if_true] at h
              cases h
              simp [d1, d2, d1.symm, d2.symm, pm, mp]
            · simp only [mp, if_false] at h
              cases h
              simp [d1, d2, d1.symm, d2.symm, pm, mp]
          · rw [if_neg h1] at h
            by_cases h2 : token = _class_
            · subst h2
              rw [if_pos rfl] at h
              rcases hs with rfl | rfl
              · simp only [if_true] at h
                cases h
                simp [d1, d3, d1.symm, d3.symm, pm, mp]
              · simp only [mp, if_false] at h
                cases h
                simp [d1, d3, d1.symm, d3.symm, pm, mp]
            · rw [if_neg h2] at h
              by_cases h3 : token = _function_
              · subst h3
                rw [if_pos rfl] at h
                rcases hs with rfl | rfl
                · simp only [if_true] at h
                  cases h
                  simp [d2, d3, d2.symm, d3.symm, pm, mp]
                · simp only [mp, if_false] at h
                  cases h
                  simp [d2, d3, d2.symm, d3.symm, pm, mp]
              · rw [if_neg h3] at h
                cases h
      · have h2 : c ≠ '+' := fun e => hs (Or.inl e)
        have h3 : c ≠ '-' := fun e => hs (Or.inr e)
        rw [read_line_of_other cfg c rest hhash h2 h3] at h
        cases h

theorem entries_cons (sign : Char) (token line : List Char) (rest : List (List Char)) :
    entries sign token (line :: rest)
      = (entry_name sign token line).toList ++ entries sign token rest := by
  unfold entries
  rw [List.filterMap_cons]
  cases entry_name sign token line <;> simp

theorem read_lines_ok :
    ∀ (lines : List (List Char)) (cfg cfg2 : Config), cfg.read_lines lines = Except.ok cfg2 →
      cfg2.namespaces_to_bind = cfg.namespaces_to_bind ++ entries '+' _namespace_ lines ∧
      cfg2.namespaces_to_skip = cfg.namespaces_to_skip ++ entries '-' _namespace_ lines ∧
      cfg2.classes_to_bind = cfg.classes_to_bind ++ entries '+' _class_ lines ∧
      cfg2.classes_to_skip = cfg.classes_to_skip ++ entries '-' _class_ lines ∧
      cfg2.functions_to_bind = cfg.functions_to_bind ++ entries '+' _function_ lines ∧
      cfg2.functions_to_skip = cfg.functions_to_skip ++ entries '-' _function_ lines := by
  intro lines
  induction lines with
  | nil =>
    intro cfg cfg2 h
    simp only [Config.read_lines] at h
    cases h
    simp [entries]
  | cons line rest ih =>
    intro cfg cfg2 h
    unfold Config.read_lines at h
    cases hr : cfg.read_line line with
    | error e => rw [hr] at h; cases h
    | ok cfg1 =>
      rw [hr] at h
      simp only at h
      obtain ⟨a1, a2, a3, a4, a5, a6⟩ := read_line_ok cfg cfg1 line hr
      obtain ⟨b1, b2, b3, b4, b5, b6⟩ := ih cfg1 cfg2 h
      simp only [entries_cons]
      rw [b1, b2, b3, b4, b5, b6, a1, a2, a3, a4, a5, a6]
      simp [List.append_assoc]

/-- C15: for a file that `Config::read` accepts, every line of the form `+T name` or
`-T name`, with `T` one of namespace, class, function, appends `name`, all the text after the
first space of the line, to the list `T`-to-bind (for `+`) or `T`-to-skip (for `-`), in file
order; the other lines add nothing, and the entries the lists held before are kept in
front. -/
theorem read_appends_entries (cfg cfg2 : Config) (content : List Char)
    (h : cfg.read content = Except.ok cfg2) :
    cfg2.namespaces_to_bind
        = cfg.namespaces_to_bind ++ entries '+' _namespace_ (getlines content) ∧
    cfg2.namespaces_to_skip
        = cfg.namespaces_to_skip ++ entries '-' _namespace_ (getlines content) ∧
    cfg2.classes_to_bind = cfg.classes_to_bind ++ entries '+' _class_ (getlines content) ∧
    cfg2.classes_to_skip = cfg.classes_to_skip ++ entries '-' _class_ (getlines content) ∧
    cfg2.functions_to_bind
        = cfg.functions_to_bind ++ entries '+' _function_ (getlines content) ∧
    cfg2.functions_to_skip
        = cfg.functions_to_skip ++ entries '-' _function_ (getlines content) :=
  read_lines_ok (getlines content) cfg cfg2 h

/-! ## replace -/

theorem replace_all_scan_nil (from_ to_ : List Char) (k : Nat) :
    replace_all_scan from_ to_ k [] = [] := by
  cases k <;> rfl

theorem replace_all_scan_skip (from_ to_ : List Char) :
    ∀ (l : List Char) (k : Nat),
      replace_all_scan from_ to_ k l = replace_all_scan from_ to_ 0 (l.drop k) := by
  intro l
  induction l with
  | nil => intro k; simp [replace_all_scan_nil]
  | cons c cs ih =>
    intro k
    cases k with
    | zero => rfl
    | succ k =>
      simp only [replace_all_scan, List.drop_succ_cons]
      exact ih k

theorem replace_all_scan_occurrence (from_ to_ : List Char) (hf : from_ ≠ []) (y : List Char) :
    replace_all_scan from_ to_ 0 (from_ ++ y) = to_ ++ replace_all_scan from_ to_ 0 y := by
  cases from_ with
  | nil => exact absurd rfl hf
  | cons c f =>
    have hp : (c :: f).isPrefixOf (c :: (f ++ y)) = true := by
      rw [List.isPrefixOf_iff_prefix]
      exact ⟨y, rfl⟩
    simp only [List.cons_append, replace_all_scan, List.append_eq, hp, if_true,
      List.length_cons, Nat.add_sub_cancel]
    rw [replace_all_scan_skip, List.drop_left]

theorem replace_all_scan_copy (from_ to_ : List Char) (c : Char) (cs : List Char)
    (h : ¬ from_ <+: c :: cs) :
    replace_all_scan from_ to_ 0 (c :: cs) = c :: replace_all_scan from_ to_ 0 cs := by
  have hp : ¬ from_.isPrefixOf (c :: cs) = true := by
    rw [List.isPrefixOf_iff_prefix]; exact h
  simp only [replace_all_scan, hp, Bool.false_eq_true, if_false]

theorem right_to_left_nil (from_ to_ : List Char) :
    replace_all_right_to_left [] from_ to_ = [] := by
  simp [replace_all_right_to_left, replace_all_left_to_right, replace_all_scan_nil]

/-- Scanning from the right, an occurrence at the very end is replaced. -/
theorem right_to_left_occurrence (from_ to_ : List Char) (hf : from_ ≠ []) (x : List Char) :
    replace_all_right_to_left (x ++ from_) from_ to_
      = replace_all_right_to_left x from_ to_ ++ to_ := by
  unfold replace_all_right_to_left replace_all_left_to_right
  rw [List.reverse_append, replace_all_scan_occurrence _ _ (by simpa using hf),
    List.reverse_append, List.reverse_reverse]

/-- Scanning from the right, a last character at which no occurrence ends is kept. -/
theorem right_to_left_copy (from_ to_ : List Char) (x : List Char) (c : Char)
    (h : ¬ from_ <:+ x ++ [c]) :
    replace_all_right_to_left (x ++ [c]) from_ to_
      = replace_all_right_to_left x from_ to_ ++ [c] := by
  unfold replace_all_right_to_left replace_all_left_to_right
  have hp : ¬ from_.reverse <+: c :: x.reverse := by
    intro hp
    apply h
    rw [← List.reverse_prefix]
    simpa using hp
  rw [List.reverse_append, List.reverse_singleton, List.singleton_append,
    replace_all_scan_copy _ _ c _ hp, List.reverse_cons]

/-- Scanning from the right, a tail in which no occurrence ends is kept. -/
theorem right_to_left_tail (from_ to_ : List Char) (a : List Char) :
    ∀ (t : List Char), (∀ k, 1 ≤ k → k ≤ t.length → ¬ from_ <:+ a ++ t.take k) →
      replace_all_right_to_left (a ++ t) from_ to_
        = replace_all_right_to_left a from_ to_ ++ t := by
  intro t
  induction t using List.reverseRecOn with
  | nil => intro _; simp
  | append_singleton t c ih =>
    intro h
    have h1 : ¬ from_ <:+ (a ++ t) ++ [c] := by
      have := h (t.length + 1) (by omega) (by simp)
      rw [List.take_of_length_le (by simp)] at this
      rwa [← List.append_assoc] at this
    have h2 : ∀ k, 1 ≤ k → k ≤ t.length → ¬ from_ <:+ a ++ t.take k := by
      intro k hk1 hk2
      have := h k hk1 (by simp; omega)
      rwa [List.take_append_of_le_length hk2] at this
    rw [← List.append_assoc, right_to_left_copy from_ to_ (a ++ t) c h1, ih h2,
      List.append_assoc]

theorem occurrence_of_suffix_take (from_ P : List Char) (e : Nat) (he : e ≤ P.length)
    (h : from_ <:+ P.take e) :
    from_.length ≤ e ∧ (P.drop (e - from_.length)).take from_.length = from_ := by
  obtain ⟨u, hu⟩ := h
  have hlen : u.length + from_.length = e := by
    have := congrArg List.length hu
    simp only [List.length_append, List.length_take] at this
    omega
  refine ⟨by omega, ?_⟩
  have hP : P = u ++ from_ ++ P.drop e := by
    rw [hu]; exact (List.take_append_drop e P).symm
  have : e - from_.length = u.length := by omega
  rw [this]
  conv_lhs => rw [hP]
  exact occurrence_of_split u from_ (P.drop e)

/-- Scanning from the right replaces the last occurrence and goes on to the left of it. -/
theorem right_to_left_last (from_ to_ P : List Char) (hf : from_ ≠ []) (f : Nat)
    (hocc : (P.drop f).take from_.length = from_)
    (hlast : ∀ r, f < r → (P.drop r).take from_.length ≠ from_) :
    replace_all_right_to_left P from_ to_
      = replace_all_right_to_left (P.take f) from_ to_ ++ to_ ++ P.drop (f + from_.length) := by
  have hb := occurrence_bound P from_ f hf hocc
  have hP : P = (P.take f ++ from_) ++ P.drop (f + from_.length) := by
    have h1 : P.drop f = from_ ++ (P.drop f).drop from_.length := by
      conv_lhs => rw [← List.take_append_drop from_.length (P.drop f), hocc]
    rw [List.drop_drop] at h1
    rw [List.append_assoc, ← h1, List.take_append_drop]
  have hlen : (P.take f ++ from_).length = f + from_.length := by
    simp; omega
  have htail := right_to_left_tail from_ to_ (P.take f ++ from_) (P.drop (f + from_.length)) (by
    intro k hk1 hk2 hsuf
    simp only [List.length_drop] at hk2
    have htake : P.take f ++ from_ ++ (P.drop (f + from_.length)).take k
        = P.take (f + from_.length + k) := by
      conv_rhs => rw [hP]
      rw [List.take_append_eq_append_take, hlen]
      have h0 : f + from_.length + k - (f + from_.length) = k := by omega
      have hx : (P.take f ++ from_).take (f + from_.length + k) = P.take f ++ from_ :=
        List.take_of_length_le (by rw [hlen]; omega)
      rw [h0, hx]
    rw [htake] at hsuf
    obtain ⟨_, h2⟩ := occurrence_of_suffix_take from_ P (f + from_.length + k) (by omega) hsuf
    have h3 : f + from_.length + k - from_.length = f + k := by omega
    rw [h3] at h2
    exact hlast (f + k) (by omega) h2)
  conv_lhs => rw [hP]
  rw [htail, right_to_left_occurrence from_ to_ hf]

/-- Scanning from the right keeps a string in which there is no occurrence. -/
theorem right_to_left_none (from_ to_ P : List Char)
    (hnone : ∀ r, (P.drop r).take from_.length ≠ from_) :
    replace_all_right_to_left P from_ to_ = P := by
  have := right_to_left_tail from_ to_ [] P (by
    intro k _ hk2 hsuf
    simp only [List.nil_append] at hsuf
    exact hnone _ (occurrence_of_suffix_take from_ P k hk2 hsuf).2)
  simpa [right_to_left_nil] using this

theorem occurrence_append_left (from_ P T : List Char) (q : Nat) (hf : from_ ≠ [])
    (h : (P.drop q).take from_.length = from_) :
    ((P ++ T).drop q).take from_.length = from_ := by
  have hb := occurrence_bound P from_ q hf h
  rw [List.drop_append_of_le_length (by omega),
    List.take_append_of_le_length (by rw [List.length_drop]; omega)]
  exact h

/-- An occurrence that starts in `P` does not reach into `T` when the first character of `T`
does not occur in `from_` after its first character. -/
theorem occurrence_append_apart (from_ P T : List Char) (q : Nat)
    (hT : T = [] ∨ apart_from_inserted from_ T) (hq : q < P.length)
    (h : ((P ++ T).drop q).take from_.length = from_) :
    (P.drop q).take from_.length = from_ := by
  rw [List.drop_append_of_le_length (by omega)] at h
  by_cases hle : q + from_.length ≤ P.length
  · rwa [List.take_append_of_le_length (by rw [List.length_drop]; omega)] at h
  · exfalso
    have hA : (P.drop q).length = P.length - q := List.length_drop q P
    rw [List.take_append_eq_append_take, List.take_of_length_le (by omega)] at h
    have hlen := congrArg List.length h
    simp only [List.length_append, List.length_take, hA] at hlen
    cases hP : P.drop q with
    | nil => rw [hP] at hA; simp at hA; omega
    | cons a A =>
      rw [hP] at h
      cases hTc : T with
      | nil => rw [hTc] at hlen; simp at hlen; omega
      | cons c rest =>
        have hk : from_.length - (P.drop q).length
            = (from_.length - (P.drop q).length - 1) + 1 := by omega
        rw [hP] at hk
        rw [hTc, hk, List.take_succ_cons] at h
        have hmem : c ∈ from_.tail := by
          rw [← h]; simp
        rcases hT with hT | hT | ⟨c2, rest2, h1, h2⟩
        · rw [hTc] at hT; cases hT
        · rw [hT] at hmem; cases hmem
        · rw [hTc] at h1
          cases h1
          exact h2 hmem

/-- The loop of `replace` on a working copy `P ++ T`, where `T` is the part already treated
and the search goes on in `P`, gives the replacement from right to left in `P` and keeps
`T`. -/
theorem replace_loop_right_to_left (from_ to_ : List Char) (hf : from_ ≠ [])
    (hto : apart_from_inserted from_ to_) :
    ∀ (fuel : Nat) (P T : List Char) (i : Nat),
      (T = [] ∨ apart_from_inserted from_ T) →
      (P.length = i + 1 ∨ (T = [] ∧ P.length ≤ i)) → i < fuel →
      replace_loop from_ to_ fuel (P ++ T) i = replace_all_right_to_left P from_ to_ ++ T := by
  intro fuel
  induction fuel with
  | zero => intro P T i _ _ hi; omega
  | succ fuel ih =>
    intro P T i hT hi hfuel
    have hin : ∀ q, q ≤ i → ((P ++ T).drop q).take from_.length = from_ →
        (P.drop q).take from_.length = from_ := by
      intro q hq hocc
      rcases hi with hi | ⟨hi, _⟩
      · exact occurrence_append_apart from_ P T q hT (by omega) hocc
      · rw [hi, List.append_nil] at hocc; exact hocc
    have hout : ∀ q, i < q → (P.drop q).take from_.length ≠ from_ := by
      intro q hq hocc
      have := occurrence_bound P from_ q hf hocc
      have := List.length_pos.mpr hf
      omega
    simp only [replace_loop]
    cases hr : rfind (P ++ T) from_ i with
    | none =>
      have hnone := rfind_none (P ++ T) from_ i hf hr
      have : replace_all_right_to_left P from_ to_ = P := by
        apply right_to_left_none
        intro q hocc
        by_cases hq : q ≤ i
        · exact hnone q hq (occurrence_append_left from_ P T q hf hocc)
        · exact hout q (by omega) hocc
      simp only [this]
    | some p =>
      obtain ⟨hocc, hpi, _, hlast⟩ := rfind_some (P ++ T) from_ i p hf hr
      have hoccP := hin p hpi hocc
      have hb := occurrence_bound P from_ p hf hoccP
      have hR := right_to_left_last from_ to_ P hf p hoccP (by
        intro q hq hq2
        by_cases hqi : q ≤ i
        · exact hlast q hq hqi (occurrence_append_left from_ P T q hf hq2)
        · exact hout q (by omega) hq2)
      have hstr : string_replace (P ++ T) p from_.length to_
          = P.take p ++ (to_ ++ P.drop (p + from_.length) ++ T) := by
        unfold string_replace
        rw [List.take_append_of_le_length (by omega),
          List.drop_append_of_le_length (by omega)]
        simp only [List.append_assoc]
      have hT2 : (to_ ++ P.drop (p + from_.length) ++ T = [] ∨
          apart_from_inserted from_ (to_ ++ P.drop (p + from_.length) ++ T)) := by
        rcases hto with h1 | ⟨c, rest, h1, h2⟩
        · exact Or.inr (Or.inl h1)
        · exact Or.inr (Or.inr ⟨c, rest ++ P.drop (p + from_.length) ++ T, by rw [h1]; simp, h2⟩)
      by_cases hp : p = 0
      · subst hp
        simp only [ne_eq, not_true_eq_false, if_false, hstr, hR]
        simp [right_to_left_nil]
      · simp only [ne_eq, hp, not_false_eq_true, if_true, hstr]
        rw [ih (P.take p) _ (p - 1) hT2 (Or.inl (by rw [List.length_take]; omega)) (by omega),
          hR]
        simp only [List.append_assoc]

/-- Counterexample to C12 as stated: in `aaa` the occurrences of `aa` overlap; `replace`
searches from the right and gives `ab`, where the scan from left to right gives `ba`. -/
theorem replace_differs_from_left_to_right :
    replace ['a', 'a', 'a'] ['a', 'a'] ['b'] = ['a', 'b'] ∧
      replace_all_left_to_right ['a', 'a', 'a'] ['a', 'a'] ['b'] = ['b', 'a'] ∧
      replace ['a', 'a', 'a'] ['a', 'a'] ['b']
        ≠ replace_all_left_to_right ['a', 'a', 'a'] ['a', 'a'] ['b'] := by
  decide

/-- C12, amended: for every string `s`, every non-empty `from_` and every `to_` such that
`from_` is a single character or `to_` is not empty and its first character does not occur
in `from_` after the first character, `replace s from_ to_` is `s` with each non-overlapping
occurrence of `from_`, found scanning `s` from right to left, replaced by `to_`, and with
every other character of `s` kept in place. -/
theorem replace_replaces_right_to_left (s from_ to_ : List Char) (hf : from_ ≠ [])
    (hto : apart_from_inserted from_ to_) :
    replace s from_ to_ = replace_all_right_to_left s from_ to_ := by
  have := replace_loop_right_to_left from_ to_ hf hto (s.length + 1) s [] s.length
    (Or.inl rfl) (Or.inr ⟨rfl, Nat.le_refl _⟩) (Nat.lt_succ_self _)
  simpa [replace] using this

/-- Witness for C12: in `a:::b` the occurrence of `::` found from the right is replaced by an
underscore, which gives `a:_b`. -/
theorem replace_replaces_right_to_left_witness :
    [':', ':'] ≠ [] ∧ apart_from_inserted [':', ':'] ['_'] ∧
      replace ['a', ':', ':', ':', 'b'] [':', ':'] ['_']
        = replace_all_right_to_left ['a', ':', ':', ':', 'b'] [':', ':'] ['_'] ∧
      replace ['a', ':', ':', ':', 'b'] [':', ':'] ['_'] = ['a', ':', '_', 'b'] :=
  ⟨by decide, Or.inr ⟨'_', [], rfl, by decide⟩,
    replace_replaces_right_to_left ['a', ':', ':', ':', 'b'] [':', ':'] ['_'] (by decide)
      (Or.inr ⟨'_', [], rfl, by decide⟩),
    by decide⟩

/-- Witness for C15: a file with two namespace lines, a class line, a comment and an empty
line, read into a configuration that already skips the namespace `x`. -/
theorem read_appends_entries_witness :
    Config.read ⟨[], [['x']], [], [], [], []⟩
        "+namespace a b\n#c\n\n-namespace u\n+class K".toList
      = Except.ok ⟨[['a', ' ', 'b']], [['x'], ['u']], [['K']], [], [], []⟩ ∧
    [['x'], ['u']] = [['x']] ++ entries '-' _namespace_
      (getlines "+namespace a b\n#c\n\n-namespace u\n+class K".toList) :=
  ⟨rfl, (read_appends_entries ⟨[], [['x']], [], [], [], []⟩
    ⟨[['a', ' ', 'b']], [['x'], ['u']], [['K']], [], [], []⟩
    "+namespace a b\n#c\n\n-namespace u\n+class K".toList rfl).2.1⟩

/-! ## fix_boolean_types -/

theorem find_up_some (s pat : List Char) :
    ∀ (fuel p f : Nat), find_up s pat fuel p = some f →
      (s.drop f).take pat.length = pat ∧ p ≤ f ∧ f + pat.length ≤ s.length ∧
        ∀ r, p ≤ r → r < f → (s.drop r).take pat.length ≠ pat := by
  intro fuel
  induction fuel with
  | zero => intro p f h; simp [find_up] at h
  | succ fuel ih =>
    intro p f h
    simp only [find_up] at h
    by_cases hle : p + pat.length ≤ s.length
    · rw [if_pos hle] at h
      by_cases hc : compare_is_zero s p pat.length pat = true
      · rw [if_pos hc] at h
        cases h
        exact ⟨(compare_is_zero_iff _ _ _ _).mp hc, Nat.le_refl _, hle,
          fun r h1 h2 => by omega⟩
      · rw [if_neg hc] at h
        obtain ⟨h1, h2, h3, h4⟩ := ih (p + 1) f h
        refine ⟨h1, by omega, h3, ?_⟩
        intro r hr1 hr2
        by_cases hrp : r = p
        · subst hrp
          exact fun hocc => hc ((compare_is_zero_iff _ _ _ _).mpr hocc)
        · exact h4 r (by omega) hr2
    · rw [if_neg hle] at h
      cases h

theorem find_up_none (s pat : List Char) (hpat : pat ≠ []) :
    ∀ (fuel p : Nat), find_up s pat fuel p = none →
      ∀ r, p ≤ r → r < p + fuel → (s.drop r).take pat.length ≠ pat := by
  intro fuel
  induction fuel with
  | zero => intro p _ r h1 h2; omega
  | succ fuel ih =>
    intro p h r hr1 hr2
    simp only [find_up] at h
    by_cases hle : p + pat.length ≤ s.length
    · rw [if_pos hle] at h
      by_cases hc : compare_is_zero s p pat.length pat = true
      · rw [if_pos hc] at h
        cases h
      · rw [if_neg hc] at h
        by_cases hrp : r = p
        · subst hrp
          exact fun hocc => hc ((compare_is_zero_iff _ _ _ _).mpr hocc)
        · exact ih (p + 1) h r (by omega) (by omega)
    · intro hocc
      have := occurrence_bound s pat r hpat hocc
      omega

/-- What `find` returns when it finds: the first occurrence at or after `pos`. -/
theorem find_some (s pat : List Char) (pos f : Nat) (h : find s pat pos = some f) :
    (s.drop f).take pat.length = pat ∧ pos ≤ f ∧ f + pat.length ≤ s.length ∧
      ∀ r, pos ≤ r → r < f → (s.drop r).take pat.length ≠ pat :=
  find_up_some s pat _ pos f h

/-- When `find` returns `npos` there is no occurrence at or after `pos`. -/
theorem find_none (s pat : List Char) (pos : Nat) (hpat : pat ≠ [])
    (h : find s pat pos = none) :
    ∀ r, pos ≤ r → (s.drop r).take pat.length ≠ pat := by
  intro r hr hocc
  have hb := occurrence_bound s pat r hpat hocc
  exact find_up_none s pat hpat _ pos h r hr (by omega) hocc

theorem fix_boolean_scan_nil (skip : Nat) (prev : Option Char) :
    fix_boolean_scan skip prev [] = [] := by
  cases skip <;> rfl

theorem fix_boolean_scan_skip (skip : Nat) (prev : Option Char) (c : Char) (cs : List Char) :
    fix_boolean_scan (skip + 1) prev (c :: cs) = fix_boolean_scan skip (some c) cs := rfl

theorem fix_boolean_scan_zero (prev : Option Char) (c : Char) (cs : List Char) :
    fix_boolean_scan 0 prev (c :: cs)
      = if ['_', 'B', 'o', 'o', 'l'].isPrefixOf (c :: cs) && is_boundary prev &&
            is_boundary ((c :: cs).get? 5) then
          ['b', 'o', 'o', 'l'] ++ fix_boolean_scan 4 (some c) cs
        else c :: fix_boolean_scan 0 (some c) cs := rfl

/-- Where no `_Bool` starts, the scan copies the character. -/
theorem fix_boolean_scan_keep (prev : Option Char) (c : Char) (cs : List Char)
    (h : ¬ (['_', 'B', 'o', 'o', 'l'].isPrefixOf (c :: cs) = true)) :
    fix_boolean_scan 0 prev (c :: cs) = c :: fix_boolean_scan 0 (some c) cs := by
  rw [fix_boolean_scan_zero, if_neg]
  rw [Bool.and_eq_true, Bool.and_eq_true]
  exact fun hc => h hc.1.1

theorem fix_boolean_scan_other (prev : Option Char) (c : Char) (cs : List Char)
    (h : c ≠ '_') :
    fix_boolean_scan 0 prev (c :: cs) = c :: fix_boolean_scan 0 (some c) cs := by
  apply fix_boolean_scan_keep
  rw [List.isPrefixOf_iff_prefix]
  rintro ⟨t, ht⟩
  simp only [List.cons_append, List.cons.injEq] at ht
  exact h ht.1.symm

/-- Where no `_Bool` starts in a stretch, the scan copies the stretch. -/
theorem fix_boolean_scan_copy :
    ∀ (R1 P R2 : List Char),
      (∀ d, d < R1.length → ((R1 ++ R2).drop d).take 5 ≠ ['_', 'B', 'o', 'o', 'l']) →
      fix_boolean_scan 0 P.getLast? (R1 ++ R2)
        = R1 ++ fix_boolean_scan 0 (P ++ R1).getLast? R2 := by
  intro R1
  induction R1 with
  | nil => intro P R2 _; simp
  | cons c R1 ih =>
    intro P R2 h
    have h0 : ¬ (['_', 'B', 'o', 'o', 'l'].isPrefixOf (c :: (R1 ++ R2)) = true) := by
      rw [List.isPrefixOf_iff_prefix, List.prefix_iff_eq_take]
      intro hp
      exact h 0 (by simp) hp.symm
    have h1 : ∀ d, d < R1.length →
        ((R1 ++ R2).drop d).take 5 ≠ ['_', 'B', 'o', 'o', 'l'] := by
      intro d hd
      have := h (d + 1) (by simp; omega)
      simpa using this
    have hlast : (some c : Option Char) = (P ++ [c]).getLast? := by simp
    have hassoc : P ++ c :: R1 = (P ++ [c]) ++ R1 := by simp
    rw [List.cons_append, fix_boolean_scan_keep _ _ _ h0, hlast, ih (P ++ [c]) R2 h1, hassoc,
      List.cons_append]

/-- At a `_Bool` the scan writes `bool` when the occurrence stands between boundaries,
otherwise it copies the underscore. -/
theorem fix_boolean_scan_at (prev : Option Char) (R2 : List Char) :
    fix_boolean_scan 0 prev (['_', 'B', 'o', 'o', 'l'] ++ R2)
      = if is_boundary prev && is_boundary R2.head? then
          ['b', 'o', 'o', 'l'] ++ fix_boolean_scan 0 (some 'l') R2
        else '_' :: fix_boolean_scan 0 (some '_') ('B' :: 'o' :: 'o' :: 'l' :: R2) := by
  have hp : ['_', 'B', 'o', 'o', 'l'].isPrefixOf ('_' :: 'B' :: 'o' :: 'o' :: 'l' :: R2)
      = true := by
    rw [List.isPrefixOf_iff_prefix]; exact ⟨R2, rfl⟩
  have hg : ('_' :: 'B' :: 'o' :: 'o' :: 'l' :: R2).get? 5 = R2.head? := by
    cases R2 <;> rfl
  show fix_boolean_scan 0 prev ('_' :: 'B' :: 'o' :: 'o' :: 'l' :: R2) = _
  rw [fix_boolean_scan_zero, hp, hg, Bool.true_and, fix_boolean_scan_skip,
    fix_boolean_scan_skip, fix_boolean_scan_skip, fix_boolean_scan_skip]

theorem fix_boolean_scan_ool (R2 : List Char) :
    fix_boolean_scan 0 (some 'b') ('o' :: 'o' :: 'l' :: R2)
      = 'o' :: 'o' :: 'l' :: fix_boolean_scan 0 (some 'l') R2 := by
  rw [fix_boolean_scan_other _ 'o' _ (by decide), fix_boolean_scan_other _ 'o' _ (by decide),
    fix_boolean_scan_other _ 'l' _ (by decide)]

/-- The test of `fix_boolean_types` at an occurrence: both neighbours are boundaries. -/
theorem bool_replaceable_eq (X R2 : List Char) :
    bool_replaceable (X ++ ['_', 'B', 'o', 'o', 'l'] ++ R2) X.length
      = (is_boundary X.getLast? && is_boundary R2.head?) := by
  have hleft : (X.length == 0 ||
      not_alnum ((X ++ ['_', 'B', 'o', 'o', 'l'] ++ R2).getD (X.length - 1) (Char.ofNat 0)))
      = is_boundary X.getLast? := by
    rcases List.eq_nil_or_concat X with rfl | ⟨L, b, rfl⟩
    · rfl
    · have : (L.concat b ++ ['_', 'B', 'o', 'o', 'l'] ++ R2)[(L.concat b).length - 1]?
          = some b := by
        have e : L.concat b ++ ['_', 'B', 'o', 'o', 'l'] ++ R2
            = L ++ (b :: (['_', 'B', 'o', 'o', 'l'] ++ R2)) := by simp
        have e2 : (L.concat b).length - 1 = L.length := by simp
        rw [e, e2, List.getElem?_append_right (Nat.le_refl _), Nat.sub_self]
        rfl
      rw [List.getD_eq_getElem?_getD, this]
      simp [is_boundary]
  have hright : (X.length + 5 == (X ++ ['_', 'B', 'o', 'o', 'l'] ++ R2).length ||
      not_alnum ((X ++ ['_', 'B', 'o', 'o', 'l'] ++ R2).getD (X.length + 5) (Char.ofNat 0)))
      = is_boundary R2.head? := by
    have : (X ++ ['_', 'B', 'o', 'o', 'l'] ++ R2)[X.length + 5]? = R2[0]? := by
      rw [List.getElem?_append_right (by simp)]
      simp
    rw [List.getD_eq_getElem?_getD, this]
    cases R2 with
    | nil => simp [is_boundary]
    | cons r R2 => simp [is_boundary]
  unfold bool_replaceable
  rw [hleft, hright]

/-- The loop of `fix_boolean_types` with the search at the end of `P` leaves `P` and treats
the rest as the scan does. -/
theorem fix_boolean_loop_eq_scan :
    ∀ (fuel : Nat) (P R : List Char), R.length < fuel →
      fix_boolean_loop fuel (P ++ R) P.length = P ++ fix_boolean_scan 0 P.getLast? R := by
  intro fuel
  induction fuel with
  | zero => intro P R h; omega
  | succ fuel ih =>
    intro P R hfuel
    simp only [fix_boolean_loop]
    cases hfind : find (P ++ R) ['_', 'B', 'o', 'o', 'l'] P.length with
    | none =>
      have hnone := find_none _ _ _ (by decide) hfind
      have := fix_boolean_scan_copy R P [] (by
        intro d _ hocc
        apply hnone (P.length + d) (by omega)
        rw [List.drop_append]
        simpa using hocc)
      simp only [List.append_nil, fix_boolean_scan_nil] at this
      simp only [this]
    | some p =>
      obtain ⟨hocc, hp, hb, hfirst⟩ := find_some _ _ _ _ hfind
      obtain ⟨d, rfl⟩ : ∃ d, p = P.length + d := ⟨p - P.length, by omega⟩
      rw [List.drop_append] at hocc
      simp only [List.length_append] at hb
      change (R.drop d).take 5 = ['_', 'B', 'o', 'o', 'l'] at hocc
      have hR : R = R.take d ++ ['_', 'B', 'o', 'o', 'l'] ++ R.drop (d + 5) := by
        have h1 : R.drop d = ['_', 'B', 'o', 'o', 'l'] ++ (R.drop d).drop 5 := by
          conv_lhs => rw [← List.take_append_drop 5 (R.drop d), hocc]
        rw [List.drop_drop] at h1
        rw [List.append_assoc, ← h1, List.take_append_drop]
      have hd : (R.take d).length = d := by
        rw [List.length_take]
        simp only [List.length_cons, List.length_nil] at hb
        omega
      generalize R.take d = R1 at hR hd
      generalize R.drop (d + 5) = R2 at hR
      subst hR
      subst hd
      have hcopy := fix_boolean_scan_copy R1 P (['_', 'B', 'o', 'o', 'l'] ++ R2) (by
        intro d hd hocc2
        apply hfirst (P.length + d) (by omega) (by omega)
        rw [List.drop_append]
        simpa [List.append_assoc] using hocc2)
      have hlen : P.length + R1.length = (P ++ R1).length := by simp
      have htype : P ++ (R1 ++ ['_', 'B', 'o', 'o', 'l'] ++ R2)
          = (P ++ R1) ++ ['_', 'B', 'o', 'o', 'l'] ++ R2 := by simp
      rw [List.append_assoc R1, hcopy, fix_boolean_scan_at]
      rw [← List.append_assoc R1, htype, hlen]
      dsimp only
      rw [bool_replaceable_eq]
      simp only [List.length_append, List.length_cons, List.length_nil] at hfuel
      by_cases hc : (is_boundary (P ++ R1).getLast? && is_boundary R2.head?) = true
      · rw [if_pos hc, if_pos hc]
        have hstr : string_replace (P ++ R1 ++ ['_', 'B', 'o', 'o', 'l'] ++ R2)
            (P ++ R1).length 5 ['b', 'o', 'o', 'l']
            = (P ++ R1 ++ ['b']) ++ ('o' :: 'o' :: 'l' :: R2) := by
          unfold string_replace
          rw [List.append_assoc (P ++ R1), List.take_left, List.drop_append]
          simp
        have hi : (P ++ R1).length + 1 = (P ++ R1 ++ ['b']).length := by simp; omega
        rw [hstr, hi, ih _ _ (by simp; omega), List.getLast?_concat, fix_boolean_scan_ool]
        simp
      · rw [if_neg hc, if_neg hc]
        have hstr : P ++ R1 ++ ['_', 'B', 'o', 'o', 'l'] ++ R2
            = (P ++ R1 ++ ['_']) ++ ('B' :: 'o' :: 'o' :: 'l' :: R2) := by simp
        have hi : (P ++ R1).length + 1 = (P ++ R1 ++ ['_']).length := by simp; omega
        rw [hstr, hi, ih _ _ (by simp; omega), List.getLast?_concat]
        simp

theorem fix_boolean_types_eq_scan (type : List Char) :
    fix_boolean_types type = fix_boolean_scan 0 none type := by
  have := fix_boolean_loop_eq_scan (type.length + 1) [] type (Nat.lt_succ_self _)
  simpa [fix_boolean_types] using this

/-- After a letter or a digit the scan copies the next character. -/
theorem fix_boolean_scan_head (prev : Option Char) (R : List Char)
    (h : is_boundary prev = false) :
    (fix_boolean_scan 0 prev R).head? = R.head? := by
  cases R with
  | nil => rfl
  | cons r R =>
    rw [fix_boolean_scan_zero, h, Bool.and_false, Bool.false_and]
    rfl

/-- A character of the result other than `b` was copied from the input. -/
theorem fix_boolean_scan_copied (prev : Option Char) (cs : List Char) (x : Char)
    (Z : List Char) (hx : x ≠ 'b') (h : fix_boolean_scan 0 prev cs = x :: Z) :
    ∃ rest, cs = x :: rest ∧ Z = fix_boolean_scan 0 (some x) rest := by
  cases cs with
  | nil => cases h
  | cons c cs =>
    rw [fix_boolean_scan_zero] at h
    split at h
    · simp only [List.cons_append, List.cons.injEq] at h
      exact absurd h.1.symm hx
    · simp only [List.cons.injEq] at h
      obtain ⟨h1, h2⟩ := h
      subst h1
      exact ⟨cs, rfl, h2.symm⟩

/-- No `_Bool` between boundaries is left in what the scan writes; `P` is the text written
so far. -/
theorem fix_boolean_scan_leaves_none :
    ∀ (n : Nat) (P R : List Char), R.length ≤ n → ∀ (X Y : List Char),
      fix_boolean_scan 0 P.getLast? R = X ++ ['_', 'B', 'o', 'o', 'l'] ++ Y →
      ¬ (is_boundary (P ++ X).getLast? = true ∧ is_boundary Y.head? = true) := by
  intro n
  induction n with
  | zero =>
    intro P R hlen X Y h
    have hR : R = [] := List.length_eq_zero.mp (by omega)
    subst hR
    rw [fix_boolean_scan_nil] at h
    simp at h
  | succ n ih =>
    intro P R hlen X Y h
    cases R with
    | nil =>
      rw [fix_boolean_scan_nil] at h
      simp at h
    | cons c cs =>
      simp only [List.length_cons] at hlen
      by_cases hpre : ['_', 'B', 'o', 'o', 'l'] <+: c :: cs
      · obtain ⟨R2, hR2⟩ := hpre
        simp only [List.cons_append, List.nil_append, List.cons.injEq] at hR2
        obtain ⟨hc, hcs⟩ := hR2
        subst hc
        subst hcs
        simp only [List.length_cons] at hlen
        have hat := fix_boolean_scan_at P.getLast? R2
        simp only [List.cons_append, List.nil_append] at hat
        rw [hat] at h
        by_cases hb : (is_boundary P.getLast? && is_boundary R2.head?) = true
        · rw [if_pos hb] at h
          have hl : (P ++ ['b', 'o', 'o', 'l']).getLast? = some 'l' := by simp
          rcases X with _ | ⟨x1, _ | ⟨x2, _ | ⟨x3, _ | ⟨x4, X⟩⟩⟩⟩
          · simp at h
          · simp at h
          · simp at h
          · simp at h
          · simp only [List.cons_append, List.cons.injEq] at h
            obtain ⟨h1, h2, h3, h4, h5⟩ := h
            subst h1 h2 h3 h4
            rw [← hl] at h5
            have := ih (P ++ ['b', 'o', 'o', 'l']) R2 (by omega) X Y (by simpa using h5)
            simpa using this
        · rw [if_neg hb] at h
          cases X with
          | nil =>
            rw [fix_boolean_scan_other _ 'B' _ (by decide),
              fix_boolean_scan_other _ 'o' _ (by decide),
              fix_boolean_scan_other _ 'o' _ (by decide),
              fix_boolean_scan_other _ 'l' _ (by decide)] at h
            simp only [List.nil_append, List.cons_append, List.cons.injEq, true_and] at h
            rw [← h, fix_boolean_scan_head _ _ (by decide), List.append_nil]
            intro hcon
            apply hb
            rw [Bool.and_eq_true]
            exact hcon
          | cons x X =>
            simp only [List.cons_append, List.cons.injEq] at h
            obtain ⟨h1, h2⟩ := h
            subst h1
            have hl : (P ++ ['_']).getLast? = some '_' := by simp
            rw [← hl] at h2
            have := ih (P ++ ['_']) ('B' :: 'o' :: 'o' :: 'l' :: R2) (by simp; omega) X Y
              (by simpa using h2)
            simpa using this
      · rw [fix_boolean_scan_keep _ _ _ (by rw [List.isPrefixOf_iff_prefix]; exact hpre)] at h
        cases X with
        | nil =>
          exfalso
          simp only [List.nil_append, List.cons_append, List.cons.injEq] at h
          obtain ⟨h1, h2⟩ := h
          subst h1
          obtain ⟨r1, e1, h3⟩ := fix_boolean_scan_copied _ _ _ _ (by decide) h2
          obtain ⟨r2, e2, h4⟩ := fix_boolean_scan_copied _ _ _ _ (by decide) h3.symm
          obtain ⟨r3, e3, h5⟩ := fix_boolean_scan_copied _ _ _ _ (by decide) h4.symm
          obtain ⟨r4, e4, _⟩ := fix_boolean_scan_copied _ _ _ _ (by decide) h5.symm
          apply hpre
          exact ⟨r4, by rw [e1, e2, e3, e4]; rfl⟩
        | cons x X =>
          simp only [List.cons_append, List.cons.injEq] at h
          obtain ⟨h1, h2⟩ := h
          subst h1
          have hl : (P ++ [c]).getLast? = some c := by simp
          rw [← hl] at h2
          have := ih (P ++ [c]) cs (by omega) X Y (by simpa using h2)
          simpa using this

/-- C19: `fix_boolean_types` replaces all `_Bool` types with `bool`: the string after the call
is the input with each occurrence of `_Bool` that is preceded by the start of the string or
a character that is neither a letter nor a digit, and followed by the end of the string or
such a character, turned into `bool`, every other character kept in order; and the string
after the call contains no occurrence of `_Bool` that stands between two such boundaries. -/
theorem fix_boolean_types_replaces_bool_types (type : List Char) :
    fix_boolean_types type = fix_boolean_scan 0 none type ∧
    ∀ (X Y : List Char), fix_boolean_types type = X ++ ['_', 'B', 'o', 'o', 'l'] ++ Y →
      ¬ (is_boundary X.getLast? = true ∧ is_boundary Y.head? = true) := by
  refine ⟨fix_boolean_types_eq_scan type, ?_⟩
  intro X Y h
  rw [fix_boolean_types_eq_scan] at h
  have := fix_boolean_scan_leaves_none type.length [] type (Nat.le_refl _) X Y h
  simpa using this

/-- Witness for C19: in `a_Bool (_Bool)` the second `_Bool` becomes `bool`; the first one,
which follows a letter, stays. -/
theorem fix_boolean_types_replaces_bool_types_witness :
    fix_boolean_types "a_Bool (_Bool)".toList = "a_Bool (bool)".toList ∧
    fix_boolean_types "a_Bool (_Bool)".toList
      = fix_boolean_scan 0 none "a_Bool (_Bool)".toList ∧
    ¬ (is_boundary ['a'].getLast? = true ∧
        is_boundary [' ', '(', 'b', 'o', 'o', 'l', ')'].head? = true) :=
  ⟨by decide, (fix_boolean_types_replaces_bool_types "a_Bool (_Bool)".toList).1,
    (fix_boolean_types_replaces_bool_types "a_Bool (_Bool)".toList).2 ['a']
      [' ', '(', 'b', 'o', 'o', 'l', ')'] (by decide)⟩

end binder
